import Mathlib

/-!
# LinkedHashMap-LRU: a verification development of `src/lru/lru.hpp`

The four layers of the source are embedded in order:
`double_list`, `hashmap`, `linked_hashmap` and `lru`.

Representation choices.

* A `double_list` is represented by the sequence of its nodes read from `head`
  to `tail`; every node carries the address it was allocated at, so that the
  raw node pointers stored by `linked_hashmap::key_to_node` and by iterators
  can be followed.  `head`, `tail`, `prev` and `next` are read off the
  sequence; the `size` field is kept as in the source.
* `new` takes the next unused address from a counter (`Heap`) that is threaded
  through every operation that allocates; addresses are never reused.
* A null pointer is `none`.  An iterator is represented by its node pointer;
  the pointer to the container it belongs to is left out, every iterator being
  used with the container it was obtained from.
* Using a pointer that does not denote a live node of the list it is used with
  is undefined behaviour in C++; the embedding reports it as `Err.undefined`.
  C++ exceptions are the other values of `Err`.
* `int` and `size_t` are `Int` and `Nat`; conversions to `size_t` and `size_t`
  arithmetic are taken modulo `2^64`.  The field `double_list::size` is an
  `int` of 32 bits: the embedding keeps in it the number the increments and
  decrements of the source have counted, and where the source converts the
  field to `size_t` (`linked_hashmap::size()`) it converts the value the 32
  bits hold for that number (`to_int`, two's complement).  From `2^31` live
  nodes on the increment of the source is a signed overflow, undefined in C++.
* The mutual recursion of `hashmap::insert` and `hashmap::expand` is unfolded
  with a fuel argument (`insertAux`).
* The representation of a `double_list` by a sequence is accounted for in the
  namespace `pointer`: there the class is embedded with its pointers (`head`,
  `tail`, and `prev` and `next` of every node of a memory), its methods
  statement by statement, and the methods are shown to act on the sequence a
  list represents as the operations on sequences do.
* The states a container or a cache can be in are those a sequence of calls of
  its public methods reaches from the newly constructed one (`run`).
-/

set_option autoImplicit false

namespace sjtu

/-! ## Keys (`class-integer.hpp`, `Hash`, `Equal`) -/

/-- Class `Integer` of `class-integer.hpp`: a wrapper around an `int`. -/
structure Integer where
  val : Int
deriving DecidableEq

/-- Functor `Equal` of `lru.hpp`: `lhs.val == rhs.val`. -/
def Equal (lhs rhs : Integer) : Bool := lhs.val == rhs.val

/-- Functor `Hash` with the identity `std::hash<int>` of libstdc++, converted to
`unsigned int`.  The operations below take the hash function as a parameter,
since `std::hash<int>` is implementation-defined. -/
def stdHash (lhs : Integer) : Nat := (lhs.val % 4294967296).toNat

/-! ## Errors and pointers -/

/-- Ways in which an operation can fail: the C++ exceptions thrown by the source,
undefined behaviour (use of a pointer that is not live), and exhaustion of the
fuel that bounds the `insert`/`expand` recursion. -/
inductive Err where
  | invalid_argument
  | runtime_error
  | out_of_range
  | undefined
  | fuel
deriving DecidableEq

/-- A nullable node pointer: `none` is `nullptr`. -/
abbrev Ptr := Option Nat

/-- The allocator state: the next unused address. -/
abbrev Heap := Nat

/-- Conversion of an `int` to `size_t` (64 bits). -/
def to_size_t (x : Int) : Nat := (x % 18446744073709551616).toNat

/-- The value an `int` (32 bits, two's complement) holds for the number `x`:
`x` itself from `INT_MIN = -2^31` to `INT_MAX = 2^31 - 1`, and the number of
that range congruent to `x` modulo `2^32` otherwise. -/
def to_int (x : Int) : Int := (x + 2147483648) % 4294967296 - 2147483648

/-! ## `double_list` -/

/-- Class `Node<T>`: the payload, and the address of the node; `prev` and `next`
are given by the position of the node in the sequence of its list. -/
structure Node (T : Type) where
  addr : Nat
  data : T
deriving DecidableEq

/-- Class `double_list<T>`: the nodes from `head` to `tail`, and the field `size`.
The field is an `int` in the source; here it is the number its increments and
decrements have counted, of which an `int` holds `to_int`. -/
structure double_list (T : Type) where
  nodes : List (Node T)
  size : Int
deriving DecidableEq

namespace double_list

variable {T : Type}

/-- The default constructor `double_list()`. -/
def empty_list : double_list T := { nodes := [], size := 0 }

/-- The field `head`. -/
def head (l : double_list T) : Ptr := l.nodes.head?.map Node.addr

/-- The field `tail`. -/
def tail (l : double_list T) : Ptr := l.nodes.getLast?.map Node.addr

/-- Class `double_list<T>::iterator`: the pointer `current`. -/
structure iterator where
  current : Ptr
deriving DecidableEq

/-- Method `begin()`. -/
def begin_ (l : double_list T) : iterator := ⟨l.head⟩

/-- Method `end()`. -/
def end_ (_l : double_list T) : iterator := ⟨none⟩

/-- The node an address denotes in a sequence of nodes. -/
def nodeAt : List (Node T) → Nat → Option (Node T)
  | [], _ => none
  | n :: rest, a => if n.addr = a then some n else nodeAt rest a

/-- Dereference of a node pointer, `*it` with the null check left to the caller:
undefined unless it denotes a node of the list. -/
def deref (l : double_list T) (p : Ptr) : Except Err T :=
  match p with
  | none => .error .undefined
  | some a =>
    match nodeAt l.nodes a with
    | some n => .ok n.data
    | none => .error .undefined

/-- Unlinking of the node at address `a`: the remaining sequence and the `next`
pointer of the unlinked node; `none` when no node of the sequence has that address. -/
def unlink : List (Node T) → Nat → Option (List (Node T) × Ptr)
  | [], _ => none
  | n :: rest, a =>
    if n.addr = a then some (rest, rest.head?.map Node.addr)
    else
      match unlink rest a with
      | some (r, nx) => some (n :: r, nx)
      | none => none

/-- Method `erase(iterator pos)`: a null `pos` is returned unchanged; otherwise
the node is unlinked and freed, `size` is decremented and an iterator to the
following node is returned. -/
def erase (l : double_list T) (pos : iterator) : Except Err (double_list T × iterator) :=
  match pos.current with
  | none => .ok (l, pos)
  | some a =>
    match unlink l.nodes a with
    | some (r, nx) => .ok ({ nodes := r, size := l.size - 1 }, ⟨nx⟩)
    | none => .error .undefined

/-- Method `insert_head(val)`: a new node becomes the head. -/
def insert_head (l : double_list T) (val : T) (heap : Heap) : double_list T × Heap :=
  match l.nodes with
  | [] => ({ nodes := [⟨heap, val⟩], size := l.size + 1 }, heap + 1)
  | n :: rest => ({ nodes := ⟨heap, val⟩ :: n :: rest, size := l.size + 1 }, heap + 1)

/-- Method `insert_tail(val)`: a new node becomes the tail. -/
def insert_tail (l : double_list T) (val : T) (heap : Heap) : double_list T × Heap :=
  match l.nodes with
  | [] => ({ nodes := [⟨heap, val⟩], size := l.size + 1 }, heap + 1)
  | n :: rest => ({ nodes := (n :: rest) ++ [⟨heap, val⟩], size := l.size + 1 }, heap + 1)

/-- Method `delete_head()`: nothing happens on a list without nodes. -/
def delete_head (l : double_list T) : double_list T :=
  match l.nodes with
  | [] => l
  | _ :: rest => { nodes := rest, size := l.size - 1 }

/-- Method `empty()`: `size == 0`. -/
def empty (l : double_list T) : Bool := l.size == 0

/-- The copy constructor: `insert_tail` of every element of `other`, in order,
into an empty list. -/
def copy (other : double_list T) (heap : Heap) : double_list T × Heap :=
  other.nodes.foldl (fun acc n => insert_tail acc.1 n.data acc.2) (empty_list, heap)

/-- Assignment through a node pointer (`it->second = ...` and the like): the
node at address `a` gets the payload `f data`. -/
def assign : List (Node T) → Nat → (T → T) → List (Node T)
  | [], _, _ => []
  | n :: rest, a, f =>
    if n.addr = a then { n with data := f n.data } :: rest else n :: assign rest a f

/-- Method `clear()`: `delete_head()` as long as `head != nullptr`, that is, once
for every node, then `size = 0`. -/
def clear (l : double_list T) : double_list T :=
  { nodes := (Nat.iterate delete_head l.nodes.length l).nodes, size := 0 }

/-- The loop `while (!bucket.empty()) bucket.delete_head()` of `hashmap::clear()`,
with at most `fuel` calls of `delete_head`. -/
def drainAux : Nat → double_list T → Except Err (double_list T)
  | 0, l => if l.empty then .ok l else .error .fuel
  | fuel + 1, l => if l.empty then .ok l else drainAux fuel l.delete_head

/-- The loop `while (!bucket.empty()) bucket.delete_head()`.  After one call of
`delete_head` for every node the list has no node, `delete_head` changes nothing
any more, and the loop does not end unless `size` is zero: this is the error
`Err.fuel`. -/
def drain (l : double_list T) : Except Err (double_list T) := drainAux l.nodes.length l

end double_list

/-! ## `hashmap` -/

/-- Class `hashmap<Key, T, Hash, Equal>`: the vector `buckets` and the field `size_`. -/
structure hashmap (Key T : Type) where
  buckets : List (double_list (Key × T))
  size_ : Nat
deriving DecidableEq

namespace hashmap

variable {Key T : Type}

/-- Class `hashmap::iterator`: the pointer of the bucket iterator `list_it`, and
`bucket_index`. -/
structure iterator where
  list_it : Ptr
  bucket_index : Nat
deriving DecidableEq

/-- The default constructor `hashmap()`: sixteen buckets without nodes. -/
def new : hashmap Key T :=
  { buckets := List.replicate 16 double_list.empty_list, size_ := 0 }

/-- Method `end()`. -/
def end_ (h : hashmap Key T) : iterator := ⟨none, h.buckets.length⟩

/-- Comparison `operator==` of two iterators of the same table: the comparison of
the node pointers (`bucket_index` is not compared by the source either). -/
def iterator.same (a b : iterator) : Bool := a.list_it == b.list_it

/-- The bucket `buckets[index]`.  Every table has at least one bucket, and the
index is a remainder modulo the number of buckets. -/
def bucket (h : hashmap Key T) (index : Nat) : double_list (Key × T) :=
  h.buckets.getD index double_list.empty_list

/-- The loop shared by `find`, `insert` and `remove`: the first node of the
bucket whose key is `Equal` to `key`. -/
def scan (eq : Key → Key → Bool) (nodes : List (Node (Key × T))) (key : Key) :
    Option (Node (Key × T)) :=
  nodes.find? (fun n => eq n.data.1 key)

/-- Method `find(key)` (line 398 of the source reads `buckets[in   dex]`, which is
taken as `buckets[index]`). -/
def find (hash : Key → Nat) (eq : Key → Key → Bool) (h : hashmap Key T) (key : Key) :
    iterator :=
  let index := hash key % h.buckets.length
  match scan eq (h.bucket index).nodes key with
  | some n => ⟨some n.addr, index⟩
  | none => h.end_

/-- Dereference `*it` of an iterator of the table. -/
def deref (h : hashmap Key T) (it : iterator) : Except Err (Key × T) :=
  (h.bucket it.bucket_index).deref it.list_it

/-- Assignment `it->second = v` through an iterator of the table.  The callers
pass the iterator they have just obtained from the same table. -/
def assign (h : hashmap Key T) (it : iterator) (v : T) : hashmap Key T :=
  match it.list_it with
  | none => h
  | some a =>
    let b := h.bucket it.bucket_index
    let b1 : double_list (Key × T) :=
      { nodes := double_list.assign b.nodes a (fun d => (d.1, v)), size := b.size }
    { buckets := h.buckets.set it.bucket_index b1, size_ := h.size_ }

/-- Copy of the vector of buckets: every bucket is copied by the copy
constructor of `double_list`. -/
def copyBuckets : List (double_list (Key × T)) → Heap → List (double_list (Key × T)) × Heap
  | [], heap => ([], heap)
  | b :: rest, heap =>
    let (b1, heap1) := b.copy heap
    let (rest1, heap2) := copyBuckets rest heap1
    (b1 :: rest1, heap2)

/-- The loop of `expand()`: `insert(*it)` for every node of every old bucket;
`ins` is `insert`. -/
def reinsert
    (ins : hashmap Key T → Key × T → Heap → Except Err (hashmap Key T × iterator × Bool × Heap)) :
    List (Key × T) → hashmap Key T → Heap → Except Err (hashmap Key T × Heap)
  | [], h, heap => .ok (h, heap)
  | e :: rest, h, heap =>
    match ins h e heap with
    | .ok (h1, _, _, heap1) => reinsert ins rest h1 heap1
    | .error err => .error err

/-- Method `expand()`: the buckets are copied to `old_buckets`, replaced by twice
as many empty buckets, `size_` is reset and every old entry is inserted again. -/
def expandWith
    (ins : hashmap Key T → Key × T → Heap → Except Err (hashmap Key T × iterator × Bool × Heap))
    (h : hashmap Key T) (heap : Heap) : Except Err (hashmap Key T × Heap) :=
  let (old_buckets, heap1) := copyBuckets h.buckets heap
  reinsert ins ((old_buckets.map (fun b => b.nodes.map Node.data)).flatten)
    { buckets := List.replicate (old_buckets.length * 2) double_list.empty_list, size_ := 0 } heap1

/-- Method `insert(value_pair)` with the recursion through `expand()` bounded by
fuel.  The comparison `static_cast<double>(size_) / buckets.size() >= 0.5` is
`2 * size_ >= buckets.size()`. -/
def insertAux (hash : Key → Nat) (eq : Key → Key → Bool) :
    Nat → hashmap Key T → Key × T → Heap → Except Err (hashmap Key T × iterator × Bool × Heap)
  | 0, _, _, _ => .error .fuel
  | fuel + 1, h, value_pair, heap =>
    let index := hash value_pair.1 % h.buckets.length
    match scan eq (h.bucket index).nodes value_pair.1 with
    | some n =>
      let it : iterator := ⟨some n.addr, index⟩
      .ok (h.assign it value_pair.2, it, false, heap)
    | none =>
      match (if 2 * h.size_ ≥ h.buckets.length
             then expandWith (insertAux hash eq fuel) h heap else .ok (h, heap)) with
      | .error err => .error err
      | .ok (h1, heap1) =>
        let index1 := hash value_pair.1 % h1.buckets.length
        let (b, heap2) := (h1.bucket index1).insert_head value_pair heap1
        .ok ({ buckets := h1.buckets.set index1 b, size_ := (h1.size_ + 1) % 18446744073709551616 },
             ⟨b.head, index1⟩, true, heap2)

/-- The number of nodes in the buckets. -/
def count (h : hashmap Key T) : Nat := (h.buckets.map (fun b => b.nodes.length)).sum

/-- Method `insert(value_pair)`.  The fuel, one more than the number of entries,
is enough for the call to return on every well-formed table (`insertAux_spec`). -/
def insert (hash : Key → Nat) (eq : Key → Key → Bool) (h : hashmap Key T) (value_pair : Key × T)
    (heap : Heap) : Except Err (hashmap Key T × iterator × Bool × Heap) :=
  insertAux hash eq (h.count + 1) h value_pair heap

/-- Method `expand()`. -/
def expand (hash : Key → Nat) (eq : Key → Key → Bool) (h : hashmap Key T) (heap : Heap) :
    Except Err (hashmap Key T × Heap) :=
  expandWith (insertAux hash eq h.count) h heap

/-- Method `remove(key)`. -/
def remove (hash : Key → Nat) (eq : Key → Key → Bool) (h : hashmap Key T) (key : Key) :
    Except Err (hashmap Key T × Bool) :=
  let index := hash key % h.buckets.length
  match scan eq (h.bucket index).nodes key with
  | some n =>
    match (h.bucket index).erase ⟨some n.addr⟩ with
    | .ok (b, _) =>
      .ok ({ buckets := h.buckets.set index b,
             size_ := (h.size_ + 18446744073709551615) % 18446744073709551616 }, true)
    | .error err => .error err
  | none => .ok (h, false)

/-- Method `operator[](key)`: `insert(value_type(key, T()))`; the reference
returned, `result.first->second`, is represented by the iterator. -/
def subscript (hash : Key → Nat) (eq : Key → Key → Bool) (dflt : T) (h : hashmap Key T) (key : Key)
    (heap : Heap) : Except Err (hashmap Key T × iterator × Heap) :=
  match insert hash eq h (key, dflt) heap with
  | .ok (h1, it, _, heap1) => .ok (h1, it, heap1)
  | .error err => .error err

/-- The loop over the buckets of `clear()`. -/
def drainAll : List (double_list (Key × T)) → Except Err (List (double_list (Key × T)))
  | [] => .ok []
  | b :: rest =>
    match b.drain with
    | .error err => .error err
    | .ok b1 =>
      match drainAll rest with
      | .error err => .error err
      | .ok rest1 => .ok (b1 :: rest1)

/-- Method `clear()`: every bucket is emptied, `size_ = 0`; the number of buckets
stays. -/
def clear (h : hashmap Key T) : Except Err (hashmap Key T) :=
  match drainAll h.buckets with
  | .error err => .error err
  | .ok bs => .ok { buckets := bs, size_ := 0 }

/-- The call `buckets.resize(n)`: the first `n` buckets are kept, and empty
buckets are appended up to `n`. -/
def resize (bs : List (double_list (Key × T))) (n : Nat) : List (double_list (Key × T)) :=
  bs.take n ++ List.replicate (n - bs.length) double_list.empty_list

/-- The copy constructor `hashmap(const hashmap &other)`: `size_` starts as
`other.size_`, there are as many empty buckets as `other` has buckets, and every
entry of `other` is inserted, bucket after bucket. -/
def copy (hash : Key → Nat) (eq : Key → Key → Bool) (other : hashmap Key T) (heap : Heap) :
    Except Err (hashmap Key T × Heap) :=
  reinsert (insert hash eq) ((other.buckets.map (fun b => b.nodes.map Node.data)).flatten)
    { buckets := resize [] other.buckets.length, size_ := other.size_ } heap

/-- The assignment `operator=(const hashmap &other)` to the table `self`; `same`
is the outcome of the test `this == &other`, in which case nothing is done. -/
def assign_from (hash : Key → Nat) (eq : Key → Key → Bool) (self other : hashmap Key T)
    (same : Bool) (heap : Heap) : Except Err (hashmap Key T × Heap) :=
  if same then .ok (self, heap)
  else
    match self.clear with
    | .error err => .error err
    | .ok h0 =>
      reinsert (insert hash eq) ((other.buckets.map (fun b => b.nodes.map Node.data)).flatten)
        { buckets := resize h0.buckets other.buckets.length, size_ := other.size_ } heap

end hashmap

/-! ## `linked_hashmap` -/

/-- Class `linked_hashmap<Key, T, Hash, Equal>`: the inherited `hashmap` (`base`),
the list `insert_list`, and the index `key_to_node` from keys to node pointers. -/
structure linked_hashmap (Key T : Type) where
  base : hashmap Key T
  insert_list : double_list (Key × T)
  key_to_node : hashmap Key Ptr
deriving DecidableEq

namespace linked_hashmap

variable {Key T : Type}

/-- Class `linked_hashmap::iterator`: the node pointer `current`. -/
structure iterator where
  current : Ptr
deriving DecidableEq

/-- The default constructor. -/
def new : linked_hashmap Key T :=
  { base := hashmap.new, insert_list := double_list.empty_list, key_to_node := hashmap.new }

/-- Method `begin()`. -/
def begin_ (m : linked_hashmap Key T) : iterator := ⟨m.insert_list.head⟩

/-- Method `end()`. -/
def end_ (_m : linked_hashmap Key T) : iterator := ⟨none⟩

/-- Method `size()`: the `int` field `insert_list.size`, converted to `size_t`. -/
def size (m : linked_hashmap Key T) : Nat := to_size_t (to_int m.insert_list.size)

/-- Dereference `*it` (and `it->`) of an iterator of the map. -/
def deref (m : linked_hashmap Key T) (it : iterator) : Except Err (Key × T) :=
  match it.current with
  | none => .error .runtime_error
  | some a => m.insert_list.deref (some a)

/-- The statement `key_to_node[key] = p`. -/
def set_node (hash : Key → Nat) (eq : Key → Key → Bool) (kn : hashmap Key Ptr) (key : Key) (p : Ptr)
    (heap : Heap) : Except Err (hashmap Key Ptr × Heap) :=
  match kn.subscript hash eq none key heap with
  | .ok (kn1, ref, heap1) => .ok (kn1.assign ref p, heap1)
  | .error err => .error err

/-- Method `insert(value)`. -/
def insert (hash : Key → Nat) (eq : Key → Key → Bool) (m : linked_hashmap Key T) (value : Key × T)
    (heap : Heap) : Except Err (linked_hashmap Key T × iterator × Bool × Heap) :=
  match m.base.insert hash eq value heap with
  | .error err => .error err
  | .ok (base1, _, second, heap1) =>
    if second then
      let (il, heap2) := m.insert_list.insert_tail value heap1
      match set_node hash eq m.key_to_node value.1 il.tail heap2 with
      | .error err => .error err
      | .ok (kn, heap3) =>
        .ok ({ base := base1, insert_list := il, key_to_node := kn }, ⟨il.tail⟩, true, heap3)
    else
      let it := m.key_to_node.find hash eq value.1
      if !(it.same m.key_to_node.end_) then
        match m.key_to_node.deref it with
        | .error err => .error err
        | .ok (_, old_node) =>
          match m.insert_list.erase ⟨old_node⟩ with
          | .error err => .error err
          | .ok (il0, _) =>
            let (il, heap2) := il0.insert_tail value heap1
            match set_node hash eq m.key_to_node value.1 il.tail heap2 with
            | .error err => .error err
            | .ok (kn, heap3) =>
              let m1 : linked_hashmap Key T := { base := base1, insert_list := il, key_to_node := kn }
              .ok (m1, m1.begin_, false, heap3)
      else
        let m1 : linked_hashmap Key T := { m with base := base1 }
        .ok (m1, m1.begin_, false, heap1)

/-- Method `remove(pos)`. -/
def remove (hash : Key → Nat) (eq : Key → Key → Bool) (m : linked_hashmap Key T) (pos : iterator) :
    Except Err (linked_hashmap Key T) :=
  match pos.current with
  | none => .error .runtime_error
  | some a =>
    match m.insert_list.deref (some a) with
    | .error err => .error err
    | .ok x =>
      match m.base.remove hash eq x.1 with
      | .error err => .error err
      | .ok (base1, _) =>
        match m.insert_list.erase ⟨some a⟩ with
        | .error err => .error err
        | .ok (il, _) =>
          match m.key_to_node.remove hash eq x.1 with
          | .error err => .error err
          | .ok (kn, _) => .ok { base := base1, insert_list := il, key_to_node := kn }

/-- Method `find(key)`: the lookup in `key_to_node`. -/
def find (hash : Key → Nat) (eq : Key → Key → Bool) (m : linked_hashmap Key T) (key : Key) :
    Except Err iterator :=
  let it := m.key_to_node.find hash eq key
  if it.same m.key_to_node.end_ then .ok m.end_
  else
    match m.key_to_node.deref it with
    | .error err => .error err
    | .ok (_, p) => .ok ⟨p⟩

/-- Method `at(key)`: the lookup in the inherited table; the reference returned,
`it->second`, is represented by the value it refers to. -/
def at_ (hash : Key → Nat) (eq : Key → Key → Bool) (m : linked_hashmap Key T) (key : Key) :
    Except Err T :=
  let it := m.base.find hash eq key
  if it.same m.base.end_ then .error .out_of_range
  else
    match m.base.deref it with
    | .error err => .error err
    | .ok x => .ok x.2

/-- Method `operator[](key)` (the one that is not `const`); `dflt` is `T()`.  The
reference returned, `result.first->second`, is represented by the value it
refers to when the call returns. -/
def subscript (hash : Key → Nat) (eq : Key → Key → Bool) (dflt : T) (m : linked_hashmap Key T)
    (key : Key) (heap : Heap) : Except Err (linked_hashmap Key T × T × Heap) :=
  let it := m.base.find hash eq key
  if it.same m.base.end_ then .error .out_of_range
  else
    match m.base.insert hash eq (key, dflt) heap with
    | .error err => .error err
    | .ok (base1, first, second, heap1) =>
      match base1.deref first with
      | .error err => .error err
      | .ok value =>
        if second then
          let (il, heap2) := m.insert_list.insert_tail value heap1
          match m.key_to_node.insert hash eq (key, il.tail) heap2 with
          | .error err => .error err
          | .ok (kn, _, _, heap3) =>
            .ok ({ base := base1, insert_list := il, key_to_node := kn }, value.2, heap3)
        else
          match find hash eq m key with
          | .error err => .error err
          | .ok list_it =>
            match m.insert_list.erase ⟨list_it.current⟩ with
            | .error err => .error err
            | .ok (il0, _) =>
              let (il, heap2) := il0.insert_head value heap1
              match set_node hash eq m.key_to_node key il.head heap2 with
              | .error err => .error err
              | .ok (kn, heap3) =>
                .ok ({ base := base1, insert_list := il, key_to_node := kn }, value.2, heap3)

/-- Method `clear()`. -/
def clear (m : linked_hashmap Key T) : Except Err (linked_hashmap Key T) :=
  match m.base.clear with
  | .error err => .error err
  | .ok base1 =>
    match m.key_to_node.clear with
    | .error err => .error err
    | .ok kn => .ok { base := base1, insert_list := m.insert_list.clear, key_to_node := kn }

/-- The loop of the copy constructor over the nodes of `other.insert_list`:
`insert_list.insert_tail(*it); key_to_node.insert({it->first, insert_list.tail})`. -/
def copy_loop (hash : Key → Nat) (eq : Key → Key → Bool) :
    List (Node (Key × T)) → double_list (Key × T) → hashmap Key Ptr → Heap →
      Except Err (double_list (Key × T) × hashmap Key Ptr × Heap)
  | [], il, kn, heap => .ok (il, kn, heap)
  | n :: rest, il, kn, heap =>
    let (il1, heap1) := il.insert_tail n.data heap
    match kn.insert hash eq (n.data.1, il1.tail) heap1 with
    | .error err => .error err
    | .ok (kn1, _, _, heap2) => copy_loop hash eq rest il1 kn1 heap2

/-- The copy constructor `linked_hashmap(const linked_hashmap &other)`. -/
def copy (hash : Key → Nat) (eq : Key → Key → Bool) (other : linked_hashmap Key T) (heap : Heap) :
    Except Err (linked_hashmap Key T × Heap) :=
  match other.base.copy hash eq heap with
  | .error err => .error err
  | .ok (base1, heap1) =>
    match copy_loop hash eq other.insert_list.nodes double_list.empty_list hashmap.new heap1 with
    | .error err => .error err
    | .ok (il, kn, heap2) => .ok ({ base := base1, insert_list := il, key_to_node := kn }, heap2)

/-- The loop of `operator=` over the nodes of `other.insert_list`:
`insert_list.insert_tail(*it); key_to_node.insert({it->first, it.current})`,
where `it` is an iterator of `other.insert_list`. -/
def assign_loop (hash : Key → Nat) (eq : Key → Key → Bool) :
    List (Node (Key × T)) → double_list (Key × T) → hashmap Key Ptr → Heap →
      Except Err (double_list (Key × T) × hashmap Key Ptr × Heap)
  | [], il, kn, heap => .ok (il, kn, heap)
  | n :: rest, il, kn, heap =>
    let (il1, heap1) := il.insert_tail n.data heap
    match kn.insert hash eq (n.data.1, some n.addr) heap1 with
    | .error err => .error err
    | .ok (kn1, _, _, heap2) => assign_loop hash eq rest il1 kn1 heap2

/-- The assignment `operator=(const linked_hashmap &other)` to the map `self`;
`same` is the outcome of the test `this == &other`, in which case nothing is
done. -/
def assign_from (hash : Key → Nat) (eq : Key → Key → Bool) (self other : linked_hashmap Key T)
    (same : Bool) (heap : Heap) : Except Err (linked_hashmap Key T × Heap) :=
  if same then .ok (self, heap)
  else
    match self.base.assign_from hash eq other.base false heap with
    | .error err => .error err
    | .ok (base1, heap1) =>
      match self.key_to_node.clear with
      | .error err => .error err
      | .ok kn0 =>
        match assign_loop hash eq other.insert_list.nodes self.insert_list.clear kn0 heap1 with
        | .error err => .error err
        | .ok (il, kn, heap2) =>
          .ok ({ base := base1, insert_list := il, key_to_node := kn }, heap2)

end linked_hashmap

/-! ## `lru` -/

/-- Class `lru`: the field `capacity` and the map `memory`. -/
structure lru (T : Type) where
  capacity : Int
  memory : linked_hashmap Integer T
deriving DecidableEq

namespace lru

variable {T : Type}

/-- The constructor `lru(int size)`. -/
def new (size : Int) : lru T := { capacity := size, memory := linked_hashmap.new }

/-- Method `save(v)`.  In `memory->size() > capacity` the `int` is converted to
`size_t`. -/
def save (hash : Integer → Nat) (c : lru T) (v : Integer × T) (heap : Heap) :
    Except Err (lru T × Heap) :=
  match c.memory.insert hash Equal v heap with
  | .error err => .error err
  | .ok (m, _, second, heap1) =>
    if !second then .ok ({ c with memory := m }, heap1)
    else
      if m.size > to_size_t c.capacity then
        let first := m.begin_
        match m.remove hash Equal first with
        | .error err => .error err
        | .ok m1 => .ok ({ c with memory := m1 }, heap1)
      else .ok ({ c with memory := m }, heap1)

/-- Method `get(v)`: the pointer returned, `&(newIt->second)`, is represented by
the node pointer of `newIt`; `nullptr` is `none`. -/
def get (hash : Integer → Nat) (c : lru T) (v : Integer) (heap : Heap) :
    Except Err (lru T × Ptr × Heap) :=
  match c.memory.find hash Equal v with
  | .error err => .error err
  | .ok it =>
    if it ≠ c.memory.end_ then
      match c.memory.insert_list.deref it.current with
      | .error err => .error err
      | .ok (key, value) =>
        match c.memory.remove hash Equal it with
        | .error err => .error err
        | .ok m =>
          match m.insert hash Equal (key, value) heap with
          | .error err => .error err
          | .ok (m1, newIt, _, heap1) => .ok ({ c with memory := m1 }, newIt.current, heap1)
    else .ok (c, none, heap)

end lru


/-! ## Abstraction and invariants of `hashmap` -/

namespace hashmap

variable {Key T : Type}

/-- The value the table associates to a key: the payload of the node `find`
stops at. -/
def lookup (hash : Key → Nat) (eq : Key → Key → Bool) (h : hashmap Key T) (key : Key) : Option T :=
  (scan eq (h.bucket (hash key % h.buckets.length)).nodes key).map (fun n => n.data.2)

/-- Well-formedness of bucket number `i` of a table with `len` buckets: its keys
hash to `i`, no key and no address occurs twice, every address is allocated,
and the field `size` is the number of nodes. -/
def BucketOK (hash : Key → Nat) (len : Nat) (heap : Heap) (i : Nat) (b : double_list (Key × T)) :
    Prop :=
  (∀ n ∈ b.nodes, hash n.data.1 % len = i) ∧
  (b.nodes.map (fun n => n.data.1)).Nodup ∧
  (b.nodes.map Node.addr).Nodup ∧
  (∀ n ∈ b.nodes, n.addr < heap) ∧
  b.size = b.nodes.length

/-- Well-formedness of a table: there is a bucket, and every bucket is
well-formed. -/
def WF (hash : Key → Nat) (h : hashmap Key T) (heap : Heap) : Prop :=
  0 < h.buckets.length ∧
  ∀ i, i < h.buckets.length → BucketOK hash h.buckets.length heap i (h.bucket i)

end hashmap


namespace hashmap

variable {Key T : Type} [DecidableEq Key]

/-- What a call of `insert(value_pair)` on the table `h` is to return: the new
table is well-formed and maps the key to the new value and every other key as
before, the iterator is the one `find` gives for the key, and the flag tells
whether the key was absent.  When the field `size_` of `h` is its number of
entries (below `2^64`), so is that of the new table, and the number of entries
has grown by one for a new key and not at all otherwise. -/
def InsertOK (hash : Key → Nat) (eq : Key → Key → Bool) (h : hashmap Key T) (value_pair : Key × T)
    (heap : Heap) (r : Except Err (hashmap Key T × iterator × Bool × Heap)) : Prop :=
  ∃ h1 heap1,
    r = .ok (h1, find hash eq h1 value_pair.1, (lookup hash eq h value_pair.1).isNone, heap1) ∧
    WF hash h1 heap1 ∧ heap ≤ heap1 ∧ count h1 ≤ count h + 1 ∧
    (∀ k, lookup hash eq h1 k
      = if k = value_pair.1 then some value_pair.2 else lookup hash eq h k) ∧
    (h.size_ = count h → count h + 1 < 18446744073709551616 →
      h1.size_ = count h1 ∧
      count h1 = count h + (if (lookup hash eq h value_pair.1).isNone then 1 else 0))

end hashmap


/-! ## Invariant of `linked_hashmap` -/

namespace linked_hashmap

variable {Key T : Type}

/-- The keys of the map in iteration order (`begin()` to `end()`). -/
def keys (m : linked_hashmap Key T) : List Key := m.insert_list.nodes.map (fun n => n.data.1)

/-- The entries of the map in iteration order (`begin()` to `end()`). -/
def entries (m : linked_hashmap Key T) : List (Key × T) := m.insert_list.nodes.map Node.data

/-- Consistency of the three parts of a `linked_hashmap`: both tables are
well-formed, `insert_list` holds every key once, in live nodes with distinct
addresses, `size` is the number of nodes, the inherited table holds exactly
the entries of `insert_list`, and `key_to_node` maps exactly the keys of
`insert_list`, each to the node that holds it. -/
structure WF (hash : Key → Nat) (eq : Key → Key → Bool) (m : linked_hashmap Key T) (heap : Heap) :
    Prop where
  base : hashmap.WF hash m.base heap
  index : hashmap.WF hash m.key_to_node heap
  nodup_keys : m.keys.Nodup
  nodup_addrs : (m.insert_list.nodes.map Node.addr).Nodup
  fresh : ∀ n ∈ m.insert_list.nodes, n.addr < heap
  size_eq : m.insert_list.size = m.insert_list.nodes.length
  base_agree : ∀ k v, hashmap.lookup hash eq m.base k = some v ↔
    ∃ n ∈ m.insert_list.nodes, n.data = (k, v)
  index_agree : ∀ k p, hashmap.lookup hash eq m.key_to_node k = some p ↔
    ∃ n ∈ m.insert_list.nodes, n.data.1 = k ∧ p = some n.addr

end linked_hashmap


/-! ## Call sequences on an `lru` -/

namespace lru

variable {T : Type}

/-- The invariant of a cache whose capacity is a positive `int`: the map is
consistent and holds at most `capacity` nodes. -/
def Inv (hash : Integer → Nat) (c : lru T) (heap : Heap) : Prop :=
  linked_hashmap.WF hash Equal c.memory heap ∧ 1 ≤ c.capacity ∧ c.capacity ≤ 2147483647 ∧
  (c.memory.insert_list.nodes.length : Int) ≤ c.capacity

/-- A call of one of the two public methods. -/
inductive Op (T : Type) where
  | save (v : Integer × T)
  | get (v : Integer)

/-- One call: the new cache, the pointer returned (`none` for `save`, which
returns nothing) and the new allocator state. -/
def step (hash : Integer → Nat) (c : lru T) (heap : Heap) : Op T → Except Err (lru T × Ptr × Heap)
  | .save v =>
    match save hash c v heap with
    | .ok (c1, heap1) => .ok (c1, none, heap1)
    | .error err => .error err
  | .get v => get hash c v heap

/-- A sequence of calls. -/
def run (hash : Integer → Nat) : List (Op T) → lru T → Heap → Except Err (lru T × Heap)
  | [], c, heap => .ok (c, heap)
  | op :: rest, c, heap =>
    match step hash c heap op with
    | .ok (c1, _, heap1) => run hash rest c1 heap1
    | .error err => .error err

/-- Whether `get(k)` finds the key: the test `it != memory->end()`. -/
def hit (hash : Integer → Nat) (c : lru T) (k : Integer) : Bool :=
  match c.memory.find hash Equal k with
  | .ok it => decide (it ≠ c.memory.end_)
  | .error _ => false

/-- Whether a call made in the state `c` touches the key `k`: it is a `save` of
`k`, or a `get` of `k` that finds it. -/
def touches (hash : Integer → Nat) (c : lru T) (k : Integer) : Op T → Bool
  | .save v => decide (v.1 = k)
  | .get v => decide (v = k) && hit hash c k

/-- The time of the most recent touch of the key `k` in a sequence of calls that
starts at time `t` in the state `c`; `acc` is the most recent touch before `t`. -/
def lastTouch (hash : Integer → Nat) (k : Integer) :
    List (Op T) → lru T → Heap → Nat → Option Nat → Option Nat
  | [], _, _, _, acc => acc
  | op :: rest, c, heap, t, acc =>
    match step hash c heap op with
    | .ok (c1, _, heap1) =>
      lastTouch hash k rest c1 heap1 (t + 1) (if touches hash c k op then some t else acc)
    | .error _ => if touches hash c k op then some t else acc

end lru


namespace lru

/-- The keys `ks` are listed in the order of their most recent touches: `f`
gives every key of the list a touch time before `t`, and the times increase
strictly along the list. -/
def Ordered (f : Integer → Option Nat) (t : Nat) (ks : List Integer) : Prop :=
  ks.Pairwise (fun k1 k2 => ∃ t1 t2, f k1 = some t1 ∧ f k2 = some t2 ∧ t1 < t2) ∧
  ∀ k ∈ ks, ∃ t1, f k = some t1 ∧ t1 < t

end lru


/-! ## Concrete caches -/

namespace lru

/-- Two calls on a new cache of capacity two. -/
def exOps : List (Op String) := [.save (⟨1⟩, "A"), .save (⟨2⟩, "B")]

/-- The cache, and the allocator state, after the calls `exOps` with the hash
function `stdHash`. -/
def exState : lru String × Heap :=
  match run stdHash exOps (new 2) 0 with
  | .ok r => r
  | .error _ => (new 2, 0)

end lru


namespace lru

/-- The cache, and the allocator state, after `save(3, "C")` in the state
`exState`. -/
def exAfterSave : lru String × Heap :=
  match save stdHash exState.1 (⟨3⟩, "C") exState.2 with
  | .ok r => r
  | .error _ => exState

/-- The key `i - 1`, paired with the empty string. -/
def exPair (i : Nat) : Integer × String := (⟨(i : Int) - 1⟩, "")

/-- The pairs of the keys `-1, 0, 1, …, 2^31 - 1`, all of them values of `int`,
with the empty string: `2^31 + 1` pairs, `INT_MAX + 2`. -/
def exManyPairs : List (Integer × String) := (List.range (2147483648 + 1)).map exPair

end lru

namespace linked_hashmap

/-- The map, and the allocator state, after `insert((1, "A"))` and
`insert((2, "B"))` on a new map, with the hash function `stdHash`. -/
def exMap : linked_hashmap Integer String × Heap :=
  match insert stdHash Equal new (⟨1⟩, "A") 0 with
  | .error _ => (new, 0)
  | .ok (m1, _, _, heap1) =>
    match insert stdHash Equal m1 (⟨2⟩, "B") heap1 with
    | .error _ => (new, 0)
    | .ok (m2, _, _, heap2) => (m2, heap2)

/-- The call `insert((2, "C"))` on `exMap`: the flag returned, what the iterator
returned dereferences to, and the entries of the map after the call. -/
def exInsertPresent : Except Err (Bool × Except Err (Integer × String) × List (Integer × String)) :=
  match insert stdHash Equal exMap.1 (⟨2⟩, "C") exMap.2 with
  | .error err => .error err
  | .ok (m, it, second, _) => .ok (second, m.deref it, m.entries)

end linked_hashmap


/-! ## Call sequences on a `hashmap` -/

namespace hashmap

variable {Key T : Type}

/-- The entries of the table: bucket after bucket, every bucket from its head to
its tail. -/
def entries (h : hashmap Key T) : List (Key × T) :=
  (h.buckets.map (fun b => b.nodes.map Node.data)).flatten

/-- A call of one of the public methods that modify a table. -/
inductive Op (Key T : Type) where
  | insert (value_pair : Key × T)
  | remove (key : Key)
  | clear

/-- One call: the new table and the new allocator state. -/
def step (hash : Key → Nat) (eq : Key → Key → Bool) (h : hashmap Key T) (heap : Heap) :
    Op Key T → Except Err (hashmap Key T × Heap)
  | .insert value_pair =>
    match insert hash eq h value_pair heap with
    | .ok (h1, _, _, heap1) => .ok (h1, heap1)
    | .error err => .error err
  | .remove key =>
    match remove hash eq h key with
    | .ok (h1, _) => .ok (h1, heap)
    | .error err => .error err
  | .clear =>
    match h.clear with
    | .ok h1 => .ok (h1, heap)
    | .error err => .error err

/-- A sequence of calls. -/
def run (hash : Key → Nat) (eq : Key → Key → Bool) :
    List (Op Key T) → hashmap Key T → Heap → Except Err (hashmap Key T × Heap)
  | [], h, heap => .ok (h, heap)
  | op :: rest, h, heap =>
    match step hash eq h heap op with
    | .ok (h1, heap1) => run hash eq rest h1 heap1
    | .error err => .error err

/-- The abstract finite map of the specification: a sequence of calls replayed
on a function from keys to values, starting from `f`. -/
def replay [DecidableEq Key] : List (Op Key T) → (Key → Option T) → Key → Option T
  | [], f => f
  | .insert value_pair :: rest, f =>
    replay rest (fun k => if k = value_pair.1 then some value_pair.2 else f k)
  | .remove key :: rest, f => replay rest (fun k => if k = key then none else f k)
  | .clear :: rest, _ => replay rest (fun _ => none)

/-- The invariant of the tables reached from `hashmap()`: the table is
well-formed, `size_` is the number of entries, at most half as many as there
are buckets, and the number of buckets is even. -/
def Inv (hash : Key → Nat) (h : hashmap Key T) (heap : Heap) : Prop :=
  WF hash h heap ∧ h.size_ = count h ∧ 2 * h.size_ ≤ h.buckets.length ∧
  h.buckets.length % 2 = 0

end hashmap


/-! ## Call sequences on a `linked_hashmap` -/

namespace linked_hashmap

variable {Key T : Type}

/-- A call of one of the public methods that modify a map. -/
inductive Op (Key T : Type) where
  | insert (value : Key × T)
  | remove (pos : iterator)
  | clear

/-- One call: the new map and the new allocator state. -/
def step (hash : Key → Nat) (eq : Key → Key → Bool) (m : linked_hashmap Key T) (heap : Heap) :
    Op Key T → Except Err (linked_hashmap Key T × Heap)
  | .insert value =>
    match insert hash eq m value heap with
    | .ok (m1, _, _, heap1) => .ok (m1, heap1)
    | .error err => .error err
  | .remove pos =>
    match remove hash eq m pos with
    | .ok m1 => .ok (m1, heap)
    | .error err => .error err
  | .clear =>
    match m.clear with
    | .ok m1 => .ok (m1, heap)
    | .error err => .error err

/-- A sequence of calls. -/
def run (hash : Key → Nat) (eq : Key → Key → Bool) :
    List (Op Key T) → linked_hashmap Key T → Heap → Except Err (linked_hashmap Key T × Heap)
  | [], m, heap => .ok (m, heap)
  | op :: rest, m, heap =>
    match step hash eq m heap op with
    | .ok (m1, heap1) => run hash eq rest m1 heap1
    | .error err => .error err

/-- The value most recently inserted for the key `k` by a sequence of calls;
`acc` is the one inserted before the sequence. -/
def lastInserted [DecidableEq Key] (k : Key) : List (Op Key T) → Option T → Option T
  | [], acc => acc
  | .insert value :: rest, acc => lastInserted k rest (if value.1 = k then some value.2 else acc)
  | .remove _ :: rest, acc => lastInserted k rest acc
  | .clear :: rest, acc => lastInserted k rest acc

end linked_hashmap


/-! ## What a caller of `lru` observes -/

namespace lru

variable {T : Type}

/-- One call together with what it lets the caller observe: for a `get` that
returns a pointer that is not null, the value it points to; `none` otherwise. -/
def observe (hash : Integer → Nat) (c : lru T) (heap : Heap) (op : Op T) :
    Except Err (lru T × Heap × Option T) :=
  match step hash c heap op with
  | .error err => .error err
  | .ok (c1, p, heap1) =>
    match p with
    | none => .ok (c1, heap1, none)
    | some a =>
      match c1.memory.insert_list.deref (some a) with
      | .error err => .error err
      | .ok x => .ok (c1, heap1, some x.2)

/-- The observations of a sequence of calls: after every call, what it returned
and the entries of the cache in iteration order. -/
def trace (hash : Integer → Nat) :
    List (Op T) → lru T → Heap → Except Err (List (Option T × List (Integer × T)))
  | [], _, _ => .ok []
  | op :: rest, c, heap =>
    match observe hash c heap op with
    | .error err => .error err
    | .ok (c1, heap1, r) =>
      match trace hash rest c1 heap1 with
      | .error err => .error err
      | .ok t => .ok ((r, c1.memory.entries) :: t)

end lru


/-! ## Concrete tables and maps -/

namespace hashmap

/-- Seven calls of `insert` with different keys. -/
def exSevenOps : List (Op Integer String) :=
  [.insert (⟨1⟩, "a"), .insert (⟨2⟩, "b"), .insert (⟨3⟩, "c"), .insert (⟨4⟩, "d"),
   .insert (⟨5⟩, "e"), .insert (⟨6⟩, "f"), .insert (⟨7⟩, "g")]

/-- The table, and the allocator state, after the calls `exSevenOps` on a new
table, with the hash function `stdHash`. -/
def exSeven : hashmap Integer String × Heap :=
  match run stdHash Equal exSevenOps new 0 with
  | .ok r => r
  | .error _ => (new, 0)

/-- The call `insert((8, "h"))` on the table `exSeven`: the table, the iterator,
the flag and the allocator state it returns. -/
def exEighth : hashmap Integer String × iterator × Bool × Heap :=
  match insert stdHash Equal exSeven.1 (⟨8⟩, "h") exSeven.2 with
  | .ok r => r
  | .error _ => (new, ⟨none, 0⟩, false, 0)

/-- The table, and the allocator state, after `insert((1, "A"))` on a new table. -/
def exOne : hashmap Integer String × Heap :=
  match run stdHash Equal [.insert (⟨1⟩, "A")] new 0 with
  | .ok r => r
  | .error _ => (new, 0)

/-- The field `size_` and the number of entries of the copy of `exOne` made by
the copy constructor. -/
def exCopySizes : Except Err (Nat × Nat) :=
  match copy stdHash Equal exOne.1 exOne.2 with
  | .error err => .error err
  | .ok (h, _) => .ok (h.size_, h.entries.length)

/-- The field `size_` and the number of entries of a new table after the
assignment `operator=` from `exOne`. -/
def exAssignSizes : Except Err (Nat × Nat) :=
  match assign_from stdHash Equal new exOne.1 false exOne.2 with
  | .error err => .error err
  | .ok (h, _) => .ok (h.size_, h.entries.length)

end hashmap

namespace linked_hashmap

/-- The calls that build `exMap`. -/
def exMapOps : List (Op Integer String) := [.insert (⟨1⟩, "A"), .insert (⟨2⟩, "B")]

/-- The call `m[1]` (`operator[]`, not `const`) on `exMap`: the value the
reference returned refers to, the entries of the map after the call, and what
`at(1)` returns after the call. -/
def exSubscript : Except Err (String × List (Integer × String) × Except Err String) :=
  match subscript stdHash Equal "" exMap.1 ⟨1⟩ exMap.2 with
  | .error err => .error err
  | .ok (m, r, _) => .ok (r, m.entries, at_ stdHash Equal m ⟨1⟩)

/-- The assignment `dst = exMap` to a new map `dst`: the iterator `dst.find(1)`
returns after it, what that iterator dereferences to in `dst`, the addresses of
the nodes of `dst.insert_list`, and those of the nodes of the list of `exMap`. -/
def exAssign :
    Except Err (Except Err iterator × Except Err (Integer × String) × List Nat × List Nat) :=
  match assign_from stdHash Equal new exMap.1 false exMap.2 with
  | .error err => .error err
  | .ok (m, _) =>
    .ok (find stdHash Equal m ⟨1⟩,
         (match find stdHash Equal m ⟨1⟩ with
          | .ok it => m.deref it
          | .error err => .error err),
         m.insert_list.nodes.map Node.addr,
         exMap.1.insert_list.nodes.map Node.addr)

/-- The copy of `exMap` made by the copy constructor: the iterator `find(1)`
returns on the copy, what that iterator dereferences to in the copy, and the
addresses of the nodes of the list of the copy. -/
def exCopy : Except Err (Except Err iterator × Except Err (Integer × String) × List Nat) :=
  match copy stdHash Equal exMap.1 exMap.2 with
  | .error err => .error err
  | .ok (m, _) =>
    .ok (find stdHash Equal m ⟨1⟩,
         (match find stdHash Equal m ⟨1⟩ with
          | .ok it => m.deref it
          | .error err => .error err),
         m.insert_list.nodes.map Node.addr)

end linked_hashmap


/-! ## `double_list` with its pointers -/

namespace pointer

/-- Class `Node<T>` with its fields: the payload and the pointers `prev` and
`next`. -/
structure Node (T : Type) where
  data : T
  prev : Ptr
  next : Ptr

/-- The memory: the node stored at every allocated address. -/
abbrev Memory (T : Type) := Nat → Option (Node T)

/-- Class `double_list<T>` with its fields: the pointers `head` and `tail`, and
`size`. -/
structure double_list (T : Type) where
  head : Ptr
  tail : Ptr
  size : Int

namespace double_list

variable {T : Type}

/-- The memory after the node at address `a` has been given the value `c`. -/
def write (mem : Memory T) (a : Nat) (c : Node T) : Memory T :=
  fun b => if b = a then some c else mem b

/-- The memory after `delete` of the node at address `a`. -/
def free (mem : Memory T) (a : Nat) : Memory T :=
  fun b => if b = a then none else mem b

/-- The assignment `p->next = q`: undefined unless `p` is allocated. -/
def set_next (mem : Memory T) (p : Nat) (q : Ptr) : Except Err (Memory T) :=
  match mem p with
  | some c => .ok (write mem p { c with next := q })
  | none => .error .undefined

/-- The assignment `p->prev = q`: undefined unless `p` is allocated. -/
def set_prev (mem : Memory T) (p : Nat) (q : Ptr) : Except Err (Memory T) :=
  match mem p with
  | some c => .ok (write mem p { c with prev := q })
  | none => .error .undefined

/-- The default constructor `double_list()`. -/
def empty_list : double_list T := { head := none, tail := none, size := 0 }

/-- Method `empty()`: `size == 0`. -/
def empty (l : double_list T) : Bool := l.size == 0

/-- Method `insert_head(val)`, statement by statement. -/
def insert_head (mem : Memory T) (l : double_list T) (val : T) (heap : Heap) :
    Except Err (Memory T × double_list T × Heap) :=
  let newNode := heap
  let mem1 := write mem newNode { data := val, prev := none, next := none }
  match l.head with
  | none =>
    .ok (mem1, { head := some newNode, tail := some newNode, size := l.size + 1 }, heap + 1)
  | some h =>
    match set_next mem1 newNode (some h) with
    | .error err => .error err
    | .ok mem2 =>
      match set_prev mem2 h (some newNode) with
      | .error err => .error err
      | .ok mem3 =>
        .ok (mem3, { head := some newNode, tail := l.tail, size := l.size + 1 }, heap + 1)

/-- Method `insert_tail(val)`, statement by statement. -/
def insert_tail (mem : Memory T) (l : double_list T) (val : T) (heap : Heap) :
    Except Err (Memory T × double_list T × Heap) :=
  let newNode := heap
  let mem1 := write mem newNode { data := val, prev := none, next := none }
  match l.tail with
  | none =>
    .ok (mem1, { head := some newNode, tail := some newNode, size := l.size + 1 }, heap + 1)
  | some t =>
    match set_prev mem1 newNode (some t) with
    | .error err => .error err
    | .ok mem2 =>
      match set_next mem2 t (some newNode) with
      | .error err => .error err
      | .ok mem3 =>
        .ok (mem3, { head := l.head, tail := some newNode, size := l.size + 1 }, heap + 1)

/-- Method `delete_head()`, statement by statement. -/
def delete_head (mem : Memory T) (l : double_list T) : Except Err (Memory T × double_list T) :=
  match l.head with
  | none => .ok (mem, l)
  | some temp =>
    if l.head = l.tail then
      .ok (free mem temp, { head := none, tail := none, size := l.size - 1 })
    else
      match mem temp with
      | none => .error .undefined
      | some c =>
        match c.next with
        | none => .error .undefined
        | some h1 =>
          match set_prev mem h1 none with
          | .error err => .error err
          | .ok mem1 =>
            .ok (free mem1 temp, { head := some h1, tail := l.tail, size := l.size - 1 })

/-- Method `delete_tail()`, statement by statement. -/
def delete_tail (mem : Memory T) (l : double_list T) : Except Err (Memory T × double_list T) :=
  match l.tail with
  | none => .ok (mem, l)
  | some temp =>
    if l.head = l.tail then
      .ok (free mem temp, { head := none, tail := none, size := l.size - 1 })
    else
      match mem temp with
      | none => .error .undefined
      | some c =>
        match c.prev with
        | none => .error .undefined
        | some t1 =>
          match set_next mem t1 none with
          | .error err => .error err
          | .ok mem1 =>
            .ok (free mem1 temp, { head := l.head, tail := some t1, size := l.size - 1 })

/-- The statement of `erase` that unlinks `toDelete` from its predecessor:
`toDelete->prev->next = toDelete->next` when there is one, `head = toDelete->next`
otherwise; `c` is the node `*toDelete`.  The result is the new memory and the
new `head`. -/
def erase_prev (mem : Memory T) (l : double_list T) (c : Node T) : Except Err (Memory T × Ptr) :=
  match c.prev with
  | some p =>
    match set_next mem p c.next with
    | .error err => .error err
    | .ok mem1 => .ok (mem1, l.head)
  | none => .ok (mem, c.next)

/-- The statement of `erase` that unlinks `toDelete` from its successor:
`toDelete->next->prev = toDelete->prev` when there is one, `tail = toDelete->prev`
otherwise; `c` is the node `*toDelete`.  The result is the new memory and the
new `tail`. -/
def erase_next (mem : Memory T) (l : double_list T) (c : Node T) : Except Err (Memory T × Ptr) :=
  match c.next with
  | some n =>
    match set_prev mem n c.prev with
    | .error err => .error err
    | .ok mem1 => .ok (mem1, l.tail)
  | none => .ok (mem, c.prev)

/-- Method `erase(pos)`, statement by statement; an iterator is its pointer
`current`.  The fields of `toDelete` are read again for every statement. -/
def erase (mem : Memory T) (l : double_list T) (pos : Ptr) :
    Except Err (Memory T × double_list T × Ptr) :=
  match pos with
  | none => .ok (mem, l, pos)
  | some toDelete =>
    match mem toDelete with
    | none => .error .undefined
    | some c =>
      let nextIter := c.next
      match erase_prev mem l c with
      | .error err => .error err
      | .ok (mem1, head1) =>
        match mem1 toDelete with
        | none => .error .undefined
        | some c1 =>
          match erase_next mem1 l c1 with
          | .error err => .error err
          | .ok (mem2, tail1) =>
            .ok (free mem2 toDelete, { head := head1, tail := tail1, size := l.size - 1 },
                 nextIter)

/-- The payloads met from the node `p` along the pointers `next`, at most `fuel`
of them. -/
def walk (mem : Memory T) : Nat → Ptr → List T
  | 0, _ => []
  | _ + 1, none => []
  | fuel + 1, some a =>
    match mem a with
    | some c => c.data :: walk mem fuel c.next
    | none => []

/-- The list read from `head` to `tail`: the payloads met from `head` along the
pointers `next`. -/
def toList (mem : Memory T) (l : double_list T) : List T := walk mem l.size.toNat l.head

/-- The pointer `prev` the node number `i` of a list with the nodes `ns` is to
have. -/
def prevAt (ns : List (sjtu.Node T)) (i : Nat) : Ptr :=
  if i = 0 then none else (ns[i - 1]?).map sjtu.Node.addr

/-- The pointer `next` the node number `i` of a list with the nodes `ns` is to
have. -/
def nextAt (ns : List (sjtu.Node T)) (i : Nat) : Ptr := (ns[i + 1]?).map sjtu.Node.addr

/-- The memory and the fields of a list represent the sequence `ns` of nodes
(addresses and payloads): the nodes are allocated at different addresses and
linked in both directions in the order of `ns`, `prev` of the first one and
`next` of the last one are null, `head` and `tail` point to the first and to the
last one, and `size` is the number of nodes. -/
def Repr (mem : Memory T) (l : double_list T) (ns : List (sjtu.Node T)) : Prop :=
  (∀ i n, ns[i]? = some n →
    mem n.addr = some { data := n.data, prev := prevAt ns i, next := nextAt ns i }) ∧
  (ns.map sjtu.Node.addr).Nodup ∧
  l.head = ns.head?.map sjtu.Node.addr ∧
  l.tail = ns.getLast?.map sjtu.Node.addr ∧
  l.size = ns.length

end double_list

end pointer

/-! ## A concrete list with its pointers -/

namespace pointer

namespace double_list

/-- The memory, the list and the allocator state after `insert_tail("a")` and
`insert_tail("b")` on an empty list, in an empty memory. -/
def exList : Memory String × double_list String × Heap :=
  match insert_tail (fun _ => none) empty_list "a" 0 with
  | .error _ => (fun _ => none, empty_list, 0)
  | .ok (mem1, l1, heap1) =>
    match insert_tail mem1 l1 "b" heap1 with
    | .error _ => (fun _ => none, empty_list, 0)
    | .ok r => r

/-- The nodes of `exList`: their addresses and their payloads. -/
def exNodes : List (sjtu.Node String) := [⟨0, "a"⟩, ⟨1, "b"⟩]

end double_list

end pointer


/-! # Theorems -/


/-! ## Lemmas on `double_list` -/

namespace double_list

variable {T : Type}

theorem nodeAt_eq_find (ns : List (Node T)) (a : Nat) :
    nodeAt ns a = ns.find? (fun n => decide (n.addr = a)) := by
  induction ns with
  | nil => rfl
  | cons n rest ih =>
    by_cases h : n.addr = a <;> simp [nodeAt, List.find?_cons, h, ih]

theorem nodeAt_of_mem {ns : List (Node T)} (hnd : (ns.map Node.addr).Nodup) {n : Node T}
    (hn : n ∈ ns) : nodeAt ns n.addr = some n := by
  induction ns with
  | nil => cases hn
  | cons m rest ih =>
    simp only [List.map_cons, List.nodup_cons, List.mem_map, not_exists, not_and] at hnd
    rcases List.mem_cons.1 hn with rfl | hmem
    · simp [nodeAt]
    · have hne : m.addr ≠ n.addr := fun h => hnd.1 n hmem h.symm
      simp [nodeAt, hne, ih hnd.2 hmem]

theorem nodeAt_mem {ns : List (Node T)} {a : Nat} {n : Node T} (h : nodeAt ns a = some n) :
    n ∈ ns ∧ n.addr = a := by
  rw [nodeAt_eq_find] at h
  exact ⟨List.mem_of_find?_eq_some h, by simpa using List.find?_some h⟩

theorem unlink_of_mem {ns : List (Node T)} (hnd : (ns.map Node.addr).Nodup) {a : Nat}
    (ha : a ∈ ns.map Node.addr) :
    ∃ nx, unlink ns a = some (ns.filter (fun m => decide (m.addr ≠ a)), nx) := by
  induction ns with
  | nil => simp at ha
  | cons m rest ih =>
    simp only [List.map_cons, List.nodup_cons] at hnd
    by_cases h : m.addr = a
    · refine ⟨rest.head?.map Node.addr, ?_⟩
      have hrest : rest.filter (fun m => decide (m.addr ≠ a)) = rest := by
        rw [List.filter_eq_self]
        intro x hx
        have : x.addr ≠ a := by
          intro hxa
          exact hnd.1 (by rw [h, ← hxa]; exact List.mem_map_of_mem _ hx)
        simpa using this
      rw [List.filter_cons_of_neg (by simp [h]), hrest]
      simp [unlink, h]
    · have ha2 : a ∈ rest.map Node.addr := by
        rcases List.mem_cons.1 ha with h1 | h1
        · exact absurd h1.symm h
        · exact h1
      obtain ⟨nx, hnx⟩ := ih hnd.2 ha2
      exact ⟨nx, by simp [unlink, h, hnx]⟩

theorem unlink_none {ns : List (Node T)} {a : Nat} (ha : a ∉ ns.map Node.addr) :
    unlink ns a = none := by
  induction ns with
  | nil => rfl
  | cons m rest ih =>
    simp only [List.map_cons, List.mem_cons, not_or] at ha
    have h : m.addr ≠ a := fun h => ha.1 h.symm
    simp [unlink, h, ih ha.2]

theorem assign_eq_map {ns : List (Node T)} (hnd : (ns.map Node.addr).Nodup) (a : Nat) (f : T → T) :
    assign ns a f = ns.map (fun m => if m.addr = a then { m with data := f m.data } else m) := by
  induction ns with
  | nil => rfl
  | cons m rest ih =>
    simp only [List.map_cons, List.nodup_cons] at hnd
    by_cases h : m.addr = a
    · have hrest : rest.map (fun m => if m.addr = a then { m with data := f m.data } else m) = rest := by
        conv_rhs => rw [← List.map_id rest]
        apply List.map_congr_left
        intro x hx
        have : x.addr ≠ a := by
          intro hxa
          exact hnd.1 (by rw [h, ← hxa]; exact List.mem_map_of_mem _ hx)
        simp [this]
      simp [assign, h, hrest]
    · simp [assign, h, ih hnd.2]

theorem insert_tail_eq (l : double_list T) (val : T) (heap : Heap) :
    l.insert_tail val heap = ({ nodes := l.nodes ++ [⟨heap, val⟩], size := l.size + 1 }, heap + 1) := by
  unfold insert_tail
  cases l.nodes <;> rfl

theorem insert_head_eq (l : double_list T) (val : T) (heap : Heap) :
    l.insert_head val heap = ({ nodes := ⟨heap, val⟩ :: l.nodes, size := l.size + 1 }, heap + 1) := by
  unfold insert_head
  cases l.nodes <;> rfl

theorem copy_spec (other : double_list T) (heap : Heap) :
    (other.copy heap).1.nodes.map Node.data = other.nodes.map Node.data ∧
      heap ≤ (other.copy heap).2 := by
  unfold copy
  have key : ∀ (ns : List (Node T)) (acc : double_list T × Heap),
      (ns.foldl (fun acc n => insert_tail acc.1 n.data acc.2) acc).1.nodes.map Node.data
        = acc.1.nodes.map Node.data ++ ns.map Node.data ∧
      acc.2 ≤ (ns.foldl (fun acc n => insert_tail acc.1 n.data acc.2) acc).2 := by
    intro ns
    induction ns with
    | nil => intro acc; simp
    | cons n rest ih =>
      intro acc
      rw [List.foldl_cons, insert_tail_eq]
      obtain ⟨h1, h2⟩ := ih ({ nodes := acc.1.nodes ++ [⟨acc.2, n.data⟩], size := acc.1.size + 1 }, acc.2 + 1)
      refine ⟨?_, ?_⟩
      · rw [h1]; simp
      · exact le_trans (Nat.le_succ _) h2
  simpa [empty_list] using key other.nodes (empty_list, heap)

theorem unlink_length {ns : List (Node T)} {a : Nat} {r : List (Node T)} {nx : Ptr}
    (h : unlink ns a = some (r, nx)) : r.length + 1 = ns.length := by
  induction ns generalizing r nx with
  | nil => simp [unlink] at h
  | cons m rest ih =>
    by_cases e : m.addr = a
    · simp only [unlink, e, if_true, Option.some.injEq, Prod.mk.injEq] at h
      rw [← h.1]; rfl
    · simp only [unlink, e, if_false] at h
      cases hu : unlink rest a with
      | none => rw [hu] at h; cases h
      | some p =>
        obtain ⟨r1, nx1⟩ := p
        rw [hu] at h
        simp only [Option.some.injEq, Prod.mk.injEq] at h
        rw [← h.1]
        simp [ih hu]

end double_list


/-! ## Lemmas on `hashmap` -/

namespace hashmap

variable {Key T : Type}

theorem bucket_set (bs : List (double_list (Key × T))) (s : Nat) (i j : Nat)
    (b : double_list (Key × T)) (hi : i < bs.length) :
    bucket { buckets := bs.set i b, size_ := s } j
      = if j = i then b else bucket { buckets := bs, size_ := s } j := by
  unfold bucket
  simp only [List.getD_eq_getElem?_getD, List.getElem?_set]
  by_cases h : i = j
  · subst h; simp [hi]
  · have h2 : ¬ j = i := fun e => h e.symm
    simp [h, h2]

theorem bucket_mk (bs : List (double_list (Key × T))) (s : Nat) (j : Nat) :
    bucket { buckets := bs, size_ := s } j = bs.getD j double_list.empty_list := rfl

theorem sum_map_set (f : double_list (Key × T) → Nat) (bs : List (double_list (Key × T)))
    (i : Nat) (b : double_list (Key × T)) (hi : i < bs.length) :
    ((bs.set i b).map f).sum + f (bs.getD i double_list.empty_list) = (bs.map f).sum + f b := by
  induction bs generalizing i with
  | nil => simp at hi
  | cons x rest ih =>
    cases i with
    | zero => simp; omega
    | succ k =>
      have hk : k < rest.length := by simpa using hi
      have := ih k hk
      simp only [List.set_cons_succ, List.map_cons, List.sum_cons, List.getD_cons_succ]
      omega

theorem scan_none {eq : Key → Key → Bool} (heq : ∀ a b, eq a b = true ↔ a = b)
    {ns : List (Node (Key × T))} {k : Key} :
    scan eq ns k = none ↔ ∀ n ∈ ns, n.data.1 ≠ k := by
  unfold scan
  rw [List.find?_eq_none]
  constructor
  · intro h n hn e; exact h n hn ((heq _ _).2 e)
  · intro h n hn e; exact h n hn ((heq _ _).1 e)

theorem scan_some {eq : Key → Key → Bool} (heq : ∀ a b, eq a b = true ↔ a = b)
    {ns : List (Node (Key × T))} {k : Key} {n : Node (Key × T)} (h : scan eq ns k = some n) :
    n ∈ ns ∧ n.data.1 = k := by
  unfold scan at h
  have h2 : eq n.data.1 k = true :=
    @List.find?_some _ (fun n : Node (Key × T) => eq n.data.1 k) n ns h
  exact ⟨List.mem_of_find?_eq_some h, (heq _ _).1 h2⟩

theorem scan_of_mem {eq : Key → Key → Bool} (heq : ∀ a b, eq a b = true ↔ a = b)
    {ns : List (Node (Key × T))} (hnd : (ns.map (fun n => n.data.1)).Nodup)
    {n : Node (Key × T)} (hn : n ∈ ns) : scan eq ns n.data.1 = some n := by
  induction ns with
  | nil => cases hn
  | cons m rest ih =>
    simp only [List.map_cons, List.nodup_cons] at hnd
    rcases List.mem_cons.1 hn with rfl | hmem
    · have : eq n.data.1 n.data.1 = true := (heq _ _).2 rfl
      simp [scan, List.find?_cons, this]
    · have hne : eq m.data.1 n.data.1 = false := by
        cases hc : eq m.data.1 n.data.1 with
        | false => rfl
        | true =>
          exfalso
          have e := (heq _ _).1 hc
          exact hnd.1 (by rw [e]; exact List.mem_map_of_mem (fun n => n.data.1) hmem)
      have := ih hnd.2 hmem
      unfold scan at this ⊢
      simp [List.find?_cons, hne, this]

theorem lookup_none {hash : Key → Nat} {eq : Key → Key → Bool} (heq : ∀ a b, eq a b = true ↔ a = b)
    {h : hashmap Key T} {k : Key} :
    lookup hash eq h k = none ↔ ∀ n ∈ (h.bucket (hash k % h.buckets.length)).nodes, n.data.1 ≠ k := by
  unfold lookup
  rw [Option.map_eq_none', scan_none heq]

theorem lookup_some {hash : Key → Nat} {eq : Key → Key → Bool} (heq : ∀ a b, eq a b = true ↔ a = b)
    {h : hashmap Key T} {heap : Heap} (hwf : WF hash h heap) {k : Key} {v : T} :
    lookup hash eq h k = some v ↔
      ∃ n ∈ (h.bucket (hash k % h.buckets.length)).nodes, n.data = (k, v) := by
  unfold lookup
  have hlt : hash k % h.buckets.length < h.buckets.length := Nat.mod_lt _ hwf.1
  constructor
  · intro hl
    rw [Option.map_eq_some'] at hl
    obtain ⟨n, hn, hv⟩ := hl
    obtain ⟨hmem, hk⟩ := scan_some heq hn
    exact ⟨n, hmem, Prod.ext hk hv⟩
  · rintro ⟨n, hmem, hd⟩
    have := scan_of_mem heq (hwf.2 _ hlt).2.1 hmem
    rw [hd] at this
    simp [this, hd]

/-- Every entry of a well-formed table is found under its key. -/
theorem lookup_of_mem {hash : Key → Nat} {eq : Key → Key → Bool}
    (heq : ∀ a b, eq a b = true ↔ a = b) {h : hashmap Key T} {heap : Heap} (hwf : WF hash h heap)
    {i : Nat} (hi : i < h.buckets.length) {n : Node (Key × T)} (hn : n ∈ (h.bucket i).nodes) :
    lookup hash eq h n.data.1 = some n.data.2 := by
  have hhome := (hwf.2 i hi).1 n hn
  rw [lookup_some heq hwf]
  exact ⟨n, by rw [hhome]; exact hn, rfl⟩

theorem WF.mono {hash : Key → Nat} {h : hashmap Key T} {heap heap1 : Heap} (hwf : WF hash h heap)
    (hle : heap ≤ heap1) : WF hash h heap1 :=
  ⟨hwf.1, fun i hi =>
    ⟨(hwf.2 i hi).1, (hwf.2 i hi).2.1, (hwf.2 i hi).2.2.1,
      fun n hn => lt_of_lt_of_le ((hwf.2 i hi).2.2.2.1 n hn) hle, (hwf.2 i hi).2.2.2.2⟩⟩

theorem find_end {hash : Key → Nat} {eq : Key → Key → Bool} {h : hashmap Key T} {k : Key}
    (hl : lookup hash eq h k = none) : find hash eq h k = h.end_ := by
  unfold lookup at hl
  rw [Option.map_eq_none'] at hl
  simp [find, hl]

theorem find_some {hash : Key → Nat} {eq : Key → Key → Bool} (heq : ∀ a b, eq a b = true ↔ a = b)
    {h : hashmap Key T} {heap : Heap} (hwf : WF hash h heap) {k : Key} {v : T}
    (hl : lookup hash eq h k = some v) :
    ∃ n, n ∈ (h.bucket (hash k % h.buckets.length)).nodes ∧ n.data = (k, v) ∧
      find hash eq h k = ⟨some n.addr, hash k % h.buckets.length⟩ ∧
      deref h (find hash eq h k) = .ok (k, v) := by
  have hlt : hash k % h.buckets.length < h.buckets.length := Nat.mod_lt _ hwf.1
  obtain ⟨n, hmem, hd⟩ := (lookup_some heq hwf).1 hl
  have hs := scan_of_mem heq (hwf.2 _ hlt).2.1 hmem
  rw [hd] at hs
  have hf : find hash eq h k = ⟨some n.addr, hash k % h.buckets.length⟩ := by
    simp [find, hs]
  refine ⟨n, hmem, hd, hf, ?_⟩
  rw [hf]
  simp [deref, double_list.deref, double_list.nodeAt_of_mem (hwf.2 _ hlt).2.2.1 hmem, hd]

end hashmap


namespace hashmap

variable {Key T : Type}

theorem WF_set {hash : Key → Nat} {h : hashmap Key T} {heap heap1 : Heap} (hwf : WF hash h heap)
    (hle : heap ≤ heap1) {i : Nat} (hi : i < h.buckets.length) {b : double_list (Key × T)}
    (hb : BucketOK hash h.buckets.length heap1 i b) (s : Nat) :
    WF hash { buckets := h.buckets.set i b, size_ := s } heap1 := by
  refine ⟨by simpa using hwf.1, ?_⟩
  intro j hj
  simp only [List.length_set] at hj ⊢
  rw [bucket_set _ _ _ _ _ hi]
  by_cases hji : j = i
  · subst hji; simpa using hb
  · simp only [hji, if_false]
    exact (hwf.mono hle).2 j hj

theorem lookup_set {hash : Key → Nat} {eq : Key → Key → Bool} {h : hashmap Key T}
    {i : Nat} (hi : i < h.buckets.length) (b : double_list (Key × T)) (s : Nat) (k : Key) :
    lookup hash eq { buckets := h.buckets.set i b, size_ := s } k
      = if hash k % h.buckets.length = i then (scan eq b.nodes k).map (fun n => n.data.2)
        else lookup hash eq h k := by
  unfold lookup
  simp only [List.length_set]
  rw [bucket_set _ _ _ _ _ hi]
  by_cases hki : hash k % h.buckets.length = i
  · simp [hki]
  · simp only [hki, if_false]
    rfl

theorem count_set {h : hashmap Key T} {i : Nat} (hi : i < h.buckets.length)
    (b : double_list (Key × T)) (s : Nat) :
    count { buckets := h.buckets.set i b, size_ := s } + (h.bucket i).nodes.length
      = count h + b.nodes.length := by
  unfold count bucket
  exact sum_map_set (fun b => b.nodes.length) h.buckets i b hi

theorem find_set {hash : Key → Nat} {eq : Key → Key → Bool} {h : hashmap Key T}
    {i : Nat} (hi : i < h.buckets.length) (b : double_list (Key × T)) (s : Nat) (k : Key)
    (hk : hash k % h.buckets.length = i) :
    find hash eq { buckets := h.buckets.set i b, size_ := s } k
      = match scan eq b.nodes k with
        | some n => ⟨some n.addr, i⟩
        | none => ⟨none, h.buckets.length⟩ := by
  unfold find
  simp only [List.length_set]
  rw [bucket_set _ _ _ _ _ hi, hk]
  simp [end_]

/-- Assignment through the iterator `find` returns for a present key. -/
theorem assign_spec [DecidableEq Key] {hash : Key → Nat} {eq : Key → Key → Bool} (heq : ∀ a b, eq a b = true ↔ a = b)
    {h : hashmap Key T} {heap : Heap} (hwf : WF hash h heap) {k : Key} {v0 : T}
    (hl : lookup hash eq h k = some v0) (v : T) :
    WF hash (h.assign (find hash eq h k) v) heap ∧
    (h.assign (find hash eq h k) v).buckets.length = h.buckets.length ∧
    count (h.assign (find hash eq h k) v) = count h ∧
    find hash eq (h.assign (find hash eq h k) v) k = find hash eq h k ∧
    ∀ k', lookup hash eq (h.assign (find hash eq h k) v) k'
      = if k' = k then some v else lookup hash eq h k' := by
  have hlt : hash k % h.buckets.length < h.buckets.length := Nat.mod_lt _ hwf.1
  obtain ⟨n, hmem, hd, hf, -⟩ := find_some heq hwf hl
  obtain ⟨hhome, hkeys, haddrs, hfresh, hsize⟩ := hwf.2 _ hlt
  set i := hash k % h.buckets.length with hi_def
  set upd : Node (Key × T) → Node (Key × T) :=
    fun m => if m.addr = n.addr then { m with data := (m.data.1, v) } else m with hupd
  have hkey : ∀ m : Node (Key × T), (upd m).data.1 = m.data.1 := by
    intro m; simp only [hupd]; split <;> rfl
  have haddr : ∀ m : Node (Key × T), (upd m).addr = m.addr := by
    intro m; simp only [hupd]; split <;> rfl
  have hassign : h.assign (find hash eq h k) v
      = { buckets := h.buckets.set i
            { nodes := (h.bucket i).nodes.map upd, size := (h.bucket i).size },
          size_ := h.size_ } := by
    rw [hf]
    simp only [assign]
    rw [double_list.assign_eq_map haddrs]
  have hmapk : ((h.bucket i).nodes.map upd).map (fun n => n.data.1)
      = (h.bucket i).nodes.map (fun n => n.data.1) := by
    rw [List.map_map]; apply List.map_congr_left; intro m _; exact hkey m
  have hmapa : ((h.bucket i).nodes.map upd).map Node.addr
      = (h.bucket i).nodes.map Node.addr := by
    rw [List.map_map]; apply List.map_congr_left; intro m _; exact haddr m
  have hscan : ∀ k', scan eq ((h.bucket i).nodes.map upd) k'
      = (scan eq (h.bucket i).nodes k').map upd := by
    intro k'
    unfold scan
    rw [List.find?_map]
    have hp : ((fun n : Node (Key × T) => eq n.data.1 k') ∘ upd)
        = (fun n : Node (Key × T) => eq n.data.1 k') := by
      funext m; simp [Function.comp, hkey m]
    rw [hp]
  have hok : BucketOK hash h.buckets.length heap i
      { nodes := (h.bucket i).nodes.map upd, size := (h.bucket i).size } := by
    refine ⟨?_, ?_, ?_, ?_, ?_⟩
    · intro m hm
      obtain ⟨m0, hm0, rfl⟩ := List.mem_map.1 hm
      rw [hkey]; exact hhome m0 hm0
    · show (((h.bucket i).nodes.map upd).map (fun n => n.data.1)).Nodup
      rw [hmapk]; exact hkeys
    · show (((h.bucket i).nodes.map upd).map Node.addr).Nodup
      rw [hmapa]; exact haddrs
    · intro m hm
      obtain ⟨m0, hm0, rfl⟩ := List.mem_map.1 hm
      rw [haddr]; exact hfresh m0 hm0
    · show (h.bucket i).size = (((h.bucket i).nodes.map upd).length : Nat)
      rw [List.length_map]; exact hsize
  have hsn : scan eq (h.bucket i).nodes k = some n := by
    have := scan_of_mem heq hkeys hmem
    rwa [hd] at this
  rw [hassign]
  refine ⟨WF_set hwf (le_refl _) hlt hok _, by simp, ?_, ?_, ?_⟩
  · have := count_set hlt
      { nodes := (h.bucket i).nodes.map upd, size := (h.bucket i).size } h.size_
    simp only [List.length_map] at this
    omega
  · rw [find_set hlt _ _ _ rfl, hf]
    show (match scan eq ((h.bucket i).nodes.map upd) k with
        | some n => (⟨some n.addr, i⟩ : iterator)
        | none => ⟨none, h.buckets.length⟩) = _
    rw [hscan, hsn]
    simp [haddr]
  · intro k'
    rw [lookup_set hlt]
    by_cases hk' : k' = k
    · subst hk'
      simp only [if_true]
      show (scan eq ((h.bucket i).nodes.map upd) k').map (fun n => n.data.2) = _
      rw [hscan, hsn]
      simp [hupd]
    · simp only [hk', if_false]
      split
      · rename_i hki
        show (scan eq ((h.bucket i).nodes.map upd) k').map (fun n => n.data.2) = _
        rw [hscan]
        unfold lookup
        rw [hki]
        cases hs : scan eq (h.bucket i).nodes k' with
        | none => rfl
        | some m =>
          obtain ⟨hm1, hm2⟩ := scan_some heq hs
          have hne : m.addr ≠ n.addr := by
            intro e
            have h1 := double_list.nodeAt_of_mem haddrs hm1
            have h2 := double_list.nodeAt_of_mem haddrs hmem
            rw [e, h2] at h1
            have : n = m := by simpa using h1
            apply hk'
            rw [← hm2, ← this, hd]
          simp [hupd, hne]
      · rfl

end hashmap


namespace hashmap

variable {Key T : Type}

theorem find?_filter_of_imp {α : Type} (p q : α → Bool) (l : List α)
    (himp : ∀ x ∈ l, p x = true → q x = true) : (l.filter q).find? p = l.find? p := by
  induction l with
  | nil => rfl
  | cons x rest ih =>
    have ih2 := ih (fun y hy => himp y (List.mem_cons_of_mem _ hy))
    cases hq : q x with
    | true =>
      rw [List.filter_cons_of_pos hq, List.find?_cons, List.find?_cons, ih2]
    | false =>
      have hp : p x = false := by
        cases hpx : p x with
        | false => rfl
        | true => rw [himp x (List.mem_cons_self _ _) hpx] at hq; cases hq
      rw [List.filter_cons_of_neg (by simp [hq]), List.find?_cons, hp, ih2]

/-- Placing a new entry at the head of its bucket (the last three statements of
`insert`). -/
theorem place_spec [DecidableEq Key] {hash : Key → Nat} {eq : Key → Key → Bool} (heq : ∀ a b, eq a b = true ↔ a = b)
    {h : hashmap Key T} {heap : Heap} (hwf : WF hash h heap) {k : Key}
    (hl : lookup hash eq h k = none) (v : T) (s : Nat) :
    let i := hash k % h.buckets.length
    let b := ((h.bucket i).insert_head (k, v) heap).1
    let h1 : hashmap Key T := { buckets := h.buckets.set i b, size_ := s }
    WF hash h1 (heap + 1) ∧ h1.buckets.length = h.buckets.length ∧ count h1 = count h + 1 ∧
    find hash eq h1 k = ⟨b.head, i⟩ ∧
    ∀ k', lookup hash eq h1 k' = if k' = k then some v else lookup hash eq h k' := by
  intro i b h1
  have hlt : i < h.buckets.length := Nat.mod_lt _ hwf.1
  obtain ⟨hhome, hkeys, haddrs, hfresh, hsize⟩ := hwf.2 _ hlt
  have hb : b = { nodes := ⟨heap, (k, v)⟩ :: (h.bucket i).nodes, size := (h.bucket i).size + 1 } := by
    show ((h.bucket i).insert_head (k, v) heap).1 = _
    rw [double_list.insert_head_eq]
  have hnone := (lookup_none heq).1 hl
  have hok : BucketOK hash h.buckets.length (heap + 1) i b := by
    rw [hb]
    refine ⟨?_, ?_, ?_, ?_, ?_⟩
    · intro m hm
      rcases List.mem_cons.1 hm with rfl | hm
      · rfl
      · exact hhome m hm
    · simp only [List.map_cons, List.nodup_cons]
      refine ⟨?_, hkeys⟩
      intro hmem
      obtain ⟨m, hm, hmk⟩ := List.mem_map.1 hmem
      exact hnone m hm hmk
    · simp only [List.map_cons, List.nodup_cons]
      refine ⟨?_, haddrs⟩
      intro hmem
      obtain ⟨m, hm, hma⟩ := List.mem_map.1 hmem
      have := hfresh m hm
      omega
    · intro m hm
      rcases List.mem_cons.1 hm with rfl | hm
      · exact Nat.lt_succ_self _
      · exact Nat.lt_succ_of_lt (hfresh m hm)
    · show (h.bucket i).size + 1
        = (((⟨heap, (k, v)⟩ : Node (Key × T)) :: (h.bucket i).nodes).length : Nat)
      rw [hsize]; simp
  have hscan : scan eq b.nodes k = some ⟨heap, (k, v)⟩ := by
    rw [hb]
    have : eq k k = true := (heq _ _).2 rfl
    simp [scan, List.find?_cons, this]
  refine ⟨WF_set hwf (Nat.le_succ _) hlt hok s, by simp [h1], ?_, ?_, ?_⟩
  · have := count_set hlt b s
    rw [hb] at this
    simp only [List.length_cons] at this
    show count { buckets := h.buckets.set i b, size_ := s } = _
    rw [hb]
    omega
  · show find hash eq { buckets := h.buckets.set i b, size_ := s } k = _
    rw [find_set hlt _ _ _ rfl, hscan]
    rw [hb]
    rfl
  · intro k'
    show lookup hash eq { buckets := h.buckets.set i b, size_ := s } k' = _
    rw [lookup_set hlt]
    by_cases hk' : k' = k
    · subst hk'
      simp [hscan, i]
    · simp only [hk', if_false]
      split
      · rename_i hki
        have hne : eq k k' = false := by
          cases hc : eq k k' with
          | false => rfl
          | true => exact absurd ((heq _ _).1 hc).symm hk'
        unfold lookup
        rw [hki, hb]
        simp [scan, List.find?_cons, hne]
      · rfl

/-- Specification of `remove(key)` on a well-formed table. -/
theorem remove_ok [DecidableEq Key] {hash : Key → Nat} {eq : Key → Key → Bool} (heq : ∀ a b, eq a b = true ↔ a = b)
    {h : hashmap Key T} {heap : Heap} (hwf : WF hash h heap) (k : Key) :
    ∃ h1, remove hash eq h k = .ok (h1, (lookup hash eq h k).isSome) ∧
      WF hash h1 heap ∧ h1.buckets.length = h.buckets.length ∧ count h1 ≤ count h ∧
      ∀ k', lookup hash eq h1 k' = if k' = k then none else lookup hash eq h k' := by
  have hlt : hash k % h.buckets.length < h.buckets.length := Nat.mod_lt _ hwf.1
  obtain ⟨hhome, hkeys, haddrs, hfresh, hsize⟩ := hwf.2 _ hlt
  set i := hash k % h.buckets.length with hi_def
  cases hs : scan eq (h.bucket i).nodes k with
  | none =>
    have hl : lookup hash eq h k = none := by unfold lookup; rw [← hi_def, hs]; rfl
    refine ⟨h, ?_, hwf, rfl, le_refl _, ?_⟩
    · simp [remove, ← hi_def, hs, hl]
    · intro k'
      by_cases hk' : k' = k
      · subst hk'; simp [hl]
      · simp [hk']
  | some n =>
    obtain ⟨hmem, hnk⟩ := scan_some heq hs
    have hl : lookup hash eq h k = some n.data.2 := by unfold lookup; rw [← hi_def, hs]; rfl
    obtain ⟨nx, hnx⟩ := double_list.unlink_of_mem haddrs (List.mem_map_of_mem Node.addr hmem)
    set b : double_list (Key × T) :=
      { nodes := (h.bucket i).nodes.filter (fun m => decide (m.addr ≠ n.addr)),
        size := (h.bucket i).size - 1 } with hb
    have hsub : ∀ m, m ∈ b.nodes → m ∈ (h.bucket i).nodes := fun m hm => (List.mem_filter.1 hm).1
    have hok : BucketOK hash h.buckets.length heap i b := by
      refine ⟨fun m hm => hhome m (hsub m hm), ?_, ?_, fun m hm => hfresh m (hsub m hm), ?_⟩
      · exact (List.filter_sublist _).map _ |>.nodup hkeys
      · exact (List.filter_sublist _).map _ |>.nodup haddrs
      · have hlen := double_list.unlink_length hnx
        show (h.bucket i).size - 1
          = ((((h.bucket i).nodes.filter (fun m => decide (m.addr ≠ n.addr))).length : Nat) : Int)
        rw [hsize]
        omega
    have haddr_key : ∀ m ∈ (h.bucket i).nodes, (m.addr = n.addr ↔ m.data.1 = k) := by
      intro m hm
      constructor
      · intro e
        have h1 := double_list.nodeAt_of_mem haddrs hm
        have h2 := double_list.nodeAt_of_mem haddrs hmem
        rw [e, h2] at h1
        have : n = m := by simpa using h1
        rw [← this, hnk]
      · intro e
        have h1 := scan_of_mem heq hkeys hm
        rw [e, hs] at h1
        have : n = m := by simpa using h1
        rw [this]
    refine ⟨{ buckets := h.buckets.set i b,
              size_ := (h.size_ + 18446744073709551615) % 18446744073709551616 }, ?_,
        WF_set hwf (le_refl _) hlt hok _, by simp, ?_, ?_⟩
    · simp [remove, ← hi_def, hs, double_list.erase, hnx, hl, hb]
    · have := count_set hlt b ((h.size_ + 18446744073709551615) % 18446744073709551616)
      have hlen : b.nodes.length ≤ (h.bucket i).nodes.length := List.length_filter_le _ _
      omega
    · intro k'
      rw [lookup_set hlt]
      by_cases hk' : k' = k
      · subst hk'
        simp only [if_true, ← hi_def]
        rw [Option.map_eq_none', scan_none heq]
        intro m hm
        have hm2 := List.mem_filter.1 hm
        intro e
        have := (haddr_key m hm2.1).2 e
        simp [this] at hm2
      · simp only [hk', if_false]
        split
        · rename_i hki
          unfold lookup
          rw [hki]
          congr 1
          unfold scan
          apply find?_filter_of_imp
          intro m hm hp
          have hmk : m.data.1 = k' := (heq _ _).1 hp
          have : m.addr ≠ n.addr := by
            intro e
            apply hk'
            rw [← hmk, (haddr_key m hm).1 e]
          simpa using this
        · rfl

end hashmap


namespace hashmap

variable {Key T : Type}

theorem copyBuckets_spec (bs : List (double_list (Key × T))) (heap : Heap) :
    (copyBuckets bs heap).1.map (fun b => b.nodes.map Node.data)
        = bs.map (fun b => b.nodes.map Node.data) ∧
      (copyBuckets bs heap).1.length = bs.length ∧ heap ≤ (copyBuckets bs heap).2 := by
  induction bs generalizing heap with
  | nil => simp [copyBuckets]
  | cons b rest ih =>
    obtain ⟨h1, h2⟩ := double_list.copy_spec b heap
    obtain ⟨h3, h4, h5⟩ := ih (b.copy heap).2
    simp only [copyBuckets, List.map_cons, List.length_cons]
    exact ⟨by rw [h1, h3], by rw [h4], le_trans h2 h5⟩

theorem bucket_replicate (n s i : Nat) :
    bucket ({ buckets := List.replicate n double_list.empty_list, size_ := s } : hashmap Key T) i
      = double_list.empty_list := by
  unfold bucket
  simp only [List.getD_eq_getElem?_getD, List.getElem?_replicate]
  split <;> rfl

theorem WF_replicate [DecidableEq Key] (hash : Key → Nat) (n s : Nat) (hn : 0 < n) (heap : Heap) :
    WF hash ({ buckets := List.replicate n double_list.empty_list, size_ := s } : hashmap Key T)
      heap := by
  refine ⟨by simpa using hn, ?_⟩
  intro i _
  rw [bucket_replicate]
  simp [BucketOK, double_list.empty_list]

theorem lookup_replicate [DecidableEq Key] (hash : Key → Nat) (eq : Key → Key → Bool) (n s : Nat) (k : Key) :
    lookup hash eq
      ({ buckets := List.replicate n double_list.empty_list, size_ := s } : hashmap Key T) k
      = none := by
  unfold lookup
  rw [bucket_replicate]
  rfl

theorem count_replicate (n s : Nat) :
    count ({ buckets := List.replicate n double_list.empty_list, size_ := s } : hashmap Key T)
      = 0 := by
  unfold count
  simp [double_list.empty_list]

theorem mem_buckets_iff (h : hashmap Key T) (b : double_list (Key × T)) :
    b ∈ h.buckets ↔ ∃ i, i < h.buckets.length ∧ h.bucket i = b := by
  unfold bucket
  rw [List.mem_iff_getElem]
  constructor
  · rintro ⟨i, hi, e⟩
    exact ⟨i, hi, by simp [List.getD_eq_getElem?_getD, List.getElem?_eq_getElem hi, e]⟩
  · rintro ⟨i, hi, e⟩
    refine ⟨i, hi, ?_⟩
    simpa [List.getD_eq_getElem?_getD, List.getElem?_eq_getElem hi] using e

theorem mem_flat_iff [DecidableEq Key] (h : hashmap Key T) (e : Key × T) :
    e ∈ (h.buckets.map (fun b => b.nodes.map Node.data)).flatten ↔
      ∃ i, i < h.buckets.length ∧ ∃ n ∈ (h.bucket i).nodes, n.data = e := by
  simp only [List.mem_flatten, List.mem_map]
  constructor
  · rintro ⟨l, ⟨b, hb, rfl⟩, hl⟩
    obtain ⟨i, hi, rfl⟩ := (mem_buckets_iff h b).1 hb
    obtain ⟨n, hn, rfl⟩ := List.mem_map.1 hl
    exact ⟨i, hi, n, hn, rfl⟩
  · rintro ⟨i, hi, n, hn, rfl⟩
    exact ⟨_, ⟨h.bucket i, (mem_buckets_iff h _).2 ⟨i, hi, rfl⟩, rfl⟩, List.mem_map_of_mem _ hn⟩

theorem length_entries (h : hashmap Key T) :
    ((h.buckets.map (fun b => b.nodes.map Node.data)).flatten).length = count h := by
  unfold count
  induction h.buckets with
  | nil => rfl
  | cons b rest ih => simp [ih]

theorem nodup_flat_aux {hash : Key → Nat} {len : Nat} :
    ∀ (bs : List (double_list (Key × T))) (off : Nat),
      (∀ j b, bs[j]? = some b → (b.nodes.map (fun n => n.data.1)).Nodup ∧
        ∀ n ∈ b.nodes, hash n.data.1 % len = off + j) →
      ((bs.map (fun b => b.nodes.map Node.data)).flatten.map Prod.fst).Nodup := by
  intro bs
  induction bs with
  | nil => intro off _; simp
  | cons b rest ih =>
    intro off hb
    simp only [List.map_cons, List.flatten_cons, List.map_append]
    rw [List.nodup_append]
    have h0 := hb 0 b (by simp)
    refine ⟨?_, ?_, ?_⟩
    · have : (b.nodes.map Node.data).map Prod.fst = b.nodes.map (fun n => n.data.1) := by
        rw [List.map_map]; rfl
      rw [this]; exact h0.1
    · apply ih (off + 1)
      intro j b1 hj
      have := hb (j + 1) b1 (by simpa using hj)
      refine ⟨this.1, fun n hn => ?_⟩
      rw [this.2 n hn]; omega
    · intro k hk1 hk2
      obtain ⟨e1, he1, rfl⟩ := List.mem_map.1 hk1
      obtain ⟨n1, hn1, rfl⟩ := List.mem_map.1 he1
      obtain ⟨e2, he2, hke⟩ := List.mem_map.1 hk2
      obtain ⟨l, hl, he2l⟩ := List.mem_flatten.1 he2
      obtain ⟨b2, hb2, rfl⟩ := List.mem_map.1 hl
      obtain ⟨n2, hn2, rfl⟩ := List.mem_map.1 he2l
      obtain ⟨j, hj, hbj⟩ := List.mem_iff_getElem.1 hb2
      have h2 := (hb (j + 1) b2 (by simp [List.getElem?_eq_getElem hj, hbj])).2 n2 hn2
      have h1 := h0.2 n1 hn1
      have hke2 : n2.data.1 = n1.data.1 := hke
      rw [hke2] at h2
      omega

/-- No key occurs twice among the entries of a well-formed table. -/
theorem nodup_flat_keys {hash : Key → Nat} {h : hashmap Key T} {heap : Heap}
    (hwf : WF hash h heap) :
    ((h.buckets.map (fun b => b.nodes.map Node.data)).flatten.map Prod.fst).Nodup := by
  apply @nodup_flat_aux _ _ hash h.buckets.length h.buckets 0
  intro j b hj
  have hjlt : j < h.buckets.length := by
    by_contra hcon
    rw [List.getElem?_eq_none (by omega)] at hj
    cases hj
  have hbk : h.bucket j = b := by
    unfold bucket
    simp [List.getD_eq_getElem?_getD, hj]
  have := hwf.2 j hjlt
  rw [hbk] at this
  exact ⟨this.2.1, fun n hn => by rw [this.1 n hn]; omega⟩

/-- The loop of `expand()`, for an `insert` that meets its specification on
tables with fewer than `fuel` entries.  When the keys inserted are distinct and
new, and `size_` is the number of entries before the loop, it is so after the
loop, and the loop adds one entry for each. -/
theorem reinsert_spec [DecidableEq Key] {hash : Key → Nat} {eq : Key → Key → Bool} {fuel : Nat}
    {ins : hashmap Key T → Key × T → Heap → Except Err (hashmap Key T × iterator × Bool × Heap)}
    (hins : ∀ h kv heap, WF hash h heap → count h < fuel → InsertOK hash eq h kv heap (ins h kv heap))
    (g : Key → Option T) (E : List (Key × T)) :
    ∀ (h : hashmap Key T) (heap : Heap), WF hash h heap → count h + E.length ≤ fuel →
      (∀ e ∈ E, g e.1 = some e.2) →
      ∃ h1 heap1, reinsert ins E h heap = .ok (h1, heap1) ∧ WF hash h1 heap1 ∧ heap ≤ heap1 ∧
        count h1 ≤ count h + E.length ∧
        (∀ k, lookup hash eq h1 k = if k ∈ E.map Prod.fst then g k else lookup hash eq h k) ∧
        ((E.map Prod.fst).Nodup → (∀ e ∈ E, lookup hash eq h e.1 = none) →
          h.size_ = count h → count h + E.length < 18446744073709551616 →
          h1.size_ = count h1 ∧ count h1 = count h + E.length) := by
  induction E with
  | nil =>
    intro h heap hwf _ _
    exact ⟨h, heap, rfl, hwf, le_refl _, le_refl _, by simp, fun _ _ hs _ => ⟨hs, rfl⟩⟩
  | cons e rest ih =>
    intro h heap hwf hc hg
    simp only [List.length_cons] at hc
    obtain ⟨h1, heap1, hr, hwf1, hle1, hc1, hl1, hs1⟩ := hins h e heap hwf (by omega)
    obtain ⟨h2, heap2, hr2, hwf2, hle2, hc2, hl2, hs2⟩ :=
      ih h1 heap1 hwf1 (by omega) (fun x hx => hg x (List.mem_cons_of_mem _ hx))
    refine ⟨h2, heap2, ?_, hwf2, le_trans hle1 hle2, by simp only [List.length_cons]; omega,
      ?_, ?_⟩
    · simp only [reinsert, hr]
      exact hr2
    · intro k
      rw [hl2, hl1]
      by_cases hk : k ∈ rest.map Prod.fst
      · simp [hk]
      · by_cases hke : k = e.1
        · subst hke
          simp [hg e (List.mem_cons_self _ _)]
        · have : k ∉ (e :: rest).map Prod.fst := by
            simp only [List.map_cons, List.mem_cons, not_or]
            exact ⟨hke, hk⟩
          simp [hk, hke, this]
    · intro hnd hnew hsz hbound
      simp only [List.map_cons, List.nodup_cons] at hnd
      simp only [List.length_cons] at hbound ⊢
      have hnone : lookup hash eq h e.1 = none := hnew e (List.mem_cons_self _ _)
      obtain ⟨s1, c1⟩ := hs1 hsz (by omega)
      rw [hnone] at c1
      simp only [Option.isNone_none, if_true] at c1
      have hnew1 : ∀ x ∈ rest, lookup hash eq h1 x.1 = none := by
        intro x hx
        rw [hl1]
        have hne : x.1 ≠ e.1 := by
          intro heq1
          exact hnd.1 (heq1 ▸ List.mem_map_of_mem Prod.fst hx)
        simp only [hne, if_false]
        exact hnew x (List.mem_cons_of_mem _ hx)
      obtain ⟨s2, c2⟩ := hs2 hnd.2 hnew1 s1 (by omega)
      exact ⟨s2, by omega⟩

/-- Specification of `insert` with fuel: on a well-formed table with fewer
entries than fuel it returns, and the result is as `InsertOK` says. -/
theorem insertAux_spec [DecidableEq Key] {hash : Key → Nat} {eq : Key → Key → Bool}
    (heq : ∀ a b, eq a b = true ↔ a = b) (fuel : Nat) :
    ∀ (h : hashmap Key T) (kv : Key × T) (heap : Heap), WF hash h heap → count h < fuel →
      InsertOK hash eq h kv heap (insertAux hash eq fuel h kv heap) := by
  induction fuel with
  | zero => intro h kv heap _ hc; omega
  | succ fuel ih =>
    intro h kv heap hwf hc
    have hlt : hash kv.1 % h.buckets.length < h.buckets.length := Nat.mod_lt _ hwf.1
    cases hs : scan eq (h.bucket (hash kv.1 % h.buckets.length)).nodes kv.1 with
    | some n =>
      have hl : lookup hash eq h kv.1 = some n.data.2 := by unfold lookup; rw [hs]; rfl
      have hf : find hash eq h kv.1 = ⟨some n.addr, hash kv.1 % h.buckets.length⟩ := by
        simp [find, hs]
      obtain ⟨a1, a2, a3, a4, a5⟩ := assign_spec heq hwf hl kv.2
      refine ⟨h.assign (find hash eq h kv.1) kv.2, heap, ?_, a1, le_refl _, by omega, a5, ?_⟩
      · rw [a4, hl]
        simp [insertAux, hs, hf]
      · intro hsz _
        rw [a3, hl]
        refine ⟨?_, by simp⟩
        rw [← hsz, hf]
        rfl
    | none =>
      have hl : lookup hash eq h kv.1 = none := by unfold lookup; rw [hs]; rfl
      have hexp : ∃ h1 heap1,
          (if 2 * h.size_ ≥ h.buckets.length
            then expandWith (insertAux hash eq fuel) h heap else .ok (h, heap)) = .ok (h1, heap1) ∧
          WF hash h1 heap1 ∧ heap ≤ heap1 ∧ count h1 ≤ count h ∧
          (∀ k, lookup hash eq h1 k = lookup hash eq h k) ∧
          (h.size_ = count h → count h + 1 < 18446744073709551616 →
            h1.size_ = count h1 ∧ count h1 = count h) := by
        split
        · obtain ⟨c1, c2, c3⟩ := copyBuckets_spec h.buckets heap
          have hpos : 0 < (copyBuckets h.buckets heap).1.length * 2 := by
            rw [c2]; have := hwf.1; omega
          have hsound : ∀ e ∈ ((copyBuckets h.buckets heap).1.map
              (fun b => b.nodes.map Node.data)).flatten, lookup hash eq h e.1 = some e.2 := by
            intro e he
            rw [c1, mem_flat_iff] at he
            obtain ⟨i, hi, n, hn, rfl⟩ := he
            exact lookup_of_mem heq hwf hi hn
          have hcnt : ∀ n : Nat,
              count ({ buckets := List.replicate n double_list.empty_list, size_ := 0 } :
                  hashmap Key T)
                + (((copyBuckets h.buckets heap).1.map
                    (fun b => b.nodes.map Node.data)).flatten).length ≤ fuel := by
            intro n
            rw [count_replicate, c1, length_entries]; omega
          obtain ⟨h1, heap1, hr, hwf1, hle1, hc1, hl1, hs1⟩ :=
            reinsert_spec ih (lookup hash eq h) _ _ _
              (WF_replicate hash _ 0 hpos (copyBuckets h.buckets heap).2) (hcnt _) hsound
          refine ⟨h1, heap1, ?_, hwf1, le_trans c3 hle1, ?_, ?_, ?_⟩
          · simp only [expandWith]
            exact hr
          · rw [count_replicate, c1, length_entries] at hc1
            omega
          · intro k
            rw [hl1, lookup_replicate]
            split
            · rfl
            · rename_i hk
              cases hlk : lookup hash eq h k with
              | none => rfl
              | some v =>
                exfalso
                apply hk
                obtain ⟨n, hn, hd⟩ := (lookup_some heq hwf).1 hlk
                rw [c1]
                have : (k, v) ∈ (h.buckets.map (fun b => b.nodes.map Node.data)).flatten :=
                  (mem_flat_iff h (k, v)).2 ⟨_, Nat.mod_lt _ hwf.1, n, hn, hd⟩
                exact List.mem_map.2 ⟨(k, v), this, rfl⟩
          · intro _ hbound
            have hnd := nodup_flat_keys hwf
            rw [← c1] at hnd
            have := hs1 hnd (fun e _ => lookup_replicate hash eq _ 0 e.1)
              (by rw [count_replicate]) (by rw [count_replicate, c1, length_entries]; omega)
            rw [count_replicate, c1, length_entries] at this
            refine ⟨this.1, ?_⟩
            rw [this.2]; omega
        · exact ⟨h, heap, rfl, hwf, le_refl _, le_refl _, fun _ => rfl, fun hsz _ => ⟨hsz, rfl⟩⟩
      obtain ⟨h1, heap1, hr, hwf1, hle1, hc1, hl1, hs1⟩ := hexp
      have hl1k : lookup hash eq h1 kv.1 = none := by rw [hl1, hl]
      obtain ⟨p1, -, p3, p4, p5⟩ :=
        place_spec heq hwf1 hl1k kv.2 ((h1.size_ + 1) % 18446744073709551616)
      refine ⟨_, heap1 + 1, ?_, p1, Nat.le_succ_of_le hle1, ?_, ?_, ?_⟩
      · rw [p4, hl]
        simp only [insertAux, hs, hr]
        rw [double_list.insert_head_eq]
        rfl
      · exact le_trans (le_of_eq p3) (by omega)
      · intro k
        rw [p5, hl1]
      · intro hsz hbound
        obtain ⟨s1, c1⟩ := hs1 hsz hbound
        rw [hl]
        simp only [Option.isNone_none, if_true]
        refine ⟨?_, by rw [← c1]; exact p3⟩
        rw [p3]
        show (h1.size_ + 1) % 18446744073709551616 = count h1 + 1
        rw [s1, c1]
        exact Nat.mod_eq_of_lt hbound

theorem insert_ok [DecidableEq Key] {hash : Key → Nat} {eq : Key → Key → Bool}
    (heq : ∀ a b, eq a b = true ↔ a = b) {h : hashmap Key T} {heap : Heap} (hwf : WF hash h heap)
    (kv : Key × T) : InsertOK hash eq h kv heap (insert hash eq h kv heap) :=
  insertAux_spec heq _ h kv heap hwf (Nat.lt_succ_self _)

end hashmap


/-! ## Lemmas on `linked_hashmap` -/

namespace linked_hashmap

variable {Key T : Type}

theorem node_eq_of_addr {ns : List (Node (Key × T))} (hnd : (ns.map Node.addr).Nodup)
    {m n : Node (Key × T)} (hm : m ∈ ns) (hn : n ∈ ns) (e : m.addr = n.addr) : m = n := by
  have h1 := double_list.nodeAt_of_mem hnd hm
  have h2 := double_list.nodeAt_of_mem hnd hn
  rw [e, h2] at h1
  exact (Option.some.inj h1).symm

theorem node_eq_of_key {ns : List (Node (Key × T))} (hnd : (ns.map (fun n => n.data.1)).Nodup)
    {m n : Node (Key × T)} (hm : m ∈ ns) (hn : n ∈ ns) (e : m.data.1 = n.data.1) : m = n :=
  List.inj_on_of_nodup_map hnd hm hn e

theorem filter_addr_eq_filter_key [DecidableEq Key] {ns : List (Node (Key × T))}
    (hk : (ns.map (fun n => n.data.1)).Nodup) (ha : (ns.map Node.addr).Nodup)
    {n : Node (Key × T)} (hn : n ∈ ns) :
    ns.filter (fun m => decide (m.addr ≠ n.addr))
      = ns.filter (fun m => decide (m.data.1 ≠ n.data.1)) := by
  apply List.filter_congr
  intro m hm
  by_cases e : m.addr = n.addr
  · have := node_eq_of_addr ha hm hn e
    subst this
    simp
  · have e2 : m.data.1 ≠ n.data.1 := fun e2 => e (by rw [node_eq_of_key hk hm hn e2])
    simp [e, e2]

theorem filter_key_absent [DecidableEq Key] {ns : List (Node (Key × T))} {k : Key}
    (hk : k ∉ ns.map (fun n => n.data.1)) :
    ns.filter (fun m => decide (m.data.1 ≠ k)) = ns := by
  rw [List.filter_eq_self]
  intro m hm
  have : m.data.1 ≠ k := fun e => hk (e ▸ List.mem_map_of_mem (fun n => n.data.1) hm)
  simpa using this

/-- The statement `key_to_node[key] = p` on a well-formed index. -/
theorem set_node_spec [DecidableEq Key] {hash : Key → Nat} {eq : Key → Key → Bool}
    (heq : ∀ a b, eq a b = true ↔ a = b) {kn : hashmap Key Ptr} {heap : Heap}
    (hwf : hashmap.WF hash kn heap) (key : Key) (p : Ptr) :
    ∃ kn1 heap1, set_node hash eq kn key p heap = .ok (kn1, heap1) ∧
      hashmap.WF hash kn1 heap1 ∧ heap ≤ heap1 ∧
      ∀ k, hashmap.lookup hash eq kn1 k = if k = key then some p else hashmap.lookup hash eq kn k := by
  obtain ⟨h1, heap1, hr, hwf1, hle, -, hl, -⟩ := hashmap.insert_ok heq hwf (key, (none : Ptr))
  have hlk : hashmap.lookup hash eq h1 key = some none := by rw [hl]; simp
  obtain ⟨a1, -, -, -, a5⟩ := hashmap.assign_spec heq hwf1 hlk p
  refine ⟨h1.assign (hashmap.find hash eq h1 key) p, heap1, ?_, a1, hle, ?_⟩
  · simp [set_node, hashmap.subscript, hr]
  · intro k
    rw [a5, hl]
    by_cases hk : k = key <;> simp [hk]

/-- The invariant after the three parts of the map have taken a new binding for
the key `kv.1`, the new node being the last of `insert_list`. -/
theorem WF_rebind [DecidableEq Key] {hash : Key → Nat} {eq : Key → Key → Bool}
    {m : linked_hashmap Key T} {heap : Heap} (hwf : WF hash eq m heap) (kv : Key × T)
    {base1 : hashmap Key T} {kn1 : hashmap Key Ptr} {heap1 heap2 : Heap}
    (hle1 : heap ≤ heap1) (hle2 : heap1 + 1 ≤ heap2) (sz : Int)
    (hsz : sz = ((m.insert_list.nodes.filter (fun n => decide (n.data.1 ≠ kv.1))).length : Int) + 1)
    (hb : hashmap.WF hash base1 heap2) (hi : hashmap.WF hash kn1 heap2)
    (hbl : ∀ k, hashmap.lookup hash eq base1 k
      = if k = kv.1 then some kv.2 else hashmap.lookup hash eq m.base k)
    (hil : ∀ k, hashmap.lookup hash eq kn1 k
      = if k = kv.1 then some (some heap1) else hashmap.lookup hash eq m.key_to_node k) :
    WF hash eq
      { base := base1,
        insert_list :=
          { nodes := m.insert_list.nodes.filter (fun n => decide (n.data.1 ≠ kv.1))
              ++ [(⟨heap1, kv⟩ : Node (Key × T))],
            size := sz },
        key_to_node := kn1 } heap2 := by
  have hsub : ∀ n, n ∈ m.insert_list.nodes.filter (fun n => decide (n.data.1 ≠ kv.1)) →
      n ∈ m.insert_list.nodes ∧ n.data.1 ≠ kv.1 := by
    intro n hn
    have := List.mem_filter.1 hn
    exact ⟨this.1, by simpa using this.2⟩
  refine ⟨hb, hi, ?_, ?_, ?_, ?_, ?_, ?_⟩
  · show (List.map (fun n : Node (Key × T) => n.data.1)
      (m.insert_list.nodes.filter (fun n => decide (n.data.1 ≠ kv.1)) ++ [⟨heap1, kv⟩])).Nodup
    rw [List.map_append, List.nodup_append]
    refine ⟨(List.filter_sublist _).map _ |>.nodup hwf.nodup_keys, by simp, ?_⟩
    intro k hk1 hk2
    obtain ⟨n, hn, rfl⟩ := List.mem_map.1 hk1
    have : n.data.1 = kv.1 := by simpa using hk2
    exact (hsub n hn).2 this
  · show (List.map Node.addr
      (m.insert_list.nodes.filter (fun n => decide (n.data.1 ≠ kv.1)) ++ [⟨heap1, kv⟩])).Nodup
    rw [List.map_append, List.nodup_append]
    refine ⟨(List.filter_sublist _).map _ |>.nodup hwf.nodup_addrs, by simp, ?_⟩
    intro a ha1 ha2
    obtain ⟨n, hn, rfl⟩ := List.mem_map.1 ha1
    have e : n.addr = heap1 := by simpa using ha2
    have := hwf.fresh n (hsub n hn).1
    have h3 : n.addr < heap1 := lt_of_lt_of_le this hle1
    omega
  · intro n hn
    rcases List.mem_append.1 hn with h1 | h1
    · exact lt_of_lt_of_le (hwf.fresh n (hsub n h1).1) (le_trans hle1 (le_trans (Nat.le_succ _) hle2))
    · have : n = ⟨heap1, kv⟩ := by simpa using h1
      subst this
      exact hle2
  · show sz = _
    rw [hsz]; simp
  · intro k v
    rw [hbl]
    show _ ↔ ∃ n ∈ m.insert_list.nodes.filter (fun n => decide (n.data.1 ≠ kv.1))
      ++ [(⟨heap1, kv⟩ : Node (Key × T))], _
    by_cases hk : k = kv.1
    · subst hk
      simp only [if_true]
      constructor
      · intro e
        have e2 : kv.2 = v := Option.some.inj e
        exact ⟨⟨heap1, kv⟩, by simp, by rw [← e2]⟩
      · rintro ⟨n, hn, hd⟩
        rcases List.mem_append.1 hn with h1 | h1
        · exact absurd (by rw [hd]) (hsub n h1).2
        · have : n = ⟨heap1, kv⟩ := by simpa using h1
          subst this
          simp only at hd
          rw [hd]
    · simp only [hk, if_false]
      rw [hwf.base_agree]
      constructor
      · rintro ⟨n, hn, hd⟩
        refine ⟨n, List.mem_append_left _ (List.mem_filter.2 ⟨hn, ?_⟩), hd⟩
        simpa [hd] using hk
      · rintro ⟨n, hn, hd⟩
        rcases List.mem_append.1 hn with h1 | h1
        · exact ⟨n, (hsub n h1).1, hd⟩
        · have : n = ⟨heap1, kv⟩ := by simpa using h1
          subst this
          simp only at hd
          exact absurd (by rw [hd]) hk
  · intro k p
    rw [hil]
    show _ ↔ ∃ n ∈ m.insert_list.nodes.filter (fun n => decide (n.data.1 ≠ kv.1))
      ++ [(⟨heap1, kv⟩ : Node (Key × T))], _
    by_cases hk : k = kv.1
    · subst hk
      simp only [if_true]
      constructor
      · intro e
        exact ⟨⟨heap1, kv⟩, by simp, rfl, (Option.some.inj e).symm⟩
      · rintro ⟨n, hn, hd, hp⟩
        rcases List.mem_append.1 hn with h1 | h1
        · exact absurd hd (hsub n h1).2
        · have : n = ⟨heap1, kv⟩ := by simpa using h1
          subst this
          rw [hp]
    · simp only [hk, if_false]
      rw [hwf.index_agree]
      constructor
      · rintro ⟨n, hn, hd, hp⟩
        refine ⟨n, List.mem_append_left _ (List.mem_filter.2 ⟨hn, ?_⟩), hd, hp⟩
        simpa [hd] using hk
      · rintro ⟨n, hn, hd, hp⟩
        rcases List.mem_append.1 hn with h1 | h1
        · exact ⟨n, (hsub n h1).1, hd, hp⟩
        · have : n = ⟨heap1, kv⟩ := by simpa using h1
          subst this
          exact absurd hd.symm hk

end linked_hashmap

namespace linked_hashmap

variable {Key T : Type}

theorem mem_keys_iff (m : linked_hashmap Key T) (k : Key) :
    k ∈ m.keys ↔ ∃ n ∈ m.insert_list.nodes, n.data.1 = k := by
  unfold keys
  rw [List.mem_map]

/-- Specification of `insert(value)`: the node of the key, if there is one, is
erased and a new node holding `value` is appended; the flag tells whether the
key was absent; the iterator is the new node for a new key and `begin()`
otherwise. -/
theorem insert_spec [DecidableEq Key] {hash : Key → Nat} {eq : Key → Key → Bool}
    (heq : ∀ a b, eq a b = true ↔ a = b) {m : linked_hashmap Key T} {heap : Heap}
    (hwf : WF hash eq m heap) (kv : Key × T) :
    ∃ m1 heap1 a,
      insert hash eq m kv heap
        = .ok (m1, (if kv.1 ∈ m.keys then m1.begin_ else ⟨some a⟩), decide (kv.1 ∉ m.keys), heap1) ∧
      WF hash eq m1 heap1 ∧ heap ≤ heap1 ∧
      m1.insert_list.nodes
        = m.insert_list.nodes.filter (fun n => decide (n.data.1 ≠ kv.1)) ++ [⟨a, kv⟩] := by
  obtain ⟨base1, heapb, hr, hwfb, hleb, -, hlb, -⟩ := hashmap.insert_ok heq hwf.base kv
  by_cases hk : kv.1 ∈ m.keys
  · obtain ⟨n0, hn0, hkey⟩ := (mem_keys_iff m kv.1).1 hk
    have hbl : hashmap.lookup hash eq m.base kv.1 = some n0.data.2 :=
      (hwf.base_agree _ _).2 ⟨n0, hn0, by rw [← hkey]⟩
    have hil : hashmap.lookup hash eq m.key_to_node kv.1 = some (some n0.addr) :=
      (hwf.index_agree _ _).2 ⟨n0, hn0, hkey, rfl⟩
    obtain ⟨nb, -, -, hfind, hderef⟩ := hashmap.find_some heq hwf.index hil
    obtain ⟨nx, hnx⟩ := double_list.unlink_of_mem hwf.nodup_addrs
      (List.mem_map_of_mem Node.addr hn0)
    have hlen := double_list.unlink_length hnx
    obtain ⟨kn1, heap3, hs, hwfk, hlek, hlk⟩ := set_node_spec heq
      (hwf.index.mono (le_trans hleb (Nat.le_succ heapb))) kv.1 (some heapb)
    have hfilter := filter_addr_eq_filter_key hwf.nodup_keys hwf.nodup_addrs hn0
    rw [hkey] at hfilter
    have hwf1 := WF_rebind hwf kv hleb hlek (m.insert_list.size - 1 + 1)
      (by rw [← hfilter, hwf.size_eq]; omega) (hwfb.mono (le_trans (Nat.le_succ _) hlek)) hwfk hlb hlk
    refine ⟨_, heap3, heapb, ?_, hwf1, le_trans hleb (le_trans (Nat.le_succ _) hlek), rfl⟩
    have hsame : (hashmap.find hash eq m.key_to_node kv.1).same m.key_to_node.end_ = false := by
      rw [hfind]; simp [hashmap.iterator.same, hashmap.end_]
    simp only [insert, hr, hbl, Option.isNone_some, hsame, hderef, double_list.erase, hnx,
      double_list.insert_tail_eq, hfilter, double_list.tail, List.getLast?_concat, Option.map_some',
      hs, hk, if_true, not_true_eq_false, decide_False, Bool.not_false, Bool.false_eq_true, if_false]
  · have hbl : hashmap.lookup hash eq m.base kv.1 = none := by
      cases hc : hashmap.lookup hash eq m.base kv.1 with
      | none => rfl
      | some v =>
        obtain ⟨n, hn, hd⟩ := (hwf.base_agree _ _).1 hc
        exact absurd ((mem_keys_iff m kv.1).2 ⟨n, hn, by rw [hd]⟩) hk
    obtain ⟨kn1, heap3, hs, hwfk, hlek, hlk⟩ := set_node_spec heq
      (hwf.index.mono (le_trans hleb (Nat.le_succ heapb))) kv.1 (some heapb)
    have hfilter : m.insert_list.nodes.filter (fun n => decide (n.data.1 ≠ kv.1))
        = m.insert_list.nodes := filter_key_absent hk
    have hwf1 := WF_rebind hwf kv hleb hlek (m.insert_list.size + 1)
      (by rw [hfilter, hwf.size_eq]) (hwfb.mono (le_trans (Nat.le_succ _) hlek)) hwfk hlb hlk
    refine ⟨_, heap3, heapb, ?_, hwf1, le_trans hleb (le_trans (Nat.le_succ _) hlek), rfl⟩
    simp only [insert, hr, hbl, Option.isNone_none, double_list.insert_tail_eq, hfilter,
      double_list.tail, List.getLast?_concat, Option.map_some', hs, hk, if_true, if_false,
      not_false_eq_true, decide_True]

end linked_hashmap


namespace linked_hashmap

variable {Key T : Type}

/-- Specification of `remove(pos)` for an iterator to a node of the map. -/
theorem remove_spec [DecidableEq Key] {hash : Key → Nat} {eq : Key → Key → Bool}
    (heq : ∀ a b, eq a b = true ↔ a = b) {m : linked_hashmap Key T} {heap : Heap}
    (hwf : WF hash eq m heap) {n : Node (Key × T)} (hn : n ∈ m.insert_list.nodes) :
    ∃ m1, remove hash eq m ⟨some n.addr⟩ = .ok m1 ∧ WF hash eq m1 heap ∧
      m1.insert_list.nodes = m.insert_list.nodes.filter (fun x => decide (x.data.1 ≠ n.data.1)) := by
  obtain ⟨base1, hrb, hwfb, -, -, hlb⟩ := hashmap.remove_ok heq hwf.base n.data.1
  obtain ⟨kn1, hrk, hwfk, -, -, hlk⟩ := hashmap.remove_ok heq hwf.index n.data.1
  obtain ⟨nx, hnx⟩ := double_list.unlink_of_mem hwf.nodup_addrs (List.mem_map_of_mem Node.addr hn)
  have hlen := double_list.unlink_length hnx
  have hfilter := filter_addr_eq_filter_key hwf.nodup_keys hwf.nodup_addrs hn
  have hsub : ∀ x, x ∈ m.insert_list.nodes.filter (fun x => decide (x.data.1 ≠ n.data.1)) →
      x ∈ m.insert_list.nodes ∧ x.data.1 ≠ n.data.1 := by
    intro x hx
    have := List.mem_filter.1 hx
    exact ⟨this.1, by simpa using this.2⟩
  refine ⟨{ base := base1,
            insert_list :=
              { nodes := m.insert_list.nodes.filter (fun x => decide (x.data.1 ≠ n.data.1)),
                size := m.insert_list.size - 1 },
            key_to_node := kn1 }, ?_, ?_, rfl⟩
  · simp only [remove, double_list.deref, double_list.nodeAt_of_mem hwf.nodup_addrs hn, hrb,
      double_list.erase, hnx, hrk, hfilter]
  · refine ⟨hwfb, hwfk, ?_, ?_, ?_, ?_, ?_, ?_⟩
    · exact (List.filter_sublist _).map _ |>.nodup hwf.nodup_keys
    · exact (List.filter_sublist _).map _ |>.nodup hwf.nodup_addrs
    · intro x hx
      exact hwf.fresh x (hsub x hx).1
    · show m.insert_list.size - 1
        = (((m.insert_list.nodes.filter (fun x => decide (x.data.1 ≠ n.data.1))).length : Nat) : Int)
      rw [← hfilter, hwf.size_eq]
      omega
    · intro k v
      rw [hlb]
      by_cases hk : k = n.data.1
      · subst hk
        simp only [if_true]
        constructor
        · intro e; cases e
        · rintro ⟨x, hx, hd⟩
          exact absurd (by rw [hd]) (hsub x hx).2
      · simp only [hk, if_false]
        rw [hwf.base_agree]
        constructor
        · rintro ⟨x, hx, hd⟩
          refine ⟨x, List.mem_filter.2 ⟨hx, ?_⟩, hd⟩
          simpa [hd] using hk
        · rintro ⟨x, hx, hd⟩
          exact ⟨x, (hsub x hx).1, hd⟩
    · intro k p
      rw [hlk]
      by_cases hk : k = n.data.1
      · subst hk
        simp only [if_true]
        constructor
        · intro e; cases e
        · rintro ⟨x, hx, hd, -⟩
          exact absurd hd (hsub x hx).2
      · simp only [hk, if_false]
        rw [hwf.index_agree]
        constructor
        · rintro ⟨x, hx, hd, hp⟩
          refine ⟨x, List.mem_filter.2 ⟨hx, ?_⟩, hd, hp⟩
          simpa [hd] using hk
        · rintro ⟨x, hx, hd, hp⟩
          exact ⟨x, (hsub x hx).1, hd, hp⟩

/-- Specification of `find(key)`: the node that holds the key, `end()` when no
node does. -/
theorem find_spec [DecidableEq Key] {hash : Key → Nat} {eq : Key → Key → Bool}
    (heq : ∀ a b, eq a b = true ↔ a = b) {m : linked_hashmap Key T} {heap : Heap}
    (hwf : WF hash eq m heap) (k : Key) :
    (k ∉ m.keys → find hash eq m k = .ok m.end_) ∧
    (∀ n ∈ m.insert_list.nodes, n.data.1 = k → find hash eq m k = .ok ⟨some n.addr⟩) := by
  constructor
  · intro hk
    have hl : hashmap.lookup hash eq m.key_to_node k = none := by
      cases hc : hashmap.lookup hash eq m.key_to_node k with
      | none => rfl
      | some p =>
        obtain ⟨n, hn, hd, -⟩ := (hwf.index_agree _ _).1 hc
        exact absurd ((mem_keys_iff m k).2 ⟨n, hn, hd⟩) hk
    simp [find, hashmap.find_end hl, hashmap.iterator.same]
  · intro n hn hd
    have hil : hashmap.lookup hash eq m.key_to_node k = some (some n.addr) :=
      (hwf.index_agree _ _).2 ⟨n, hn, hd, rfl⟩
    obtain ⟨nb, -, -, hfind, hderef⟩ := hashmap.find_some heq hwf.index hil
    have hsame : (hashmap.find hash eq m.key_to_node k).same m.key_to_node.end_ = false := by
      rw [hfind]; simp [hashmap.iterator.same, hashmap.end_]
    simp [find, hsame, hderef]

theorem WF_new [DecidableEq Key] (hash : Key → Nat) (eq : Key → Key → Bool) (heap : Heap) :
    WF hash eq (new : linked_hashmap Key T) heap := by
  refine ⟨hashmap.WF_replicate hash 16 0 (by decide) heap,
    hashmap.WF_replicate hash 16 0 (by decide) heap, ?_, ?_, ?_, ?_, ?_, ?_⟩
  · simp [keys, new, double_list.empty_list]
  · simp [new, double_list.empty_list]
  · simp [new, double_list.empty_list]
  · simp [new, double_list.empty_list]
  · intro k v
    have : hashmap.lookup hash eq (new : linked_hashmap Key T).base k = none :=
      hashmap.lookup_replicate hash eq 16 0 k
    rw [this]
    simp [new, double_list.empty_list]
  · intro k p
    have : hashmap.lookup hash eq (new : linked_hashmap Key T).key_to_node k = none :=
      hashmap.lookup_replicate hash eq 16 0 k
    rw [this]
    simp [new, double_list.empty_list]

end linked_hashmap


/-! ## Lemmas on `lru` -/

theorem Equal_iff (a b : Integer) : Equal a b = true ↔ a = b := by
  cases a; cases b
  simp [Equal]

theorem to_size_t_of_lt {x : Int} (h0 : 0 ≤ x) (h1 : x < 18446744073709551616) :
    (to_size_t x : Int) = x := by
  unfold to_size_t
  rw [Int.emod_eq_of_lt h0 h1]
  exact Int.toNat_of_nonneg h0

theorem to_int_of_range {x : Int} (h0 : -2147483648 ≤ x) (h1 : x ≤ 2147483647) :
    to_int x = x := by
  unfold to_int
  omega

theorem to_int_succ_max : to_int (2147483647 + 1) = -2147483648 := by
  unfold to_int
  omega

namespace lru

variable {T : Type}

/-- Specification of `save(v)` on a cache with a consistent map, whatever the
capacity. -/
theorem save_wf {hash : Integer → Nat} {c : lru T} {heap : Heap}
    (hwf : linked_hashmap.WF hash Equal c.memory heap) (kv : Integer × T) :
    ∃ c1 heap1 a, save hash c kv heap = .ok (c1, heap1) ∧
      linked_hashmap.WF hash Equal c1.memory heap1 ∧ c1.capacity = c.capacity ∧ heap ≤ heap1 ∧
      c1.memory.insert_list.nodes
        = (if kv.1 ∈ c.memory.keys then
            c.memory.insert_list.nodes.filter (fun n => decide (n.data.1 ≠ kv.1)) ++ [⟨a, kv⟩]
          else if to_size_t (to_int ((c.memory.insert_list.nodes.length : Int) + 1))
              > to_size_t c.capacity
            then (c.memory.insert_list.nodes ++ [(⟨a, kv⟩ : Node (Integer × T))]).tail
          else c.memory.insert_list.nodes ++ [⟨a, kv⟩]) := by
  obtain ⟨m1, heap1, a, hr, hwf1, hle, hnodes⟩ := linked_hashmap.insert_spec Equal_iff hwf kv
  by_cases hk : kv.1 ∈ c.memory.keys
  · refine ⟨{ c with memory := m1 }, heap1, a, ?_, hwf1, rfl, hle, ?_⟩
    · simp [save, hr, hk]
    · simp [hnodes, hk]
  · have hfilter := linked_hashmap.filter_key_absent hk
    rw [hfilter] at hnodes
    have hsz : m1.size
        = to_size_t (to_int ((c.memory.insert_list.nodes.length : Int) + 1)) := by
      unfold linked_hashmap.size
      rw [hwf1.size_eq, hnodes, List.length_append]
      simp
    by_cases hgt : to_size_t (to_int ((c.memory.insert_list.nodes.length : Int) + 1))
        > to_size_t c.capacity
    · cases hns : c.memory.insert_list.nodes ++ [(⟨a, kv⟩ : Node (Integer × T))] with
      | nil => simp at hns
      | cons hd tl =>
        rw [hns] at hnodes
        have hhd : hd ∈ m1.insert_list.nodes := by rw [hnodes]; simp
        obtain ⟨m2, hr2, hwf2, hnodes2⟩ := linked_hashmap.remove_spec Equal_iff hwf1 hhd
        have hnd := hwf1.nodup_keys
        unfold linked_hashmap.keys at hnd
        rw [hnodes] at hnd hnodes2
        simp only [List.map_cons, List.nodup_cons] at hnd
        have hrest : tl.filter (fun x => decide (x.data.1 ≠ hd.data.1)) = tl := by
          rw [List.filter_eq_self]
          intro x hx
          have : x.data.1 ≠ hd.data.1 := by
            intro e
            exact hnd.1 (e ▸ List.mem_map_of_mem (fun n => n.data.1) hx)
          simpa using this
        have hnodes3 : m2.insert_list.nodes = tl := by
          rw [hnodes2, List.filter_cons_of_neg (by simp), hrest]
        refine ⟨{ c with memory := m2 }, heap1, a, ?_, hwf2, rfl, hle, ?_⟩
        · have hbegin : m1.begin_ = ⟨some hd.addr⟩ := by
            simp [linked_hashmap.begin_, double_list.head, hnodes]
          have hgt2 : m1.size > to_size_t c.capacity := by rw [hsz]; exact hgt
          simp [save, hr, hk, hgt2, hbegin, hr2]
        · simp only [hnodes3, hk, if_false, if_pos hgt, hns, List.tail_cons]
    · refine ⟨{ c with memory := m1 }, heap1, a, ?_, hwf1, rfl, hle, ?_⟩
      · have hgt2 : ¬ (m1.size > to_size_t c.capacity) := by rw [hsz]; exact hgt
        simp [save, hr, hk, hgt2]
      · simp [hnodes, hk, hgt]

/-- Specification of `get(v)` on a cache with a consistent map. -/
theorem get_spec {hash : Integer → Nat} {c : lru T} {heap : Heap}
    (hwf : linked_hashmap.WF hash Equal c.memory heap) (k : Integer) :
    (k ∉ c.memory.keys → get hash c k heap = .ok (c, none, heap)) ∧
    (∀ n ∈ c.memory.insert_list.nodes, n.data.1 = k →
      ∃ c1 heap1 a, get hash c k heap = .ok (c1, some a, heap1) ∧
        linked_hashmap.WF hash Equal c1.memory heap1 ∧
        c1.capacity = c.capacity ∧ heap ≤ heap1 ∧
        c1.memory.insert_list.nodes
          = c.memory.insert_list.nodes.filter (fun x => decide (x.data.1 ≠ k)) ++ [⟨a, n.data⟩]) := by
  obtain ⟨hf1, hf2⟩ := linked_hashmap.find_spec Equal_iff hwf k
  constructor
  · intro hk
    simp [get, hf1 hk]
  · intro n hn hkey
    obtain ⟨m1, hr1, hwf1, hnodes1⟩ := linked_hashmap.remove_spec Equal_iff hwf hn
    rw [hkey] at hnodes1
    have hk1 : n.data.1 ∉ m1.keys := by
      unfold linked_hashmap.keys
      rw [hnodes1]
      intro hmem
      obtain ⟨x, hx, hxk⟩ := List.mem_map.1 hmem
      have := (List.mem_filter.1 hx).2
      simp [hkey] at this
      exact this (by rw [← hkey]; exact hxk)
    obtain ⟨m2, heap2, a, hr2, hwf2, hle2, hnodes2⟩ := linked_hashmap.insert_spec Equal_iff hwf1 n.data
    rw [linked_hashmap.filter_key_absent hk1, hnodes1] at hnodes2
    refine ⟨{ c with memory := m2 }, heap2, a, ?_, hwf2, rfl, hle2, hnodes2⟩
    have hne : (⟨some n.addr⟩ : linked_hashmap.iterator) ≠ c.memory.end_ := by
      simp [linked_hashmap.end_]
    have hd : c.memory.insert_list.deref (some n.addr) = .ok (n.data.1, n.data.2) := by
      simp [double_list.deref, double_list.nodeAt_of_mem hwf.nodup_addrs hn]
    simp only [get, hf2 n hn hkey, hne, hd, hr1, hr2, hk1, ne_eq, not_false_eq_true, if_true,
      if_false]

theorem step_wf {hash : Integer → Nat} {c : lru T} {heap : Heap}
    (hwf : linked_hashmap.WF hash Equal c.memory heap) (op : Op T) :
    ∃ c1 p heap1, step hash c heap op = .ok (c1, p, heap1) ∧
      linked_hashmap.WF hash Equal c1.memory heap1 ∧ c1.capacity = c.capacity := by
  cases op with
  | save v =>
    obtain ⟨c1, heap1, a, hr, hwf1, hcap, -, -⟩ := save_wf hwf v
    exact ⟨c1, none, heap1, by simp [step, hr], hwf1, hcap⟩
  | get v =>
    obtain ⟨g1, g2⟩ := get_spec hwf v
    by_cases hk : v ∈ c.memory.keys
    · obtain ⟨n, hn, hkey⟩ := (linked_hashmap.mem_keys_iff c.memory v).1 hk
      obtain ⟨c1, heap1, a, hr, hwf1, hcap, -, -⟩ := g2 n hn hkey
      exact ⟨c1, some a, heap1, hr, hwf1, hcap⟩
    · exact ⟨c, none, heap, g1 hk, hwf, rfl⟩

theorem run_wf {hash : Integer → Nat} (ops : List (Op T)) :
    ∀ {c : lru T} {heap : Heap}, linked_hashmap.WF hash Equal c.memory heap →
      ∃ c1 heap1, run hash ops c heap = .ok (c1, heap1) ∧
        linked_hashmap.WF hash Equal c1.memory heap1 ∧ c1.capacity = c.capacity := by
  induction ops with
  | nil => intro c heap hwf; exact ⟨c, heap, rfl, hwf, rfl⟩
  | cons op rest ih =>
    intro c heap hwf
    obtain ⟨c1, p, heap1, hr, hwf1, hcap1⟩ := step_wf hwf op
    obtain ⟨c2, heap2, hr2, hwf2, hcap2⟩ := ih hwf1
    exact ⟨c2, heap2, by simp [run, hr, hr2], hwf2, by rw [hcap2, hcap1]⟩

/-- Every state reached from a new cache has a consistent map, whatever the
capacity; the calls return. -/
theorem reach_wf {hash : Integer → Nat} {N : Int} {ops : List (Op T)} {heap0 : Heap} {c : lru T}
    {heap : Heap} (hrun : run hash ops (new N) heap0 = .ok (c, heap)) :
    linked_hashmap.WF hash Equal c.memory heap ∧ c.capacity = N := by
  obtain ⟨c1, heap1, hr, hwf, hcap⟩ :=
    run_wf ops (c := (new N : lru T)) (linked_hashmap.WF_new hash Equal heap0)
  rw [hrun] at hr
  simp only [Except.ok.injEq, Prod.mk.injEq] at hr
  obtain ⟨rfl, rfl⟩ := hr
  exact ⟨hwf, hcap⟩

/-- Specification of `save(v)` on a cache of positive capacity that satisfies
the invariant. -/
theorem save_spec {hash : Integer → Nat} {c : lru T} {heap : Heap} (hinv : Inv hash c heap)
    (kv : Integer × T) :
    ∃ c1 heap1 a, save hash c kv heap = .ok (c1, heap1) ∧ Inv hash c1 heap1 ∧
      c1.capacity = c.capacity ∧ heap ≤ heap1 ∧
      c1.memory.insert_list.nodes
        = (if kv.1 ∈ c.memory.keys then
            c.memory.insert_list.nodes.filter (fun n => decide (n.data.1 ≠ kv.1)) ++ [⟨a, kv⟩]
          else if (c.memory.insert_list.nodes.length : Int) < c.capacity then
            c.memory.insert_list.nodes ++ [⟨a, kv⟩]
          else c.memory.insert_list.nodes.tail ++ [⟨a, kv⟩]) := by
  obtain ⟨hwf, hc1, hc2, hlen⟩ := hinv
  obtain ⟨c1, heap1, a, hr, hwf1, hcap, hle, hnodes⟩ := save_wf hwf kv
  have hcp : (to_size_t c.capacity : Int) = c.capacity := to_size_t_of_lt (by omega) (by omega)
  have hsz : (to_size_t (to_int ((c.memory.insert_list.nodes.length : Int) + 1)) : Int)
      = (if (c.memory.insert_list.nodes.length : Int) < 2147483647
          then (c.memory.insert_list.nodes.length : Int) + 1
          else 18446744071562067968) := by
    by_cases hmax : (c.memory.insert_list.nodes.length : Int) < 2147483647
    · rw [if_pos hmax, to_int_of_range (by omega) (by omega)]
      exact to_size_t_of_lt (by omega) (by omega)
    · have hl : (c.memory.insert_list.nodes.length : Int) = 2147483647 := by omega
      rw [if_neg hmax, hl, to_int_succ_max]
      rfl
  have hiff : to_size_t (to_int ((c.memory.insert_list.nodes.length : Int) + 1))
        > to_size_t c.capacity
      ↔ ¬ ((c.memory.insert_list.nodes.length : Int) < c.capacity) := by
    constructor
    · intro h
      have h2 : (to_size_t c.capacity : Int)
          < (to_size_t (to_int ((c.memory.insert_list.nodes.length : Int) + 1)) : Int) := by
        exact_mod_cast h
      rw [hsz] at h2
      split at h2 <;> omega
    · intro h
      have h2 : (to_size_t c.capacity : Int)
          < (to_size_t (to_int ((c.memory.insert_list.nodes.length : Int) + 1)) : Int) := by
        rw [hsz]
        split <;> omega
      exact_mod_cast h2
  have hnodes2 : c1.memory.insert_list.nodes
      = (if kv.1 ∈ c.memory.keys then
          c.memory.insert_list.nodes.filter (fun n => decide (n.data.1 ≠ kv.1)) ++ [⟨a, kv⟩]
        else if (c.memory.insert_list.nodes.length : Int) < c.capacity then
          c.memory.insert_list.nodes ++ [⟨a, kv⟩]
        else c.memory.insert_list.nodes.tail ++ [⟨a, kv⟩]) := by
    rw [hnodes]
    by_cases hk : kv.1 ∈ c.memory.keys
    · simp only [hk, if_true]
    · simp only [hk, if_false]
      by_cases hlt : (c.memory.insert_list.nodes.length : Int) < c.capacity
      · rw [if_neg (fun h => (hiff.1 h) hlt), if_pos hlt]
      · rw [if_pos (hiff.2 hlt), if_neg hlt]
        cases hns : c.memory.insert_list.nodes with
        | nil => rw [hns] at hlt; simp at hlt; omega
        | cons hd tl => rfl
  refine ⟨c1, heap1, a, hr, ⟨hwf1, by rw [hcap]; exact hc1, by rw [hcap]; exact hc2, ?_⟩, hcap,
    hle, hnodes2⟩
  rw [hcap, hnodes2]
  by_cases hk : kv.1 ∈ c.memory.keys
  · simp only [hk, if_true]
    obtain ⟨n0, hn0, hkey⟩ := (linked_hashmap.mem_keys_iff c.memory kv.1).1 hk
    obtain ⟨nx, hnx⟩ := double_list.unlink_of_mem hwf.nodup_addrs
      (List.mem_map_of_mem Node.addr hn0)
    have hl := double_list.unlink_length hnx
    rw [linked_hashmap.filter_addr_eq_filter_key hwf.nodup_keys hwf.nodup_addrs hn0, hkey] at hl
    rw [List.length_append]
    simp only [List.length_singleton]
    omega
  · simp only [hk, if_false]
    by_cases hlt : (c.memory.insert_list.nodes.length : Int) < c.capacity
    · rw [if_pos hlt, List.length_append]
      simp only [List.length_singleton]
      push_cast; omega
    · rw [if_neg hlt, List.length_append, List.length_tail]
      simp only [List.length_singleton]
      have : 1 ≤ c.memory.insert_list.nodes.length := by omega
      push_cast
      omega

theorem Inv_new (hash : Integer → Nat) {N : Int} (h1 : 1 ≤ N) (h2 : N ≤ 2147483647) (heap : Heap) :
    Inv hash (new N : lru T) heap :=
  ⟨linked_hashmap.WF_new hash Equal heap, h1, h2, by
    show ((0 : Nat) : Int) ≤ N
    omega⟩

theorem get_inv {hash : Integer → Nat} {c c1 : lru T} {heap heap1 : Heap} (hinv : Inv hash c heap)
    {k : Integer} {p : Ptr} (hget : get hash c k heap = .ok (c1, p, heap1)) : Inv hash c1 heap1 := by
  obtain ⟨hwf, hc1, hc2, hlen⟩ := hinv
  obtain ⟨g1, g2⟩ := get_spec hwf k
  by_cases hk : k ∈ c.memory.keys
  · obtain ⟨n, hn, hkey⟩ := (linked_hashmap.mem_keys_iff c.memory k).1 hk
    obtain ⟨c2, heap2, a, hr, hwf2, hcap, -, hnodes⟩ := g2 n hn hkey
    rw [hget] at hr
    simp only [Except.ok.injEq, Prod.mk.injEq] at hr
    obtain ⟨rfl, -, rfl⟩ := hr
    refine ⟨hwf2, by rw [hcap]; exact hc1, by rw [hcap]; exact hc2, ?_⟩
    obtain ⟨nx, hnx⟩ := double_list.unlink_of_mem hwf.nodup_addrs (List.mem_map_of_mem Node.addr hn)
    have hl := double_list.unlink_length hnx
    rw [linked_hashmap.filter_addr_eq_filter_key hwf.nodup_keys hwf.nodup_addrs hn, hkey] at hl
    rw [hcap, hnodes, List.length_append]
    simp only [List.length_singleton]
    omega
  · have hr := g1 hk
    rw [hget] at hr
    simp only [Except.ok.injEq, Prod.mk.injEq] at hr
    obtain ⟨rfl, -, rfl⟩ := hr
    exact ⟨hwf, hc1, hc2, hlen⟩

theorem step_inv {hash : Integer → Nat} {c : lru T} {heap : Heap} (hinv : Inv hash c heap)
    (op : Op T) :
    ∃ c1 p heap1, step hash c heap op = .ok (c1, p, heap1) ∧ Inv hash c1 heap1 ∧
      c1.capacity = c.capacity := by
  cases op with
  | save v =>
    obtain ⟨c1, heap1, a, hr, hinv1, hcap, -, -⟩ := save_spec hinv v
    exact ⟨c1, none, heap1, by simp [step, hr], hinv1, hcap⟩
  | get v =>
    obtain ⟨c1, p, heap1, hr, -, hcap⟩ := step_wf hinv.1 (Op.get v)
    exact ⟨c1, p, heap1, hr, get_inv hinv hr, hcap⟩

theorem run_inv {hash : Integer → Nat} (ops : List (Op T)) :
    ∀ {c : lru T} {heap : Heap}, Inv hash c heap →
      ∃ c1 heap1, run hash ops c heap = .ok (c1, heap1) ∧ Inv hash c1 heap1 ∧
        c1.capacity = c.capacity := by
  induction ops with
  | nil => intro c heap hinv; exact ⟨c, heap, rfl, hinv, rfl⟩
  | cons op rest ih =>
    intro c heap hinv
    obtain ⟨c1, p, heap1, hr, hinv1, hcap1⟩ := step_inv hinv op
    obtain ⟨c2, heap2, hr2, hinv2, hcap2⟩ := ih hinv1
    exact ⟨c2, heap2, by simp [run, hr, hr2], hinv2, by rw [hcap2, hcap1]⟩

end lru


namespace linked_hashmap

variable {Key T : Type}

theorem keys_eq_map_entries (m : linked_hashmap Key T) : m.keys = m.entries.map Prod.fst := by
  simp [keys, entries, List.map_map, Function.comp]

theorem mem_entries_iff (m : linked_hashmap Key T) (e : Key × T) :
    e ∈ m.entries ↔ ∃ n ∈ m.insert_list.nodes, n.data = e := by
  unfold entries
  rw [List.mem_map]

theorem map_data_filter [DecidableEq Key] (ns : List (Node (Key × T))) (k : Key) :
    (ns.filter (fun n => decide (n.data.1 ≠ k))).map Node.data
      = (ns.map Node.data).filter (fun e => decide (e.1 ≠ k)) := by
  rw [List.filter_map]
  rfl

theorem map_key_filter [DecidableEq Key] (ns : List (Node (Key × T))) (k : Key) :
    (ns.filter (fun n => decide (n.data.1 ≠ k))).map (fun n => n.data.1)
      = (ns.map (fun n => n.data.1)).filter (fun x => decide (x ≠ k)) := by
  rw [List.filter_map]
  rfl

theorem filter_key_length [DecidableEq Key] {hash : Key → Nat} {eq : Key → Key → Bool}
    {m : linked_hashmap Key T} {heap : Heap} (hwf : WF hash eq m heap) {n : Node (Key × T)}
    (hn : n ∈ m.insert_list.nodes) :
    (m.insert_list.nodes.filter (fun x => decide (x.data.1 ≠ n.data.1))).length + 1
      = m.insert_list.nodes.length := by
  obtain ⟨nx, hnx⟩ := double_list.unlink_of_mem hwf.nodup_addrs (List.mem_map_of_mem Node.addr hn)
  have hl := double_list.unlink_length hnx
  rwa [filter_addr_eq_filter_key hwf.nodup_keys hwf.nodup_addrs hn] at hl

theorem lookup_base_iff [DecidableEq Key] {hash : Key → Nat} {eq : Key → Key → Bool}
    {m : linked_hashmap Key T} {heap : Heap} (hwf : WF hash eq m heap) (k : Key) (v : T) :
    hashmap.lookup hash eq m.base k = some v ↔ (k, v) ∈ m.entries := by
  rw [hwf.base_agree, mem_entries_iff]

theorem size_congr {hash : Key → Nat} {eq : Key → Key → Bool}
    {m m1 : linked_hashmap Key T} {heap heap1 : Heap} (hwf : WF hash eq m heap)
    (hwf1 : WF hash eq m1 heap1)
    (hlen : m1.insert_list.nodes.length = m.insert_list.nodes.length) : m1.size = m.size := by
  unfold size
  rw [hwf.size_eq, hwf1.size_eq, hlen]

theorem size_eq_length {hash : Key → Nat} {eq : Key → Key → Bool}
    {m : linked_hashmap Key T} {heap : Heap} (hwf : WF hash eq m heap)
    (hlen : (m.insert_list.nodes.length : Int) ≤ 2147483647) :
    m.size = m.insert_list.nodes.length := by
  unfold size
  rw [hwf.size_eq, to_int_of_range (by omega) hlen]
  have := to_size_t_of_lt (x := (m.insert_list.nodes.length : Int)) (by omega) (by omega)
  exact_mod_cast this

end linked_hashmap

namespace lru

variable {T : Type}

theorem Inv.size_eq {hash : Integer → Nat} {c : lru T} {heap : Heap} (hinv : Inv hash c heap) :
    c.memory.size = c.memory.insert_list.nodes.length :=
  linked_hashmap.size_eq_length hinv.1 (by have := hinv.2.2.1; have := hinv.2.2.2; omega)

/-- The effect of `save(v)` on the entries in iteration order. -/
theorem save_entries {hash : Integer → Nat} {c : lru T} {heap : Heap} (hinv : Inv hash c heap)
    (kv : Integer × T) :
    ∃ c1 heap1, save hash c kv heap = .ok (c1, heap1) ∧ Inv hash c1 heap1 ∧
      c1.capacity = c.capacity ∧
      c1.memory.entries
        = (if kv.1 ∈ c.memory.keys then
            c.memory.entries.filter (fun e => decide (e.1 ≠ kv.1)) ++ [kv]
          else if (c.memory.size : Int) < c.capacity then c.memory.entries ++ [kv]
          else c.memory.entries.tail ++ [kv]) := by
  obtain ⟨c1, heap1, a, hr, hinv1, hcap, -, hnodes⟩ := save_spec hinv kv
  refine ⟨c1, heap1, hr, hinv1, hcap, ?_⟩
  unfold linked_hashmap.entries
  rw [hnodes, hinv.size_eq]
  split
  · rw [List.map_append, linked_hashmap.map_data_filter]; rfl
  · split
    · rw [List.map_append]; rfl
    · rw [List.map_append, List.map_tail]; rfl

/-- The effect of a `save(v)` of a resident key. -/
theorem save_resident {hash : Integer → Nat} {c : lru T} {heap : Heap}
    (hwf : linked_hashmap.WF hash Equal c.memory heap) (kv : Integer × T)
    (hk : kv.1 ∈ c.memory.keys) :
    ∃ c1 heap1, save hash c kv heap = .ok (c1, heap1) ∧
      linked_hashmap.WF hash Equal c1.memory heap1 ∧ c1.capacity = c.capacity ∧
      c1.memory.entries = c.memory.entries.filter (fun e => decide (e.1 ≠ kv.1)) ++ [kv] ∧
      c1.memory.insert_list.nodes.length = c.memory.insert_list.nodes.length := by
  obtain ⟨c1, heap1, a, hr, hwf1, hcap, -, hnodes⟩ := save_wf hwf kv
  simp only [hk, if_true] at hnodes
  refine ⟨c1, heap1, hr, hwf1, hcap, ?_, ?_⟩
  · unfold linked_hashmap.entries
    rw [hnodes, List.map_append, linked_hashmap.map_data_filter]
    rfl
  · obtain ⟨n, hn, hkey⟩ := (linked_hashmap.mem_keys_iff c.memory kv.1).1 hk
    rw [hnodes, List.length_append, ← hkey]
    exact linked_hashmap.filter_key_length hwf hn

/-- The effect of a `get(k)` that finds the key. -/
theorem get_hit {hash : Integer → Nat} {c : lru T} {heap : Heap}
    (hwf : linked_hashmap.WF hash Equal c.memory heap)
    {k : Integer} {v : T} (hkv : (k, v) ∈ c.memory.entries) :
    ∃ c1 heap1 a, get hash c k heap = .ok (c1, some a, heap1) ∧
      linked_hashmap.WF hash Equal c1.memory heap1 ∧
      c1.capacity = c.capacity ∧
      c1.memory.insert_list.deref (some a) = .ok (k, v) ∧
      c1.memory.entries = c.memory.entries.filter (fun e => decide (e.1 ≠ k)) ++ [(k, v)] ∧
      c1.memory.insert_list.nodes.length = c.memory.insert_list.nodes.length := by
  obtain ⟨n, hn, hd⟩ := (linked_hashmap.mem_entries_iff c.memory (k, v)).1 hkv
  have hkey : n.data.1 = k := by rw [hd]
  obtain ⟨c1, heap1, a, hr, hinv1, hcap, -, hnodes⟩ := (get_spec hwf k).2 n hn hkey
  refine ⟨c1, heap1, a, hr, hinv1, hcap, ?_, ?_, ?_⟩
  · have hmem : (⟨a, n.data⟩ : Node (Integer × T)) ∈ c1.memory.insert_list.nodes := by
      rw [hnodes]; simp
    have := double_list.nodeAt_of_mem hinv1.nodup_addrs hmem
    simp only at this
    simp [double_list.deref, this, hd]
  · unfold linked_hashmap.entries
    rw [hnodes, List.map_append, linked_hashmap.map_data_filter, hd]
    rfl
  · rw [hnodes, List.length_append, ← hkey]
    exact linked_hashmap.filter_key_length hwf hn

/-- The effect of a `get(k)` that does not find the key. -/
theorem get_miss {hash : Integer → Nat} {c : lru T} {heap : Heap}
    (hwf : linked_hashmap.WF hash Equal c.memory heap)
    {k : Integer} (hk : k ∉ c.memory.keys) : get hash c k heap = .ok (c, none, heap) :=
  (get_spec hwf k).1 hk

/-- Every state reached from a new cache of positive capacity satisfies the
invariant. -/
theorem reach_inv {hash : Integer → Nat} {N : Int} (h1 : 1 ≤ N) (h2 : N ≤ 2147483647)
    {ops : List (Op T)} {heap0 : Heap} {c : lru T} {heap : Heap}
    (hrun : run hash ops (new N) heap0 = .ok (c, heap)) : Inv hash c heap ∧ c.capacity = N := by
  obtain ⟨c1, heap1, hr, hinv, hcap⟩ := run_inv ops (Inv_new (T := T) hash h1 h2 heap0)
  rw [hrun] at hr
  simp only [Except.ok.injEq, Prod.mk.injEq] at hr
  obtain ⟨rfl, rfl⟩ := hr
  exact ⟨hinv, hcap⟩

end lru


namespace lru

variable {T : Type}

theorem entries_unique {hash : Integer → Nat} {c : lru T} {heap : Heap}
    (hwf : linked_hashmap.WF hash Equal c.memory heap) {k : Integer} {v w : T} (hv : (k, v) ∈ c.memory.entries) (hw : (k, w) ∈ c.memory.entries) :
    v = w := by
  have h1 := (linked_hashmap.lookup_base_iff hwf k v).2 hv
  have h2 := (linked_hashmap.lookup_base_iff hwf k w).2 hw
  rw [h1] at h2
  exact Option.some.inj h2

theorem mem_keys_of_entry {c : lru T} {k : Integer} {v : T} (h : (k, v) ∈ c.memory.entries) :
    k ∈ c.memory.keys := by
  rw [linked_hashmap.keys_eq_map_entries]
  exact List.mem_map.2 ⟨(k, v), h, rfl⟩

theorem entry_of_mem_keys {c : lru T} {k : Integer} (h : k ∈ c.memory.keys) :
    ∃ v, (k, v) ∈ c.memory.entries := by
  rw [linked_hashmap.keys_eq_map_entries] at h
  obtain ⟨e, he, rfl⟩ := List.mem_map.1 h
  exact ⟨e.2, he⟩

theorem mem_rebind {es : List (Integer × T)} {k : Integer} {v : T} (e : Integer × T) :
    e ∈ es.filter (fun x => decide (x.1 ≠ k)) ++ [(k, v)] ↔ (e ∈ es ∧ e.1 ≠ k) ∨ e = (k, v) := by
  simp [List.mem_filter]

theorem filter_rebind (es : List (Integer × T)) (k : Integer) (v : T) :
    (es.filter (fun x => decide (x.1 ≠ k)) ++ [(k, v)]).filter (fun x => decide (x.1 ≠ k))
      = es.filter (fun x => decide (x.1 ≠ k)) := by
  rw [List.filter_append, List.filter_filter]
  simp

theorem lookup_congr {hash : Integer → Nat} {c c1 : lru T} {heap heap1 : Heap}
    (hwf : linked_hashmap.WF hash Equal c.memory heap)
    (hwf1 : linked_hashmap.WF hash Equal c1.memory heap1) (k : Integer)
    (h : ∀ v, (k, v) ∈ c1.memory.entries ↔ (k, v) ∈ c.memory.entries) :
    hashmap.lookup hash Equal c1.memory.base k = hashmap.lookup hash Equal c.memory.base k := by
  apply Option.ext
  intro v
  simp only [Option.mem_def]
  rw [linked_hashmap.lookup_base_iff hwf1, linked_hashmap.lookup_base_iff hwf, h]

end lru


namespace lru

variable {T : Type}

theorem Ordered.sublist {f : Integer → Option Nat} {t : Nat} {ks ks1 : List Integer}
    (h : Ordered f t ks) (hs : ks1.Sublist ks) : Ordered f t ks1 :=
  ⟨h.1.sublist hs, fun k hk => h.2 k (hs.subset hk)⟩

theorem Ordered.later {f : Integer → Option Nat} {t : Nat} {ks : List Integer}
    (h : Ordered f t ks) : Ordered f (t + 1) ks :=
  ⟨h.1, fun k hk => by
    obtain ⟨t1, h1, h2⟩ := h.2 k hk
    exact ⟨t1, h1, Nat.lt_succ_of_lt h2⟩⟩

theorem Ordered.congr {f g : Integer → Option Nat} {t : Nat} {ks : List Integer}
    (h : Ordered f t ks) (hfg : ∀ k, f k = g k) : Ordered g t ks := by
  have : f = g := funext hfg
  rwa [← this]

theorem Ordered.touch {f : Integer → Option Nat} {t : Nat} {ks : List Integer}
    (h : Ordered f t ks) (x : Integer) :
    Ordered (fun k => if k = x then some t else f k) (t + 1)
      (ks.filter (fun k => decide (k ≠ x)) ++ [x]) := by
  have hne : ∀ k, k ∈ ks.filter (fun k => decide (k ≠ x)) → k ∈ ks ∧ k ≠ x := by
    intro k hk
    have := List.mem_filter.1 hk
    exact ⟨this.1, by simpa using this.2⟩
  constructor
  · rw [List.pairwise_append]
    refine ⟨?_, List.pairwise_singleton _ _, ?_⟩
    · have hp := h.1.sublist (List.filter_sublist (p := fun k => decide (k ≠ x)) ks)
      refine List.Pairwise.imp_of_mem ?_ hp
      intro a b ha hb ⟨t1, t2, h1, h2, h3⟩
      exact ⟨t1, t2, by simp [(hne a ha).2, h1], by simp [(hne b hb).2, h2], h3⟩
    · intro a ha b hb
      have hbx : b = x := by simpa using hb
      subst hbx
      obtain ⟨t1, h1, h2⟩ := h.2 a (hne a ha).1
      exact ⟨t1, t, by simp [(hne a ha).2, h1], by simp, h2⟩
  · intro k hk
    rcases List.mem_append.1 hk with hk1 | hk1
    · obtain ⟨t1, h1, h2⟩ := h.2 k (hne k hk1).1
      exact ⟨t1, by simp [(hne k hk1).2, h1], Nat.lt_succ_of_lt h2⟩
    · have hkx : k = x := by simpa using hk1
      subst hkx
      exact ⟨t, by simp, Nat.lt_succ_self _⟩

theorem hit_iff {hash : Integer → Nat} {c : lru T} {heap : Heap}
    (hinv : linked_hashmap.WF hash Equal c.memory heap) (k : Integer) : hit hash c k = true ↔ k ∈ c.memory.keys := by
  obtain ⟨hf1, hf2⟩ := linked_hashmap.find_spec Equal_iff hinv k
  by_cases hk : k ∈ c.memory.keys
  · obtain ⟨n, hn, hkey⟩ := (linked_hashmap.mem_keys_iff c.memory k).1 hk
    simp [hit, hf2 n hn hkey, hk, linked_hashmap.end_]
  · simp [hit, hf1 hk, hk]

/-- The keys after one call, in iteration order, are a sublist of the old keys
with the touched key moved to the end. -/
theorem step_ordered {hash : Integer → Nat} {c : lru T} {heap : Heap} (hinv : Inv hash c heap)
    {f : Integer → Option Nat} {t : Nat} (hord : Ordered f t c.memory.keys) (op : Op T)
    {c1 : lru T} {p : Ptr} {heap1 : Heap} (hstep : step hash c heap op = .ok (c1, p, heap1)) :
    Inv hash c1 heap1 ∧
      Ordered (fun k => if touches hash c k op = true then some t else f k) (t + 1)
        c1.memory.keys := by
  cases op with
  | save kv =>
    obtain ⟨c2, heap2, hr, hinv2, -, hent⟩ := save_entries hinv kv
    simp only [step, hr, Except.ok.injEq, Prod.mk.injEq] at hstep
    obtain ⟨rfl, -, rfl⟩ := hstep
    refine ⟨hinv2, ?_⟩
    have hkeys : c2.memory.keys.Sublist
        (c.memory.keys.filter (fun k => decide (k ≠ kv.1)) ++ [kv.1]) := by
      rw [linked_hashmap.keys_eq_map_entries, hent]
      split
      · rw [List.map_append, linked_hashmap.keys_eq_map_entries, List.filter_map]
        exact List.Sublist.refl _
      · rename_i hk
        have hfil : c.memory.keys.filter (fun k => decide (k ≠ kv.1)) = c.memory.keys := by
          rw [List.filter_eq_self]
          intro a ha
          have : a ≠ kv.1 := fun e => hk (e ▸ ha)
          simpa using this
        rw [hfil, linked_hashmap.keys_eq_map_entries]
        split
        · rw [List.map_append]; exact List.Sublist.refl _
        · rw [List.map_append, List.map_tail]
          exact List.Sublist.append_right (List.tail_sublist _) _
    have h1 := (hord.touch kv.1).sublist hkeys
    refine h1.congr ?_
    intro k
    by_cases hk : k = kv.1
    · subst hk; simp [touches]
    · have hk2 : ¬ kv.1 = k := fun e => hk e.symm
      simp [touches, hk, hk2]
  | get v =>
    by_cases hk : v ∈ c.memory.keys
    · obtain ⟨w, hw⟩ := entry_of_mem_keys hk
      obtain ⟨c2, heap2, a, hr, -, -, -, hent, -⟩ := get_hit hinv.1 hw
      have hinv2 := get_inv hinv hr
      simp only [step, hr, Except.ok.injEq, Prod.mk.injEq] at hstep
      obtain ⟨rfl, -, rfl⟩ := hstep
      refine ⟨hinv2, ?_⟩
      have hkeys : c2.memory.keys = c.memory.keys.filter (fun k => decide (k ≠ v)) ++ [v] := by
        rw [linked_hashmap.keys_eq_map_entries, hent, List.map_append,
          linked_hashmap.keys_eq_map_entries, List.filter_map]
        rfl
      rw [hkeys]
      refine (hord.touch v).congr ?_
      intro k
      by_cases hkv : k = v
      · subst hkv; simp [touches, (hit_iff hinv.1 k).2 hk]
      · have hk2 : ¬ v = k := fun e => hkv e.symm
        simp [touches, hkv, hk2]
    · have hr : get hash c v heap = .ok (c, none, heap) := get_miss hinv.1 hk
      simp only [step, hr, Except.ok.injEq, Prod.mk.injEq] at hstep
      obtain ⟨rfl, -, rfl⟩ := hstep
      refine ⟨hinv, ?_⟩
      refine hord.later.congr ?_
      intro k
      by_cases hkv : v = k
      · subst hkv
        have : hit hash c v = false := by
          cases hh : hit hash c v with
          | false => rfl
          | true => exact absurd ((hit_iff hinv.1 v).1 hh) hk
        simp [touches, this]
      · simp [touches, hkv]

/-- Along every sequence of calls the keys stay in the order of their most
recent touches. -/
theorem run_ordered {hash : Integer → Nat} (ops : List (Op T)) :
    ∀ (c : lru T) (heap : Heap) (t : Nat) (f : Integer → Option Nat), Inv hash c heap →
      Ordered f t c.memory.keys → ∀ c1 heap1, run hash ops c heap = .ok (c1, heap1) →
      Ordered (fun k => lastTouch hash k ops c heap t (f k)) (t + ops.length) c1.memory.keys := by
  induction ops with
  | nil =>
    intro c heap t f _ hord c1 heap1 hrun
    simp only [run, Except.ok.injEq, Prod.mk.injEq] at hrun
    obtain ⟨rfl, rfl⟩ := hrun
    simpa [lastTouch] using hord
  | cons op rest ih =>
    intro c heap t f hinv hord c1 heap1 hrun
    obtain ⟨c2, p, heap2, hstep, -, -⟩ := step_inv hinv op
    obtain ⟨hinv2, hord2⟩ := step_ordered hinv hord op hstep
    simp only [run, hstep] at hrun
    have := ih c2 heap2 (t + 1) _ hinv2 hord2 c1 heap1 hrun
    have hlen : t + (op :: rest).length = t + 1 + rest.length := by
      simp only [List.length_cons]; omega
    rw [hlen]
    refine this.congr ?_
    intro k
    simp only [lastTouch, hstep]

end lru


namespace lru

variable {T : Type}

/-! ## The claims on `lru` -/

theorem run_append (hash : Integer → Nat) (pre post : List (Op T)) :
    ∀ (c : lru T) (heap : Heap),
      run hash (pre ++ post) c heap
        = match run hash pre c heap with
          | .ok (c1, heap1) => run hash post c1 heap1
          | .error err => .error err := by
  induction pre with
  | nil => intro c heap; rfl
  | cons op rest ih =>
    intro c heap
    simp only [List.cons_append, run]
    cases step hash c heap op with
    | error err => rfl
    | ok r =>
      obtain ⟨c1, p, heap1⟩ := r
      exact ih c1 heap1

/-- C1. Capacity invariant: for every capacity `N` with `1 ≤ N` (a value of type
`int`) and every finite sequence of `save` and `get` calls on a cache constructed
with `lru(N)`, after each call (that is, after every initial part `pre` of the
sequence, `post` being the calls that follow) the calls made so far have
returned and the number of entries held, `memory->size()`, is at most `N`;
`size()` is the number of entries in iteration order. -/
theorem C1_capacity_invariant (hash : Integer → Nat) (N : Int) (hN : 1 ≤ N)
    (hmax : N ≤ 2147483647) (pre post : List (Op T)) (heap0 : Heap) :
    ∃ c heap, run hash pre (new N) heap0 = .ok (c, heap) ∧
      run hash (pre ++ post) (new N) heap0 = run hash post c heap ∧
      (c.memory.size : Int) ≤ N ∧ c.memory.entries.length = c.memory.size := by
  obtain ⟨c, heap, hr, hinv, hcap⟩ := run_inv pre (Inv_new (T := T) hash hN hmax heap0)
  refine ⟨c, heap, hr, ?_, ?_, ?_⟩
  · rw [run_append, hr]
  · have hcap1 : c.capacity = N := hcap
    rw [hinv.size_eq, ← hcap1]
    exact hinv.2.2.2
  · rw [hinv.size_eq]
    simp [linked_hashmap.entries]

theorem C1_capacity_invariant_witness :
    (1 : Int) ≤ 2 ∧ (2 : Int) ≤ 2147483647 ∧
    ∃ c heap, run stdHash (exOps ++ [.save (⟨3⟩, "C")]) (new 2) 0 = .ok (c, heap) ∧
      run stdHash ((exOps ++ [.save (⟨3⟩, "C")]) ++ [.get ⟨1⟩]) (new 2) 0
        = run stdHash [.get ⟨1⟩] c heap ∧
      (c.memory.size : Int) ≤ 2 ∧ c.memory.entries.length = c.memory.size :=
  ⟨by decide, by decide,
    C1_capacity_invariant stdHash 2 (by decide) (by decide) (exOps ++ [.save (⟨3⟩, "C")])
      [.get ⟨1⟩] 0⟩

/-- C3. Promotion on access: in every state of a cache reached from `lru(N)` by
`save` and `get` calls (whatever `N`) and for every resident key `k`, `get(k)`
returns, afterwards the entry of `k` (with its value) is the last one in
iteration order, and the other entries are in the same relative order as
before. -/
theorem C3_promotion_on_access (hash : Integer → Nat) (N : Int) (ops : List (Op T))
    (heap0 : Heap) (c : lru T) (heap : Heap)
    (hrun : run hash ops (new N) heap0 = .ok (c, heap)) (k : Integer) (hk : k ∈ c.memory.keys) :
    ∃ c1 p heap1 v, get hash c k heap = .ok (c1, p, heap1) ∧ (k, v) ∈ c.memory.entries ∧
      c1.memory.entries.getLast? = some (k, v) ∧
      c1.memory.entries.filter (fun e => decide (e.1 ≠ k))
        = c.memory.entries.filter (fun e => decide (e.1 ≠ k)) ∧
      c1.memory.keys = c.memory.keys.filter (fun x => decide (x ≠ k)) ++ [k] := by
  obtain ⟨hwf, -⟩ := reach_wf hrun
  obtain ⟨v, hv⟩ := entry_of_mem_keys hk
  obtain ⟨c1, heap1, a, hr, -, -, -, hent, -⟩ := get_hit hwf hv
  refine ⟨c1, some a, heap1, v, hr, hv, ?_, ?_, ?_⟩
  · rw [hent, List.getLast?_concat]
  · rw [hent, filter_rebind]
  · rw [linked_hashmap.keys_eq_map_entries, linked_hashmap.keys_eq_map_entries, hent,
      List.map_append, List.filter_map]
    rfl

theorem C3_promotion_on_access_witness :
    run stdHash exOps (new 2) 0 = .ok (exState.1, exState.2) ∧
    (⟨1⟩ : Integer) ∈ exState.1.memory.keys ∧
    ∃ c1 p heap1 v, get stdHash exState.1 ⟨1⟩ exState.2 = .ok (c1, p, heap1) ∧
      ((⟨1⟩ : Integer), v) ∈ exState.1.memory.entries ∧
      c1.memory.entries.getLast? = some (⟨1⟩, v) ∧
      c1.memory.entries.filter (fun e => decide (e.1 ≠ ⟨1⟩))
        = exState.1.memory.entries.filter (fun e => decide (e.1 ≠ ⟨1⟩)) ∧
      c1.memory.keys = exState.1.memory.keys.filter (fun x => decide (x ≠ ⟨1⟩)) ++ [⟨1⟩] :=
  ⟨rfl, by decide,
    C3_promotion_on_access stdHash 2 exOps 0 exState.1 exState.2 rfl ⟨1⟩ (by decide)⟩

end lru


namespace lru

variable {T : Type}

/-- C4. A hit returns the stored value and keeps the contents: in every state of
a cache reached from `lru(N)` by `save` and `get` calls (whatever `N`), for
every resident key `k` with stored value `v`, `get(k)` returns a non-null pointer into a node that holds
`(k, v)`; the resident keys, the entries (so the value of every key), the values
read through the hash table, and `size()` are the same after the call. -/
theorem C4_hit_returns_value (hash : Integer → Nat) (N : Int) (ops : List (Op T))
    (heap0 : Heap) (c : lru T) (heap : Heap)
    (hrun : run hash ops (new N) heap0 = .ok (c, heap)) (k : Integer) (v : T)
    (hkv : (k, v) ∈ c.memory.entries) :
    ∃ c1 a heap1, get hash c k heap = .ok (c1, some a, heap1) ∧
      c1.memory.insert_list.deref (some a) = .ok (k, v) ∧
      (∀ x, x ∈ c1.memory.keys ↔ x ∈ c.memory.keys) ∧
      (∀ e, e ∈ c1.memory.entries ↔ e ∈ c.memory.entries) ∧
      (∀ x, hashmap.lookup hash Equal c1.memory.base x = hashmap.lookup hash Equal c.memory.base x) ∧
      c1.memory.size = c.memory.size := by
  obtain ⟨hinv, -⟩ := reach_wf hrun
  obtain ⟨c1, heap1, a, hr, hinv1, -, hderef, hent, hlen⟩ := get_hit hinv hkv
  have hmem : ∀ e, e ∈ c1.memory.entries ↔ e ∈ c.memory.entries := by
    intro e
    rw [hent, mem_rebind]
    constructor
    · rintro (⟨h1, -⟩ | rfl)
      · exact h1
      · exact hkv
    · intro he
      by_cases hek : e.1 = k
      · right
        obtain ⟨k1, v1⟩ := e
        simp only at hek
        subst hek
        rw [entries_unique hinv he hkv]
      · exact Or.inl ⟨he, hek⟩
  refine ⟨c1, a, heap1, hr, hderef, ?_, hmem, ?_, ?_⟩
  · intro x
    rw [linked_hashmap.keys_eq_map_entries, linked_hashmap.keys_eq_map_entries]
    simp only [List.mem_map]
    constructor
    · rintro ⟨e, he, rfl⟩; exact ⟨e, (hmem e).1 he, rfl⟩
    · rintro ⟨e, he, rfl⟩; exact ⟨e, (hmem e).2 he, rfl⟩
  · intro x
    exact lookup_congr hinv hinv1 x (fun w => hmem (x, w))
  · exact linked_hashmap.size_congr hinv hinv1 hlen

theorem C4_hit_returns_value_witness :
    run stdHash exOps (new 2) 0 = .ok (exState.1, exState.2) ∧
    ((⟨1⟩ : Integer), "A") ∈ exState.1.memory.entries ∧
    ∃ c1 a heap1, get stdHash exState.1 ⟨1⟩ exState.2 = .ok (c1, some a, heap1) ∧
      c1.memory.insert_list.deref (some a) = .ok (⟨1⟩, "A") ∧
      (∀ x, x ∈ c1.memory.keys ↔ x ∈ exState.1.memory.keys) ∧
      (∀ e, e ∈ c1.memory.entries ↔ e ∈ exState.1.memory.entries) ∧
      (∀ x, hashmap.lookup stdHash Equal c1.memory.base x
        = hashmap.lookup stdHash Equal exState.1.memory.base x) ∧
      c1.memory.size = exState.1.memory.size :=
  ⟨rfl, by decide,
    C4_hit_returns_value stdHash 2 exOps 0 exState.1 exState.2 rfl ⟨1⟩ "A" (by decide)⟩

/-- C5. Round trip: in every reachable state of a cache of capacity `N ≥ 1`, for
every key `k` and value `v`, `save(k, v)` followed immediately by `get(k)`
returns a non-null pointer into a node that holds `(k, v)`. -/
theorem C5_round_trip (hash : Integer → Nat) (N : Int) (hN : 1 ≤ N)
    (hmax : N ≤ 2147483647) (ops : List (Op T)) (heap0 : Heap) (c : lru T) (heap : Heap)
    (hrun : run hash ops (new N) heap0 = .ok (c, heap)) (k : Integer) (v : T) :
    ∃ c1 heap1 c2 a heap2, save hash c (k, v) heap = .ok (c1, heap1) ∧
      get hash c1 k heap1 = .ok (c2, some a, heap2) ∧
      c2.memory.insert_list.deref (some a) = .ok (k, v) := by
  obtain ⟨hinv, -⟩ := reach_inv hN hmax hrun
  obtain ⟨c1, heap1, hr, hinv1, -, hent⟩ := save_entries hinv (k, v)
  have hkv : (k, v) ∈ c1.memory.entries := by
    rw [hent]
    split
    · simp
    · split <;> simp
  obtain ⟨c2, heap2, a, hr2, -, -, hderef, -, -⟩ := get_hit hinv1.1 hkv
  exact ⟨c1, heap1, c2, a, heap2, hr, hr2, hderef⟩

theorem C5_round_trip_witness :
    (1 : Int) ≤ 2 ∧ (2 : Int) ≤ 2147483647 ∧
    run stdHash exOps (new 2) 0 = .ok (exState.1, exState.2) ∧
    ∃ c1 heap1 c2 a heap2, save stdHash exState.1 (⟨3⟩, "C") exState.2 = .ok (c1, heap1) ∧
      get stdHash c1 ⟨3⟩ heap1 = .ok (c2, some a, heap2) ∧
      c2.memory.insert_list.deref (some a) = .ok (⟨3⟩, "C") :=
  ⟨by decide, by decide, rfl,
    C5_round_trip stdHash 2 (by decide) (by decide) exOps 0 exState.1 exState.2 rfl ⟨3⟩ "C"⟩

/-- C6. A miss is free of side effects: in every state of a cache reached from
`lru(N)` by `save` and `get` calls (whatever `N`) and for every key `k` that is
not resident, `get(k)` returns
`nullptr` and leaves the whole state as it was (the entries, their values and
order, `size`, both tables, and nothing is allocated). -/
theorem C6_miss_no_side_effect (hash : Integer → Nat) (N : Int) (ops : List (Op T))
    (heap0 : Heap) (c : lru T) (heap : Heap)
    (hrun : run hash ops (new N) heap0 = .ok (c, heap)) (k : Integer) (hk : k ∉ c.memory.keys) :
    get hash c k heap = .ok (c, none, heap) :=
  get_miss (reach_wf hrun).1 hk

theorem C6_miss_no_side_effect_witness :
    run stdHash exOps (new 2) 0 = .ok (exState.1, exState.2) ∧
    (⟨3⟩ : Integer) ∉ exState.1.memory.keys ∧
    get stdHash exState.1 ⟨3⟩ exState.2 = .ok (exState.1, none, exState.2) :=
  ⟨rfl, by decide,
    C6_miss_no_side_effect stdHash 2 exOps 0 exState.1 exState.2 rfl ⟨3⟩ (by decide)⟩

/-- C7. A `save` of a resident key updates and promotes without evicting: in
every state of a cache reached from `lru(N)` by `save` and `get` calls (whatever
`N`), for every resident key `k` and every value `v`, after `save(k, v)` the resident keys and `size()` are
unchanged, the value of `k` is `v` (in the list and in the hash table), the
entry of every other key is unchanged, and `(k, v)` is the last entry in
iteration order, the others keeping their relative order. -/
theorem C7_save_resident (hash : Integer → Nat) (N : Int) (ops : List (Op T))
    (heap0 : Heap) (c : lru T) (heap : Heap)
    (hrun : run hash ops (new N) heap0 = .ok (c, heap)) (k : Integer) (v : T)
    (hk : k ∈ c.memory.keys) :
    ∃ c1 heap1, save hash c (k, v) heap = .ok (c1, heap1) ∧
      (∀ x, x ∈ c1.memory.keys ↔ x ∈ c.memory.keys) ∧
      c1.memory.size = c.memory.size ∧
      (∀ w, (k, w) ∈ c1.memory.entries ↔ w = v) ∧
      hashmap.lookup hash Equal c1.memory.base k = some v ∧
      (∀ x w, x ≠ k → ((x, w) ∈ c1.memory.entries ↔ (x, w) ∈ c.memory.entries)) ∧
      (∀ x, x ≠ k →
        hashmap.lookup hash Equal c1.memory.base x = hashmap.lookup hash Equal c.memory.base x) ∧
      c1.memory.entries.getLast? = some (k, v) ∧
      c1.memory.entries = c.memory.entries.filter (fun e => decide (e.1 ≠ k)) ++ [(k, v)] := by
  obtain ⟨hinv, -⟩ := reach_wf hrun
  obtain ⟨c1, heap1, hr, hinv1, -, hent, hlen⟩ := save_resident hinv (k, v) hk
  have hkv : ∀ w, (k, w) ∈ c1.memory.entries ↔ w = v := by
    intro w
    rw [hent, mem_rebind]
    constructor
    · rintro (⟨-, h2⟩ | h2)
      · exact absurd rfl h2
      · exact (Prod.mk.inj h2).2
    · rintro rfl; exact Or.inr rfl
  have hother : ∀ x w, x ≠ k → ((x, w) ∈ c1.memory.entries ↔ (x, w) ∈ c.memory.entries) := by
    intro x w hx
    rw [hent, mem_rebind]
    constructor
    · rintro (⟨h1, -⟩ | h2)
      · exact h1
      · exact absurd (Prod.mk.inj h2).1 hx
    · intro h; exact Or.inl ⟨h, hx⟩
  refine ⟨c1, heap1, hr, ?_, ?_, hkv, ?_, hother, ?_, ?_, hent⟩
  · intro x
    by_cases hx : x = k
    · subst hx
      exact ⟨fun _ => hk, fun _ => mem_keys_of_entry ((hkv v).2 rfl)⟩
    · constructor
      · intro h
        obtain ⟨w, hw⟩ := entry_of_mem_keys h
        exact mem_keys_of_entry ((hother x w hx).1 hw)
      · intro h
        obtain ⟨w, hw⟩ := entry_of_mem_keys h
        exact mem_keys_of_entry ((hother x w hx).2 hw)
  · exact linked_hashmap.size_congr hinv hinv1 hlen
  · exact (linked_hashmap.lookup_base_iff hinv1 k v).2 ((hkv v).2 rfl)
  · intro x hx
    exact lookup_congr hinv hinv1 x (fun w => hother x w hx)
  · rw [hent, List.getLast?_concat]

theorem C7_save_resident_witness :
    run stdHash exOps (new 2) 0 = .ok (exState.1, exState.2) ∧
    (⟨1⟩ : Integer) ∈ exState.1.memory.keys ∧
    ∃ c1 heap1, save stdHash exState.1 (⟨1⟩, "Z") exState.2 = .ok (c1, heap1) ∧
      (∀ x, x ∈ c1.memory.keys ↔ x ∈ exState.1.memory.keys) ∧
      c1.memory.size = exState.1.memory.size ∧
      (∀ w, ((⟨1⟩ : Integer), w) ∈ c1.memory.entries ↔ w = "Z") ∧
      hashmap.lookup stdHash Equal c1.memory.base ⟨1⟩ = some "Z" ∧
      (∀ x w, x ≠ (⟨1⟩ : Integer) →
        ((x, w) ∈ c1.memory.entries ↔ (x, w) ∈ exState.1.memory.entries)) ∧
      (∀ x, x ≠ (⟨1⟩ : Integer) →
        hashmap.lookup stdHash Equal c1.memory.base x
          = hashmap.lookup stdHash Equal exState.1.memory.base x) ∧
      c1.memory.entries.getLast? = some (⟨1⟩, "Z") ∧
      c1.memory.entries
        = exState.1.memory.entries.filter (fun e => decide (e.1 ≠ ⟨1⟩)) ++ [(⟨1⟩, "Z")] :=
  ⟨rfl, by decide,
    C7_save_resident stdHash 2 exOps 0 exState.1 exState.2 rfl ⟨1⟩ "Z" (by decide)⟩

/-- C8. A `save` of a new key evicts exactly the head, and only when full: in
every reachable state of a cache of capacity `N ≥ 1` and for every key `k` that
is not resident, `save(k, v)` returns; if `size()` was below `N` the entries are
the old ones followed by `(k, v)`; if `size()` was `N`, the old entries are a
first entry followed by others, and the new entries are those others, in the
same order and with the same values, followed by `(k, v)`. -/
theorem C8_save_new_key (hash : Integer → Nat) (N : Int) (hN : 1 ≤ N)
    (hmax : N ≤ 2147483647) (ops : List (Op T)) (heap0 : Heap) (c : lru T) (heap : Heap)
    (hrun : run hash ops (new N) heap0 = .ok (c, heap)) (k : Integer) (v : T)
    (hk : k ∉ c.memory.keys) :
    ∃ c1 heap1, save hash c (k, v) heap = .ok (c1, heap1) ∧
      ((c.memory.size : Int) < N → c1.memory.entries = c.memory.entries ++ [(k, v)]) ∧
      ((c.memory.size : Int) = N → ∃ first rest, c.memory.entries = first :: rest ∧
        c1.memory.entries = rest ++ [(k, v)]) := by
  obtain ⟨hinv, hcap⟩ := reach_inv hN hmax hrun
  obtain ⟨c1, heap1, hr, hinv1, -, hent⟩ := save_entries hinv (k, v)
  simp only [hk, if_false, hcap] at hent
  refine ⟨c1, heap1, hr, ?_, ?_⟩
  · intro hlt
    rw [hent, if_pos hlt]
  · intro heq
    have hnlt : ¬ ((c.memory.size : Int) < N) := by omega
    rw [if_neg hnlt] at hent
    cases hes : c.memory.entries with
    | nil =>
      exfalso
      have h1 := hinv.size_eq
      have h2 : c.memory.entries.length = c.memory.insert_list.nodes.length := by
        simp [linked_hashmap.entries]
      rw [hes] at h2
      simp only [List.length_nil] at h2
      omega
    | cons first rest =>
      refine ⟨first, rest, rfl, ?_⟩
      rw [hent, hes]
      rfl

theorem C8_save_new_key_witness :
    (1 : Int) ≤ 2 ∧ (2 : Int) ≤ 2147483647 ∧
    run stdHash exOps (new 2) 0 = .ok (exState.1, exState.2) ∧
    (⟨3⟩ : Integer) ∉ exState.1.memory.keys ∧
    ∃ c1 heap1, save stdHash exState.1 (⟨3⟩, "C") exState.2 = .ok (c1, heap1) ∧
      ((exState.1.memory.size : Int) < 2 →
        c1.memory.entries = exState.1.memory.entries ++ [(⟨3⟩, "C")]) ∧
      ((exState.1.memory.size : Int) = 2 → ∃ first rest,
        exState.1.memory.entries = first :: rest ∧ c1.memory.entries = rest ++ [(⟨3⟩, "C")]) :=
  ⟨by decide, by decide, rfl, by decide,
    C8_save_new_key stdHash 2 (by decide) (by decide) exOps 0 exState.1 exState.2 rfl ⟨3⟩ "C"
      (by decide)⟩

end lru


namespace lru

variable {T : Type}

/-- C2. Strict LRU eviction: for every capacity `N ≥ 1` and every sequence of
`save`/`get` calls from the empty cache, whenever a following `save` removes an
entry (a key `e` resident before it and not after it), the most recent touch of
`e` (a `save` of it, or a `get` that found it) is older than the most recent
touch of every other key `k` resident just before that `save`. -/
theorem C2_strict_lru_eviction (hash : Integer → Nat) (N : Int) (hN : 1 ≤ N)
    (hmax : N ≤ 2147483647) (ops : List (Op T)) (heap0 : Heap) (c : lru T) (heap : Heap)
    (hrun : run hash ops (new N) heap0 = .ok (c, heap)) (kv : Integer × T) (c1 : lru T)
    (heap1 : Heap) (hsave : save hash c kv heap = .ok (c1, heap1)) (e : Integer)
    (he : e ∈ c.memory.keys) (hgone : e ∉ c1.memory.keys) (k : Integer)
    (hk : k ∈ c.memory.keys) (hne : k ≠ e) :
    ∃ te tk, lastTouch hash e ops (new N) heap0 0 none = some te ∧
      lastTouch hash k ops (new N) heap0 0 none = some tk ∧ te < tk := by
  obtain ⟨hinv, -⟩ := reach_inv hN hmax hrun
  have hord0 : Ordered (fun _ => (none : Option Nat)) 0 (new N : lru T).memory.keys := by
    constructor
    · simp [linked_hashmap.keys, new, linked_hashmap.new, double_list.empty_list]
    · intro x hx
      simp [linked_hashmap.keys, new, linked_hashmap.new, double_list.empty_list] at hx
  have hord := run_ordered ops (new N) heap0 0 _ (Inv_new (T := T) hash hN hmax heap0) hord0
    c heap hrun
  obtain ⟨c2, heap2, hr, -, -, hent⟩ := save_entries hinv kv
  rw [hsave] at hr
  simp only [Except.ok.injEq, Prod.mk.injEq] at hr
  obtain ⟨rfl, rfl⟩ := hr
  have hkeys1 : c1.memory.keys = c1.memory.entries.map Prod.fst :=
    linked_hashmap.keys_eq_map_entries _
  have hkeys : c.memory.keys = c.memory.entries.map Prod.fst :=
    linked_hashmap.keys_eq_map_entries _
  rw [hkeys1, hent] at hgone
  by_cases hin : kv.1 ∈ c.memory.keys
  · exfalso
    simp only [hin, if_true, List.map_append, List.mem_append, List.map_cons, List.map_nil,
      List.mem_singleton, not_or] at hgone
    apply hgone.1
    rw [hkeys] at he
    obtain ⟨x, hx, rfl⟩ := List.mem_map.1 he
    exact List.mem_map.2 ⟨x, List.mem_filter.2 ⟨hx, by simpa using hgone.2⟩, rfl⟩
  · simp only [hin, if_false] at hgone
    split at hgone
    · exfalso
      apply hgone
      rw [List.map_append, ← hkeys]
      exact List.mem_append_left _ he
    · rw [List.map_append, List.map_tail, ← hkeys] at hgone
      have hgone2 : e ∉ c.memory.keys.tail := fun h => hgone (List.mem_append_left _ h)
      cases hks : c.memory.keys with
      | nil => rw [hks] at he; cases he
      | cons hd tl =>
        rw [hks] at he hk hgone2 hord
        simp only [List.tail_cons] at hgone2
        have hehd : e = hd := by
          rcases List.mem_cons.1 he with h | h
          · exact h
          · exact absurd h hgone2
        subst hehd
        have hktl : k ∈ tl := by
          rcases List.mem_cons.1 hk with h | h
          · exact absurd h hne
          · exact h
        have := (List.pairwise_cons.1 hord.1).1 k hktl
        simpa using this

theorem C2_strict_lru_eviction_witness :
    (1 : Int) ≤ 2 ∧ (2 : Int) ≤ 2147483647 ∧
    run stdHash exOps (new 2) 0 = .ok (exState.1, exState.2) ∧
    save stdHash exState.1 (⟨3⟩, "C") exState.2 = .ok (exAfterSave.1, exAfterSave.2) ∧
    (⟨1⟩ : Integer) ∈ exState.1.memory.keys ∧ (⟨1⟩ : Integer) ∉ exAfterSave.1.memory.keys ∧
    (⟨2⟩ : Integer) ∈ exState.1.memory.keys ∧ (⟨2⟩ : Integer) ≠ ⟨1⟩ ∧
    ∃ te tk, lastTouch stdHash ⟨1⟩ exOps (new 2) 0 0 none = some te ∧
      lastTouch stdHash ⟨2⟩ exOps (new 2) 0 0 none = some tk ∧ te < tk :=
  ⟨by decide, by decide, rfl, rfl, by decide, by decide, by decide, by decide,
    C2_strict_lru_eviction stdHash 2 (by decide) (by decide) exOps 0 exState.1 exState.2 rfl
      (⟨3⟩, "C") exAfterSave.1 exAfterSave.2 rfl ⟨1⟩ (by decide) (by decide) ⟨2⟩ (by decide)
      (by decide)⟩

theorem size_eq_entries_length {hash : Integer → Nat} {c : lru T} {heap : Heap}
    (hinv : Inv hash c heap) : (c.memory.size : Int) = (c.memory.entries.length : Nat) := by
  rw [hinv.size_eq]
  simp [linked_hashmap.entries]

/-- C9. The concrete scenario, for every hash function and all values: on a
cache of capacity 2, after `save(1,A); save(2,B); save(3,C)` the entries are
those of the keys 2 and 3 (key 1 is evicted); then `get(2)` returns a pointer to
a node holding `B`; then `save(4,D)` leaves the entries of the keys 2 and 4
(key 3 is evicted), and `get(1)` and `get(3)` return `nullptr`. -/
theorem C9_concrete_scenario (hash : Integer → Nat) (A B C D : T) (heap0 : Heap) :
    ∃ c3 h3 c4 a h4 c5 h5,
      run hash [.save (⟨1⟩, A), .save (⟨2⟩, B), .save (⟨3⟩, C)] (new 2) heap0 = .ok (c3, h3) ∧
      c3.memory.entries = [(⟨2⟩, B), (⟨3⟩, C)] ∧ c3.memory.keys = [⟨2⟩, ⟨3⟩] ∧
      get hash c3 ⟨2⟩ h3 = .ok (c4, some a, h4) ∧
      c4.memory.insert_list.deref (some a) = .ok (⟨2⟩, B) ∧
      save hash c4 (⟨4⟩, D) h4 = .ok (c5, h5) ∧
      c5.memory.entries = [(⟨2⟩, B), (⟨4⟩, D)] ∧ c5.memory.keys = [⟨2⟩, ⟨4⟩] ∧
      get hash c5 ⟨1⟩ h5 = .ok (c5, none, h5) ∧ get hash c5 ⟨3⟩ h5 = .ok (c5, none, h5) := by
  have hinv0 := Inv_new (T := T) hash (N := 2) (by decide) (by decide) heap0
  have he0 : (new 2 : lru T).memory.entries = [] := rfl
  obtain ⟨c1, h1, hr1, hinv1, hcap1, hent1⟩ := save_entries hinv0 ((⟨1⟩ : Integer), A)
  have hcap0 : (new 2 : lru T).capacity = 2 := rfl
  rw [linked_hashmap.keys_eq_map_entries, size_eq_entries_length hinv0, he0, hcap0] at hent1
  simp at hent1
  rw [hcap0] at hcap1
  obtain ⟨c2, h2, hr2, hinv2, hcap2, hent2⟩ := save_entries hinv1 ((⟨2⟩ : Integer), B)
  rw [linked_hashmap.keys_eq_map_entries, size_eq_entries_length hinv1, hent1, hcap1] at hent2
  simp at hent2
  rw [hcap1] at hcap2
  obtain ⟨c3, h3, hr3, hinv3, hcap3, hent3⟩ := save_entries hinv2 ((⟨3⟩ : Integer), C)
  rw [linked_hashmap.keys_eq_map_entries, size_eq_entries_length hinv2, hent2, hcap2] at hent3
  simp at hent3
  rw [hcap2] at hcap3
  obtain ⟨c4, h4, a, hr4, -, hcap4, hderef, hent4, -⟩ :=
    get_hit (k := ⟨2⟩) (v := B) hinv3.1 (by rw [hent3]; simp)
  have hinv4 := get_inv hinv3 hr4
  rw [hent3] at hent4
  simp at hent4
  rw [hcap3] at hcap4
  obtain ⟨c5, h5, hr5, hinv5, hcap5, hent5⟩ := save_entries hinv4 ((⟨4⟩ : Integer), D)
  rw [linked_hashmap.keys_eq_map_entries, size_eq_entries_length hinv4, hent4, hcap4] at hent5
  simp at hent5
  have hk3 : c3.memory.keys = [⟨2⟩, ⟨3⟩] := by
    rw [linked_hashmap.keys_eq_map_entries, hent3]; rfl
  have hk5 : c5.memory.keys = [⟨2⟩, ⟨4⟩] := by
    rw [linked_hashmap.keys_eq_map_entries, hent5]; rfl
  refine ⟨c3, h3, c4, a, h4, c5, h5, ?_, hent3, hk3, hr4, hderef, hr5, hent5, hk5, ?_, ?_⟩
  · simp [run, step, hr1, hr2, hr3]
  · exact get_miss hinv5.1 (by rw [hk5]; decide)
  · exact get_miss hinv5.1 (by rw [hk5]; decide)

end lru

namespace linked_hashmap

/-- C10 (evaluation of the code where the claim fails). On the map with the
entries `(1, "A"), (2, "B")`, `insert((2, "C"))` returns the flag `false` and
stores `(2, "C")` as the last entry, but the iterator it returns is `begin()`,
which dereferences to `(1, "A")`, not to the entry now stored for the key 2. -/
theorem C10_insert_present_returns_begin :
    exMap.1.entries = [(⟨1⟩, "A"), (⟨2⟩, "B")] ∧
    exInsertPresent
      = .ok (false, .ok (⟨1⟩, "A"), [(⟨1⟩, "A"), (⟨2⟩, "C")]) :=
  ⟨rfl, rfl⟩

end linked_hashmap

/-! ## Lemmas on `clear`, the copy constructors and `operator=` -/

namespace double_list

variable {T : Type}

theorem iterate_delete_head (n : Nat) :
    ∀ (l : double_list T), l.nodes.length = n → (Nat.iterate delete_head n l).nodes = [] := by
  induction n with
  | zero =>
    intro l hl
    exact List.length_eq_zero.1 hl
  | succ n ih =>
    intro l hl
    cases hns : l.nodes with
    | nil => rw [hns] at hl; simp at hl
    | cons x rest =>
      rw [hns] at hl
      simp only [Nat.iterate]
      apply ih
      simp only [delete_head, hns]
      simpa using hl

theorem clear_eq (l : double_list T) : l.clear = empty_list := by
  unfold clear empty_list
  rw [iterate_delete_head l.nodes.length l rfl]

theorem drainAux_ok (n : Nat) :
    ∀ (l : double_list T), l.nodes.length = n → l.size = (l.nodes.length : Int) →
      drainAux n l = .ok empty_list := by
  induction n with
  | zero =>
    intro l hl hs
    have hn : l.nodes = [] := List.length_eq_zero.1 hl
    rw [hn] at hs
    have hs0 : l.size = 0 := by simpa using hs
    have hl0 : l = empty_list := by
      cases l
      simp only [empty_list] at *
      simp [hn, hs0]
    rw [hl0]
    simp [drainAux, empty, empty_list]
  | succ n ih =>
    intro l hl hs
    cases hns : l.nodes with
    | nil => rw [hns] at hl; simp at hl
    | cons x rest =>
      rw [hns] at hl hs
      have hne : l.size ≠ 0 := by
        rw [hs]; simp only [List.length_cons]; push_cast; omega
      have hrest : rest.length = n := by simpa using hl
      have := ih { nodes := rest, size := l.size - 1 } hrest (by
        show l.size - 1 = (rest.length : Int)
        rw [hs]; simp only [List.length_cons]; push_cast; omega)
      simp only [drainAux, empty, beq_iff_eq, hne, if_false, delete_head, hns]
      exact this

theorem drain_ok {l : double_list T} (hs : l.size = (l.nodes.length : Int)) :
    l.drain = .ok empty_list :=
  drainAux_ok l.nodes.length l rfl hs

end double_list

namespace hashmap

variable {Key T : Type}

theorem drainAll_ok :
    ∀ (bs : List (double_list (Key × T))), (∀ b ∈ bs, b.size = (b.nodes.length : Int)) →
      drainAll bs = .ok (List.replicate bs.length double_list.empty_list) := by
  intro bs
  induction bs with
  | nil => intro _; rfl
  | cons b rest ih =>
    intro hb
    have h1 := double_list.drain_ok (hb b (List.mem_cons_self _ _))
    have h2 := ih (fun x hx => hb x (List.mem_cons_of_mem _ hx))
    simp [drainAll, h1, h2, List.replicate_succ]

/-- Method `clear()` on a well-formed table: it returns, and leaves as many
empty buckets as there were buckets. -/
theorem clear_ok {hash : Key → Nat} {h : hashmap Key T} {heap : Heap} (hwf : WF hash h heap) :
    h.clear
      = .ok { buckets := List.replicate h.buckets.length double_list.empty_list, size_ := 0 } := by
  have : ∀ b ∈ h.buckets, b.size = (b.nodes.length : Int) := by
    intro b hb
    obtain ⟨i, hi, rfl⟩ := (mem_buckets_iff h b).1 hb
    exact (hwf.2 i hi).2.2.2.2
  simp [clear, drainAll_ok h.buckets this]

theorem resize_nil (n : Nat) :
    resize ([] : List (double_list (Key × T))) n = List.replicate n double_list.empty_list := by
  simp [resize]

theorem resize_replicate (m n : Nat) :
    resize (List.replicate m (double_list.empty_list : double_list (Key × T))) n
      = List.replicate n double_list.empty_list := by
  unfold resize
  rw [List.take_replicate, List.length_replicate, ← List.replicate_add]
  congr 1
  omega

/-- Inserting every entry of a well-formed table `other` into a table without
entries gives a well-formed table with the same associations. -/
theorem rebuild_ok [DecidableEq Key] {hash : Key → Nat} {eq : Key → Key → Bool}
    (heq : ∀ a b, eq a b = true ↔ a = b) {other : hashmap Key T} {heap0 heap : Heap}
    (hwf : WF hash other heap0) (n s : Nat) (hn : 0 < n) :
    ∃ h1 heap1,
      reinsert (insert hash eq) ((other.buckets.map (fun b => b.nodes.map Node.data)).flatten)
        { buckets := List.replicate n double_list.empty_list, size_ := s } heap = .ok (h1, heap1) ∧
      WF hash h1 heap1 ∧ heap ≤ heap1 ∧ ∀ k, lookup hash eq h1 k = lookup hash eq other k := by
  have hsound : ∀ e ∈ (other.buckets.map (fun b => b.nodes.map Node.data)).flatten,
      lookup hash eq other e.1 = some e.2 := by
    intro e he
    rw [mem_flat_iff] at he
    obtain ⟨i, hi, m, hm, rfl⟩ := he
    exact lookup_of_mem heq hwf hi hm
  obtain ⟨h1, heap1, hr, hwf1, hle1, -, hl1, -⟩ :=
    @reinsert_spec _ _ _ hash eq
      (count ({ buckets := List.replicate n double_list.empty_list, size_ := s } :
          hashmap Key T)
        + ((other.buckets.map (fun b => b.nodes.map Node.data)).flatten).length) _
      (fun h kv heap hwf _ => insert_ok heq hwf kv) (lookup hash eq other) _ _ heap
      (WF_replicate hash n s hn heap) (le_refl _) hsound
  refine ⟨h1, heap1, hr, hwf1, hle1, ?_⟩
  intro k
  rw [hl1, lookup_replicate]
  split
  · rfl
  · rename_i hk
    cases hlk : lookup hash eq other k with
    | none => rfl
    | some v =>
      exfalso
      apply hk
      obtain ⟨m, hm, hd⟩ := (lookup_some heq hwf).1 hlk
      have : (k, v) ∈ (other.buckets.map (fun b => b.nodes.map Node.data)).flatten :=
        (mem_flat_iff other (k, v)).2 ⟨_, Nat.mod_lt _ hwf.1, m, hm, hd⟩
      exact List.mem_map.2 ⟨(k, v), this, rfl⟩

/-- The copy constructor on a well-formed table: it returns a well-formed table
with the same associations. -/
theorem copy_ok [DecidableEq Key] {hash : Key → Nat} {eq : Key → Key → Bool}
    (heq : ∀ a b, eq a b = true ↔ a = b) {other : hashmap Key T} {heap0 heap : Heap}
    (hwf : WF hash other heap0) :
    ∃ h1 heap1, copy hash eq other heap = .ok (h1, heap1) ∧ WF hash h1 heap1 ∧ heap ≤ heap1 ∧
      ∀ k, lookup hash eq h1 k = lookup hash eq other k := by
  unfold copy
  rw [resize_nil]
  exact rebuild_ok heq hwf _ _ hwf.1

/-- The assignment `operator=` between two different well-formed tables: it
returns a well-formed table with the associations of `other`. -/
theorem assign_from_ok [DecidableEq Key] {hash : Key → Nat} {eq : Key → Key → Bool}
    (heq : ∀ a b, eq a b = true ↔ a = b) {self other : hashmap Key T} {heap0 heap1 heap : Heap}
    (hself : WF hash self heap0) (hwf : WF hash other heap1) :
    ∃ h1 heap2, assign_from hash eq self other false heap = .ok (h1, heap2) ∧
      WF hash h1 heap2 ∧ heap ≤ heap2 ∧ ∀ k, lookup hash eq h1 k = lookup hash eq other k := by
  simp only [assign_from, clear_ok hself, Bool.false_eq_true, if_false]
  rw [resize_replicate]
  exact rebuild_ok heq hwf _ _ hwf.1

end hashmap

/-! ## Call sequences on a `linked_hashmap`: the invariant is kept -/

namespace linked_hashmap

variable {Key T : Type}

/-- Method `clear()` on a consistent map: it returns a consistent map without
entries. -/
theorem clear_wf [DecidableEq Key] {hash : Key → Nat} {eq : Key → Key → Bool}
    {m : linked_hashmap Key T} {heap : Heap} (hwf : WF hash eq m heap) :
    ∃ m1, m.clear = .ok m1 ∧ WF hash eq m1 heap ∧ m1.insert_list.nodes = [] := by
  refine ⟨{ base := { buckets := List.replicate m.base.buckets.length double_list.empty_list,
                      size_ := 0 },
            insert_list := double_list.empty_list,
            key_to_node :=
              { buckets := List.replicate m.key_to_node.buckets.length double_list.empty_list,
                size_ := 0 } }, ?_, ?_, rfl⟩
  · simp [clear, hashmap.clear_ok hwf.base, hashmap.clear_ok hwf.index, double_list.clear_eq]
  · refine ⟨hashmap.WF_replicate hash _ 0 hwf.base.1 heap,
      hashmap.WF_replicate hash _ 0 hwf.index.1 heap, ?_, ?_, ?_, ?_, ?_, ?_⟩
    · simp [keys, double_list.empty_list]
    · simp [double_list.empty_list]
    · simp [double_list.empty_list]
    · simp [double_list.empty_list]
    · intro k v
      rw [hashmap.lookup_replicate]
      simp [double_list.empty_list]
    · intro k p
      rw [hashmap.lookup_replicate]
      simp [double_list.empty_list]

/-- A call that returns keeps the map consistent. -/
theorem step_keeps_wf [DecidableEq Key] {hash : Key → Nat} {eq : Key → Key → Bool}
    (heq : ∀ a b, eq a b = true ↔ a = b) {m m1 : linked_hashmap Key T} {heap heap1 : Heap}
    (hwf : WF hash eq m heap) {op : Op Key T} (hstep : step hash eq m heap op = .ok (m1, heap1)) :
    WF hash eq m1 heap1 := by
  cases op with
  | insert value =>
    obtain ⟨m2, heap2, a, hr, hwf2, -, -⟩ := insert_spec heq hwf value
    simp only [step, hr] at hstep
    cases hstep
    exact hwf2
  | remove pos =>
    obtain ⟨cur⟩ := pos
    cases cur with
    | none => simp [step, remove] at hstep
    | some a =>
      cases hd : double_list.nodeAt m.insert_list.nodes a with
      | none => simp [step, remove, double_list.deref, hd] at hstep
      | some n =>
        obtain ⟨hn, rfl⟩ := double_list.nodeAt_mem hd
        obtain ⟨m2, hr, hwf2, -⟩ := remove_spec heq hwf hn
        simp only [step, hr] at hstep
        cases hstep
        exact hwf2
  | clear =>
    obtain ⟨m2, hr, hwf2, -⟩ := clear_wf hwf
    simp only [step, hr] at hstep
    cases hstep
    exact hwf2

/-- Every map a sequence of calls reaches from a consistent map is consistent. -/
theorem run_keeps_wf [DecidableEq Key] {hash : Key → Nat} {eq : Key → Key → Bool}
    (heq : ∀ a b, eq a b = true ↔ a = b) (ops : List (Op Key T)) :
    ∀ {m m1 : linked_hashmap Key T} {heap heap1 : Heap}, WF hash eq m heap →
      run hash eq ops m heap = .ok (m1, heap1) → WF hash eq m1 heap1 := by
  induction ops with
  | nil =>
    intro m m1 heap heap1 hwf hrun
    simp only [run] at hrun
    cases hrun
    exact hwf
  | cons op rest ih =>
    intro m m1 heap heap1 hwf hrun
    simp only [run] at hrun
    cases hs : step hash eq m heap op with
    | error err => rw [hs] at hrun; cases hrun
    | ok r =>
      obtain ⟨m2, heap2⟩ := r
      rw [hs] at hrun
      exact ih (step_keeps_wf heq hwf hs) hrun

/-- Every map reached from the empty map is consistent. -/
theorem reach_consistent [DecidableEq Key] {hash : Key → Nat} {eq : Key → Key → Bool}
    (heq : ∀ a b, eq a b = true ↔ a = b) {ops : List (Op Key T)} {m : linked_hashmap Key T}
    {heap0 heap : Heap} (hrun : run hash eq ops new heap0 = .ok (m, heap)) :
    WF hash eq m heap :=
  run_keeps_wf heq ops (WF_new hash eq heap0) hrun

end linked_hashmap

/-! ## Lemmas on `at`, on handles and on failing calls -/

namespace double_list

variable {T : Type}

theorem erase_error {l : double_list T} {pos : iterator} {e : Err}
    (h : l.erase pos = .error e) : e = .undefined := by
  unfold erase at h
  split at h
  · cases h
  · split at h
    · cases h
    · cases h
      rfl

end double_list

namespace hashmap

variable {Key T : Type}

theorem remove_error {hash : Key → Nat} {eq : Key → Key → Bool} {h : hashmap Key T} {k : Key}
    {e : Err} (hr : remove hash eq h k = .error e) : e = .undefined := by
  unfold remove at hr
  simp only at hr
  split at hr
  · split at hr
    · cases hr
    · rename_i err herr
      cases hr
      exact double_list.erase_error herr
  · cases hr

/-- In a well-formed table, the entries in the buckets are the associations
`find` reports. -/
theorem mem_entries_lookup [DecidableEq Key] {hash : Key → Nat} {eq : Key → Key → Bool}
    (heq : ∀ a b, eq a b = true ↔ a = b) {h : hashmap Key T} {heap : Heap} (hwf : WF hash h heap)
    (k : Key) (v : T) : (k, v) ∈ h.entries ↔ lookup hash eq h k = some v := by
  unfold entries
  rw [mem_flat_iff]
  constructor
  · rintro ⟨i, hi, n, hn, hd⟩
    have := lookup_of_mem heq hwf hi hn
    rw [hd] at this
    exact this
  · intro hl
    obtain ⟨n, hn, hd⟩ := (lookup_some heq hwf).1 hl
    exact ⟨_, Nat.mod_lt _ hwf.1, n, hn, hd⟩

end hashmap

namespace linked_hashmap

variable {Key T : Type}

theorem lookup_base_none [DecidableEq Key] {hash : Key → Nat} {eq : Key → Key → Bool}
    {m : linked_hashmap Key T} {heap : Heap} (hwf : WF hash eq m heap) (k : Key) :
    hashmap.lookup hash eq m.base k = none ↔ k ∉ m.keys := by
  constructor
  · intro hl hk
    obtain ⟨n, hn, hnk⟩ := (mem_keys_iff m k).1 hk
    have : hashmap.lookup hash eq m.base k = some n.data.2 :=
      (hwf.base_agree k n.data.2).2 ⟨n, hn, by rw [← hnk]⟩
    rw [hl] at this
    cases this
  · intro hk
    cases hl : hashmap.lookup hash eq m.base k with
    | none => rfl
    | some v =>
      exfalso
      obtain ⟨n, hn, hd⟩ := (hwf.base_agree k v).1 hl
      exact hk ((mem_keys_iff m k).2 ⟨n, hn, by rw [hd]⟩)

/-- Method `at(key)` on a consistent map: `std::out_of_range` for a key that is
not in the map, the value of its entry otherwise. -/
theorem at_spec [DecidableEq Key] {hash : Key → Nat} {eq : Key → Key → Bool}
    (heq : ∀ a b, eq a b = true ↔ a = b) {m : linked_hashmap Key T} {heap : Heap}
    (hwf : WF hash eq m heap) (k : Key) :
    (k ∉ m.keys → at_ hash eq m k = .error .out_of_range) ∧
    (∀ v, (k, v) ∈ m.entries → at_ hash eq m k = .ok v) := by
  constructor
  · intro hk
    have hl := (lookup_base_none hwf k).2 hk
    simp [at_, hashmap.find_end hl, hashmap.iterator.same]
  · intro v hv
    have hl := (lookup_base_iff hwf k v).2 hv
    obtain ⟨n, -, -, hf, hd⟩ := hashmap.find_some heq hwf.base hl
    simp only [at_, hd]
    rw [hf]
    simp [hashmap.iterator.same, hashmap.end_]

/-- Method `find(key)` for a key of the map: the iterator is not `end()` and
dereferences to the entry of the key. -/
theorem find_present [DecidableEq Key] {hash : Key → Nat} {eq : Key → Key → Bool}
    (heq : ∀ a b, eq a b = true ↔ a = b) {m : linked_hashmap Key T} {heap : Heap}
    (hwf : WF hash eq m heap) {k : Key} (hk : k ∈ m.keys) :
    ∃ a v, find hash eq m k = .ok ⟨some a⟩ ∧ m.deref ⟨some a⟩ = .ok (k, v) ∧
      (k, v) ∈ m.entries ∧ a ∈ m.insert_list.nodes.map Node.addr := by
  obtain ⟨n, hn, hnk⟩ := (mem_keys_iff m k).1 hk
  refine ⟨n.addr, n.data.2, (find_spec heq hwf k).2 n hn hnk, ?_, ?_, List.mem_map_of_mem _ hn⟩
  · simp only [deref, double_list.deref, double_list.nodeAt_of_mem hwf.nodup_addrs hn]
    rw [← hnk]
  · rw [mem_entries_iff]
    exact ⟨n, hn, by rw [← hnk]⟩

theorem entry_value_unique {hash : Key → Nat} {eq : Key → Key → Bool}
    {m : linked_hashmap Key T} {heap : Heap} (hwf : WF hash eq m heap) {k : Key} {v w : T}
    (hv : (k, v) ∈ m.entries) (hw : (k, w) ∈ m.entries) : v = w := by
  obtain ⟨n1, hn1, hd1⟩ := (mem_entries_iff m _).1 hv
  obtain ⟨n2, hn2, hd2⟩ := (mem_entries_iff m _).1 hw
  have := node_eq_of_key hwf.nodup_keys hn1 hn2 (by rw [hd1, hd2])
  rw [this, hd2] at hd1
  exact (Prod.mk.inj hd1).2.symm

theorem remove_error_iff {hash : Key → Nat} {eq : Key → Key → Bool} (m : linked_hashmap Key T)
    (pos : iterator) : remove hash eq m pos = .error .runtime_error ↔ pos.current = none := by
  obtain ⟨cur⟩ := pos
  cases cur with
  | none => simp [remove]
  | some a =>
    simp only [remove, reduceCtorEq, iff_false]
    intro h
    split at h
    · rename_i err herr
      simp only [double_list.deref] at herr
      split at herr <;> cases herr
      cases h
    · split at h
      · rename_i err herr
        have := hashmap.remove_error herr
        subst this
        cases h
      · split at h
        · rename_i err herr
          have := double_list.erase_error herr
          subst this
          cases h
        · split at h
          · rename_i err herr
            have := hashmap.remove_error herr
            subst this
            cases h
          · cases h

/-- The entries of a map reached by a sequence of calls hold, for every key,
the value most recently inserted for it. -/
theorem run_lastInserted [DecidableEq Key] {hash : Key → Nat} {eq : Key → Key → Bool}
    (heq : ∀ a b, eq a b = true ↔ a = b) (k : Key) (ops : List (Op Key T)) :
    ∀ {m m1 : linked_hashmap Key T} {heap heap1 : Heap} (acc : Option T),
      WF hash eq m heap → (∀ v, (k, v) ∈ m.entries → acc = some v) →
      run hash eq ops m heap = .ok (m1, heap1) →
      ∀ v, (k, v) ∈ m1.entries → lastInserted k ops acc = some v := by
  induction ops with
  | nil =>
    intro m m1 heap heap1 acc _ hacc hrun v hv
    simp only [run] at hrun
    cases hrun
    exact hacc v hv
  | cons op rest ih =>
    intro m m1 heap heap1 acc hwf hacc hrun v hv
    simp only [run] at hrun
    cases hs : step hash eq m heap op with
    | error err => rw [hs] at hrun; cases hrun
    | ok r =>
      obtain ⟨m2, heap2⟩ := r
      rw [hs] at hrun
      have hwf2 := step_keeps_wf heq hwf hs
      cases op with
      | insert value =>
        obtain ⟨m3, heap3, a, hr, -, -, hnodes⟩ := insert_spec heq hwf value
        simp only [step, hr] at hs
        cases hs
        refine ih (if value.1 = k then some value.2 else acc) hwf2 ?_ hrun v hv
        intro w hw
        rw [mem_entries_iff] at hw
        obtain ⟨n, hn, hd⟩ := hw
        rw [hnodes, List.mem_append, List.mem_filter, List.mem_singleton] at hn
        rcases hn with ⟨hn, hne⟩ | rfl
        · have hne1 : value.1 ≠ k := by
            intro e
            rw [hd] at hne
            simp [e] at hne
          rw [if_neg hne1]
          exact hacc w ((mem_entries_iff m _).2 ⟨n, hn, hd⟩)
        · simp only at hd
          rw [hd]
          simp
      | remove pos =>
        obtain ⟨cur⟩ := pos
        cases cur with
        | none => simp [step, remove] at hs
        | some a =>
          cases hd : double_list.nodeAt m.insert_list.nodes a with
          | none => simp [step, remove, double_list.deref, hd] at hs
          | some n =>
            obtain ⟨hn, rfl⟩ := double_list.nodeAt_mem hd
            obtain ⟨m3, hr, -, hnodes⟩ := remove_spec heq hwf hn
            simp only [step, hr] at hs
            cases hs
            refine ih acc hwf2 ?_ hrun v hv
            intro w hw
            rw [mem_entries_iff] at hw
            obtain ⟨x, hx, hxd⟩ := hw
            rw [hnodes, List.mem_filter] at hx
            exact hacc w ((mem_entries_iff m _).2 ⟨x, hx.1, hxd⟩)
      | clear =>
        obtain ⟨m3, hr, -, hnodes⟩ := clear_wf hwf
        simp only [step, hr] at hs
        cases hs
        refine ih acc hwf2 ?_ hrun v hv
        intro w hw
        rw [mem_entries_iff, hnodes] at hw
        obtain ⟨x, hx, -⟩ := hw
        cases hx

end linked_hashmap

/-! ## The claims on `linked_hashmap` -/

namespace linked_hashmap

variable {Key T : Type}

theorem to_size_t_int {x : Int} (h0 : 0 ≤ x) (h1 : x ≤ 2147483647) : to_size_t x = x.toNat := by
  unfold to_size_t
  rw [Int.emod_eq_of_lt h0 (by omega)]

/-- C12. Method `linked_hashmap::find` is a pure lookup: on every map reached
from the empty map by `insert`, `remove` and `clear`, `find(k)` returns `end()`
if and only if `k` is absent; otherwise it returns an iterator that is not null
and dereferences to the entry of the map whose key is `k`.  The method returns
nothing but the iterator: the hash table, the list and the index are the ones
of before the call. -/
theorem C12_find_pure_lookup [DecidableEq Key] (hash : Key → Nat) (eq : Key → Key → Bool)
    (heq : ∀ a b, eq a b = true ↔ a = b) (ops : List (Op Key T)) (heap0 : Heap)
    (m : linked_hashmap Key T) (heap : Heap)
    (hrun : run hash eq ops new heap0 = .ok (m, heap)) (k : Key) :
    (find hash eq m k = .ok m.end_ ↔ k ∉ m.keys) ∧
    (k ∈ m.keys → ∃ a v, find hash eq m k = .ok ⟨some a⟩ ∧ m.deref ⟨some a⟩ = .ok (k, v) ∧
      (k, v) ∈ m.entries) := by
  have hwf := reach_consistent heq hrun
  constructor
  · constructor
    · intro hf hk
      obtain ⟨a, v, hfa, -, -, -⟩ := find_present heq hwf hk
      rw [hfa] at hf
      simp [end_] at hf
    · exact (find_spec heq hwf k).1
  · intro hk
    obtain ⟨a, v, hfa, hd, hv, -⟩ := find_present heq hwf hk
    exact ⟨a, v, hfa, hd, hv⟩

theorem C12_find_pure_lookup_witness :
    run stdHash Equal exMapOps new 0 = .ok (exMap.1, exMap.2) ∧
    (find stdHash Equal exMap.1 ⟨2⟩ = .ok exMap.1.end_ ↔ (⟨2⟩ : Integer) ∉ exMap.1.keys) ∧
    ((⟨2⟩ : Integer) ∈ exMap.1.keys →
      ∃ a v, find stdHash Equal exMap.1 ⟨2⟩ = .ok ⟨some a⟩ ∧
        exMap.1.deref ⟨some a⟩ = .ok (⟨2⟩, v) ∧ ((⟨2⟩ : Integer), v) ∈ exMap.1.entries) :=
  ⟨rfl, C12_find_pure_lookup stdHash Equal Equal_iff exMapOps 0 exMap.1 exMap.2 rfl ⟨2⟩⟩

/-- C13. Method `linked_hashmap::remove(pos)` on a map reached from the empty
map by `insert`, `remove` and `clear` (its field `size` being an `int`): the
call fails with `runtime_error` (and then returns no new map: the map is the one
of before the call) if and only if `pos` is the null handle `end()`; for a
handle to a node of the map, holding the key `k`, the call returns, and
afterwards `find(k)` is `end()`, `k` is neither in the hash table (`at(k)` fails
with `out_of_range`), nor in the list, nor in the index, `size()` is one less,
and the other entries are the ones of before, in the same order. -/
theorem C13_remove_handle [DecidableEq Key] (hash : Key → Nat) (eq : Key → Key → Bool)
    (heq : ∀ a b, eq a b = true ↔ a = b) (ops : List (Op Key T)) (heap0 : Heap)
    (m : linked_hashmap Key T) (heap : Heap)
    (hrun : run hash eq ops new heap0 = .ok (m, heap))
    (hint : m.insert_list.size ≤ 2147483647) :
    (∀ pos, remove hash eq m pos = .error .runtime_error ↔ pos = m.end_) ∧
    (∀ n ∈ m.insert_list.nodes, ∃ m1, remove hash eq m ⟨some n.addr⟩ = .ok m1 ∧
      find hash eq m1 n.data.1 = .ok m1.end_ ∧
      at_ hash eq m1 n.data.1 = .error .out_of_range ∧
      n.data.1 ∉ m1.keys ∧
      hashmap.lookup hash eq m1.key_to_node n.data.1 = none ∧
      m1.size + 1 = m.size ∧
      m1.entries = m.entries.filter (fun e => decide (e.1 ≠ n.data.1))) := by
  have hwf := reach_consistent heq hrun
  constructor
  · intro pos
    rw [remove_error_iff]
    obtain ⟨cur⟩ := pos
    simp [end_]
  · intro n hn
    obtain ⟨m1, hr, hwf1, hnodes⟩ := remove_spec heq hwf hn
    have hk : n.data.1 ∉ m1.keys := by
      simp only [keys, hnodes]
      intro hmem
      obtain ⟨x, hx, hxk⟩ := List.mem_map.1 hmem
      rw [List.mem_filter] at hx
      simp [hxk] at hx
    refine ⟨m1, hr, (find_spec heq hwf1 _).1 hk, (at_spec heq hwf1 _).1 hk, hk, ?_, ?_, ?_⟩
    · cases hl : hashmap.lookup hash eq m1.key_to_node n.data.1 with
      | none => rfl
      | some p =>
        exfalso
        obtain ⟨x, hx, hxk, -⟩ := (hwf1.index_agree _ p).1 hl
        exact hk ((mem_keys_iff m1 _).2 ⟨x, hx, hxk⟩)
    · have hlen := filter_key_length hwf hn
      rw [← hnodes] at hlen
      have h1 := hwf1.size_eq
      have h0 := hwf.size_eq
      unfold size
      rw [to_int_of_range (by omega) (by omega), to_int_of_range (by omega) (by omega),
        to_size_t_int (by omega) (by omega), to_size_t_int (by omega) (by omega)]
      omega
    · simp only [entries, hnodes]
      rw [map_data_filter]

theorem C13_remove_handle_witness :
    run stdHash Equal exMapOps new 0 = .ok (exMap.1, exMap.2) ∧
    exMap.1.insert_list.size ≤ 2147483647 ∧
    (∀ pos, remove stdHash Equal exMap.1 pos = .error .runtime_error ↔ pos = exMap.1.end_) ∧
    (∀ n ∈ exMap.1.insert_list.nodes, ∃ m1,
      remove stdHash Equal exMap.1 ⟨some n.addr⟩ = .ok m1 ∧
      find stdHash Equal m1 n.data.1 = .ok m1.end_ ∧
      at_ stdHash Equal m1 n.data.1 = .error .out_of_range ∧
      n.data.1 ∉ m1.keys ∧
      hashmap.lookup stdHash Equal m1.key_to_node n.data.1 = none ∧
      m1.size + 1 = exMap.1.size ∧
      m1.entries = exMap.1.entries.filter (fun e => decide (e.1 ≠ n.data.1))) :=
  ⟨rfl, by decide,
    C13_remove_handle stdHash Equal Equal_iff exMapOps 0 exMap.1 exMap.2 rfl (by decide)⟩

/-- C14. Method `linked_hashmap::at` on a map reached from the empty map by a
sequence `ops` of `insert`, `remove` and `clear` calls: `at(k)` fails with
`std::out_of_range` if and only if `k` is absent; when `k` is present it returns
the value of the last `insert` for `k` in `ops`, which is the value of the entry
of `k`.  The method returns nothing but that value: the map is the one of
before the call. -/
theorem C14_at_result [DecidableEq Key] (hash : Key → Nat) (eq : Key → Key → Bool)
    (heq : ∀ a b, eq a b = true ↔ a = b) (ops : List (Op Key T)) (heap0 : Heap)
    (m : linked_hashmap Key T) (heap : Heap)
    (hrun : run hash eq ops new heap0 = .ok (m, heap)) (k : Key) :
    (at_ hash eq m k = .error .out_of_range ↔ k ∉ m.keys) ∧
    (k ∈ m.keys → ∃ v, at_ hash eq m k = .ok v ∧ lastInserted k ops none = some v ∧
      (k, v) ∈ m.entries) := by
  have hwf := reach_consistent heq hrun
  have hpres : k ∈ m.keys → ∃ v, at_ hash eq m k = .ok v ∧ lastInserted k ops none = some v ∧
      (k, v) ∈ m.entries := by
    intro hk
    obtain ⟨a, v, -, -, hv, -⟩ := find_present heq hwf hk
    refine ⟨v, (at_spec heq hwf k).2 v hv, ?_, hv⟩
    refine run_lastInserted heq k ops none (WF_new hash eq heap0) ?_ hrun v hv
    intro w hw
    simp [entries, new, double_list.empty_list] at hw
  refine ⟨⟨?_, (at_spec heq hwf k).1⟩, hpres⟩
  intro he hk
  obtain ⟨v, hv, -⟩ := hpres hk
  rw [hv] at he
  cases he

theorem C14_at_result_witness :
    run stdHash Equal exMapOps new 0 = .ok (exMap.1, exMap.2) ∧
    (at_ stdHash Equal exMap.1 ⟨2⟩ = .error .out_of_range ↔ (⟨2⟩ : Integer) ∉ exMap.1.keys) ∧
    ((⟨2⟩ : Integer) ∈ exMap.1.keys →
      ∃ v, at_ stdHash Equal exMap.1 ⟨2⟩ = .ok v ∧ lastInserted ⟨2⟩ exMapOps none = some v ∧
        ((⟨2⟩ : Integer), v) ∈ exMap.1.entries) :=
  ⟨rfl, C14_at_result stdHash Equal Equal_iff exMapOps 0 exMap.1 exMap.2 rfl ⟨2⟩⟩

end linked_hashmap

namespace linked_hashmap

variable {Key T : Type}

/-- C15 (evaluation of the code where the claim fails). On the map with the
entries `(1, "A"), (2, "B")`, where `at(1)` returns `"A"`, the call `m[1]` of the
`operator[]` that is not `const` returns a reference to the empty string `T()`,
and afterwards the value stored for the key 1 is the empty string, in the list
(where the entry has moved to the head) and in the hash table. -/
theorem C15_subscript_overwrites_value :
    exMap.1.entries = [(⟨1⟩, "A"), (⟨2⟩, "B")] ∧
    at_ stdHash Equal exMap.1 ⟨1⟩ = .ok "A" ∧
    exSubscript = .ok ("", [(⟨1⟩, ""), (⟨2⟩, "B")], .ok "") :=
  ⟨rfl, rfl, rfl⟩

/-- C18 (evaluation of the code where the claim fails). The nodes of the list of
`exMap` have the addresses 1 and 4.  After the assignment `dst = exMap` to a new
map, the nodes of `dst.insert_list` have the addresses 8 and 10, but
`dst.find(1)` returns the node at address 1, a node of the list of `exMap`,
which is no node of `dst`.  After the copy construction from `exMap`, `find(1)`
returns the node at address 8, which is the node of the copy that holds
`(1, "A")`. -/
theorem C18_assignment_shares_nodes :
    exAssign = .ok (.ok ⟨some 1⟩, .error .undefined, [8, 10], [1, 4]) ∧
    exCopy = .ok (.ok ⟨some 8⟩, .ok (⟨1⟩, "A"), [8, 10]) :=
  ⟨rfl, rfl⟩

end linked_hashmap

namespace linked_hashmap

variable {Key T : Type}

/-- Method `at(key)` of a map whose inherited table is well-formed, in terms of
the association the table holds for the key. -/
theorem at_eq_lookup [DecidableEq Key] {hash : Key → Nat} {eq : Key → Key → Bool}
    (heq : ∀ a b, eq a b = true ↔ a = b) {m : linked_hashmap Key T} {heap : Heap}
    (hwf : hashmap.WF hash m.base heap) (k : Key) :
    at_ hash eq m k
      = match hashmap.lookup hash eq m.base k with
        | none => .error .out_of_range
        | some v => .ok v := by
  cases hl : hashmap.lookup hash eq m.base k with
  | none => simp [at_, hashmap.find_end hl, hashmap.iterator.same]
  | some v =>
    obtain ⟨n, -, -, hf, hd⟩ := hashmap.find_some heq hwf hl
    simp only [at_, hd]
    rw [hf]
    simp [hashmap.iterator.same, hashmap.end_]

theorem copy_loop_ok [DecidableEq Key] {hash : Key → Nat} {eq : Key → Key → Bool}
    (heq : ∀ a b, eq a b = true ↔ a = b) (ns : List (Node (Key × T))) :
    ∀ (il : double_list (Key × T)) (kn : hashmap Key Ptr) (heap : Heap),
      hashmap.WF hash kn heap →
      ∃ il1 kn1 heap1, copy_loop hash eq ns il kn heap = .ok (il1, kn1, heap1) ∧
        il1.nodes.map Node.data = il.nodes.map Node.data ++ ns.map Node.data := by
  induction ns with
  | nil =>
    intro il kn heap _
    exact ⟨il, kn, heap, rfl, by simp⟩
  | cons n rest ih =>
    intro il kn heap hwf
    have hwf1 : hashmap.WF hash kn (heap + 1) := hwf.mono (Nat.le_succ heap)
    obtain ⟨kn1, heap2, hr, hwf2, -⟩ :=
      hashmap.insert_ok heq hwf1 (n.data.1, (il.insert_tail n.data heap).1.tail)
    obtain ⟨il2, kn2, heap3, hr2, hd2⟩ :=
      ih (il.insert_tail n.data heap).1 kn1 heap2 hwf2
    refine ⟨il2, kn2, heap3, ?_, ?_⟩
    · simp only [copy_loop]
      rw [double_list.insert_tail_eq] at hr hr2 ⊢
      simp only [hr]
      exact hr2
    · rw [hd2, double_list.insert_tail_eq]
      simp

theorem assign_loop_ok [DecidableEq Key] {hash : Key → Nat} {eq : Key → Key → Bool}
    (heq : ∀ a b, eq a b = true ↔ a = b) (ns : List (Node (Key × T))) :
    ∀ (il : double_list (Key × T)) (kn : hashmap Key Ptr) (heap : Heap),
      hashmap.WF hash kn heap →
      ∃ il1 kn1 heap1, assign_loop hash eq ns il kn heap = .ok (il1, kn1, heap1) ∧
        il1.nodes.map Node.data = il.nodes.map Node.data ++ ns.map Node.data := by
  induction ns with
  | nil =>
    intro il kn heap _
    exact ⟨il, kn, heap, rfl, by simp⟩
  | cons n rest ih =>
    intro il kn heap hwf
    have hwf1 : hashmap.WF hash kn (heap + 1) := hwf.mono (Nat.le_succ heap)
    obtain ⟨kn1, heap2, hr, hwf2, -⟩ :=
      hashmap.insert_ok heq hwf1 (n.data.1, some n.addr)
    obtain ⟨il2, kn2, heap3, hr2, hd2⟩ :=
      ih (il.insert_tail n.data heap).1 kn1 heap2 hwf2
    refine ⟨il2, kn2, heap3, ?_, ?_⟩
    · simp only [assign_loop]
      rw [double_list.insert_tail_eq] at hr2 ⊢
      simp only [hr]
      exact hr2
    · rw [hd2, double_list.insert_tail_eq]
      simp

/-- The copy constructor on a consistent map: it returns a map with the entries
of the source, in the same order, and the same associations in the inherited
table, which is well-formed. -/
theorem copy_contents [DecidableEq Key] {hash : Key → Nat} {eq : Key → Key → Bool}
    (heq : ∀ a b, eq a b = true ↔ a = b) {other : linked_hashmap Key T} {heap0 : Heap}
    (hwf : WF hash eq other heap0) (heap : Heap) :
    ∃ m1 heap1, copy hash eq other heap = .ok (m1, heap1) ∧ m1.entries = other.entries ∧
      (∃ hp, hashmap.WF hash m1.base hp) ∧
      ∀ k, hashmap.lookup hash eq m1.base k = hashmap.lookup hash eq other.base k := by
  obtain ⟨base1, heap1, hr, hwf1, -, hl⟩ := @hashmap.copy_ok _ _ _ _ _ heq _ _ heap hwf.base
  obtain ⟨il, kn, heap2, hr2, hd⟩ :=
    copy_loop_ok heq other.insert_list.nodes double_list.empty_list hashmap.new heap1
      (hashmap.WF_replicate hash 16 0 (by decide) heap1)
  refine ⟨{ base := base1, insert_list := il, key_to_node := kn }, heap2, ?_, ?_,
    ⟨heap1, hwf1⟩, hl⟩
  · simp only [copy, hr, hr2]
  · simpa [entries, double_list.empty_list] using hd

/-- The assignment `operator=` from a consistent map to another consistent map:
it returns a map with the entries of the source, in the same order, and the same
associations in the inherited table, which is well-formed. -/
theorem assign_contents [DecidableEq Key] {hash : Key → Nat} {eq : Key → Key → Bool}
    (heq : ∀ a b, eq a b = true ↔ a = b) {self other : linked_hashmap Key T} {heap0 heap1 : Heap}
    (hself : WF hash eq self heap0) (hwf : WF hash eq other heap1) (heap : Heap) :
    ∃ m1 heap2, assign_from hash eq self other false heap = .ok (m1, heap2) ∧
      m1.entries = other.entries ∧ (∃ hp, hashmap.WF hash m1.base hp) ∧
      ∀ k, hashmap.lookup hash eq m1.base k = hashmap.lookup hash eq other.base k := by
  obtain ⟨base1, heap2, hr, hwf1, -, hl⟩ :=
    @hashmap.assign_from_ok _ _ _ _ _ heq _ _ _ _ heap hself.base hwf.base
  obtain ⟨il, kn, heap3, hr2, hd⟩ :=
    assign_loop_ok heq other.insert_list.nodes double_list.empty_list
      { buckets := List.replicate self.key_to_node.buckets.length double_list.empty_list,
        size_ := 0 } heap2
      (hashmap.WF_replicate hash _ 0 hself.index.1 heap2)
  refine ⟨{ base := base1, insert_list := il, key_to_node := kn }, heap3, ?_, ?_,
    ⟨heap2, hwf1⟩, hl⟩
  · simp only [assign_from, hr, hashmap.clear_ok hself.index, double_list.clear_eq, hr2,
      Bool.false_eq_true, if_false]
  · simpa [entries, double_list.empty_list] using hd

/-- C16. Three-way consistency of `linked_hashmap`: in every map reached from
the empty map by `insert`, `remove(pos)` and `clear`, the keys of the entries in
the buckets of the hash table, the keys in `insert_list` and the keys in the
buckets of `key_to_node` are the same; no key occurs twice in `insert_list`;
`key_to_node` holds the pair `(k, p)` exactly when `p` is the address of the
node of `insert_list` that holds `k` (the nodes have different addresses); and
the field `size` of the list, the number of entries of each table and (within
the range of `int`) `size()` all are the number of keys. -/
theorem C16_three_way_consistency [DecidableEq Key] (hash : Key → Nat) (eq : Key → Key → Bool)
    (heq : ∀ a b, eq a b = true ↔ a = b) (ops : List (Op Key T)) (heap0 : Heap)
    (m : linked_hashmap Key T) (heap : Heap)
    (hrun : run hash eq ops new heap0 = .ok (m, heap)) :
    (∀ k, k ∈ m.base.entries.map Prod.fst ↔ k ∈ m.keys) ∧
    (∀ k, k ∈ m.key_to_node.entries.map Prod.fst ↔ k ∈ m.keys) ∧
    m.keys.Nodup ∧
    (∀ k p, (k, p) ∈ m.key_to_node.entries ↔
      ∃ n ∈ m.insert_list.nodes, n.data.1 = k ∧ p = some n.addr) ∧
    (m.insert_list.nodes.map Node.addr).Nodup ∧
    m.insert_list.size = (m.keys.length : Int) ∧
    m.base.entries.length = m.keys.length ∧
    m.key_to_node.entries.length = m.keys.length ∧
    (m.keys.length ≤ 2147483647 → m.size = m.keys.length) := by
  have hwf := reach_consistent heq hrun
  have hb : ∀ k, k ∈ m.base.entries.map Prod.fst ↔ k ∈ m.keys := by
    intro k
    constructor
    · intro hk
      obtain ⟨⟨k1, v⟩, hkv, rfl⟩ := List.mem_map.1 hk
      rw [hashmap.mem_entries_lookup heq hwf.base] at hkv
      obtain ⟨n, hn, hd⟩ := (hwf.base_agree k1 v).1 hkv
      exact (mem_keys_iff m k1).2 ⟨n, hn, by rw [hd]⟩
    · intro hk
      obtain ⟨n, hn, hnk⟩ := (mem_keys_iff m k).1 hk
      have := (hwf.base_agree k n.data.2).2 ⟨n, hn, by rw [← hnk]⟩
      rw [← hashmap.mem_entries_lookup heq hwf.base] at this
      exact List.mem_map.2 ⟨_, this, rfl⟩
  have hi : ∀ k p, (k, p) ∈ m.key_to_node.entries ↔
      ∃ n ∈ m.insert_list.nodes, n.data.1 = k ∧ p = some n.addr := by
    intro k p
    rw [hashmap.mem_entries_lookup heq hwf.index]
    exact hwf.index_agree k p
  have hk : ∀ k, k ∈ m.key_to_node.entries.map Prod.fst ↔ k ∈ m.keys := by
    intro k
    constructor
    · intro hk
      obtain ⟨⟨k1, p⟩, hkp, rfl⟩ := List.mem_map.1 hk
      obtain ⟨n, hn, hnk, -⟩ := (hi k1 p).1 hkp
      exact (mem_keys_iff m k1).2 ⟨n, hn, hnk⟩
    · intro hk
      obtain ⟨n, hn, hnk⟩ := (mem_keys_iff m k).1 hk
      exact List.mem_map.2 ⟨(k, some n.addr), (hi k _).2 ⟨n, hn, hnk, rfl⟩, rfl⟩
  have hlen : m.insert_list.size = (m.keys.length : Int) := by
    rw [hwf.size_eq]
    simp [keys]
  have hbl : m.base.entries.length = m.keys.length := by
    have hp : (m.base.entries.map Prod.fst).Perm m.keys :=
      (List.perm_ext_iff_of_nodup (hashmap.nodup_flat_keys hwf.base) hwf.nodup_keys).2 hb
    simpa using hp.length_eq
  have hkl : m.key_to_node.entries.length = m.keys.length := by
    have hp : (m.key_to_node.entries.map Prod.fst).Perm m.keys :=
      (List.perm_ext_iff_of_nodup (hashmap.nodup_flat_keys hwf.index) hwf.nodup_keys).2 hk
    simpa using hp.length_eq
  refine ⟨hb, hk, hwf.nodup_keys, hi, hwf.nodup_addrs, hlen, hbl, hkl, ?_⟩
  intro hsmall
  unfold size
  rw [hlen, to_int_of_range (by omega) (by omega), to_size_t_int (by omega) (by omega)]
  simp

theorem C16_three_way_consistency_witness :
    run stdHash Equal exMapOps new 0 = .ok (exMap.1, exMap.2) ∧
    (∀ k, k ∈ exMap.1.base.entries.map Prod.fst ↔ k ∈ exMap.1.keys) ∧
    (∀ k, k ∈ exMap.1.key_to_node.entries.map Prod.fst ↔ k ∈ exMap.1.keys) ∧
    exMap.1.keys.Nodup ∧
    (∀ k p, (k, p) ∈ exMap.1.key_to_node.entries ↔
      ∃ n ∈ exMap.1.insert_list.nodes, n.data.1 = k ∧ p = some n.addr) ∧
    (exMap.1.insert_list.nodes.map Node.addr).Nodup ∧
    exMap.1.insert_list.size = (exMap.1.keys.length : Int) ∧
    exMap.1.base.entries.length = exMap.1.keys.length ∧
    exMap.1.key_to_node.entries.length = exMap.1.keys.length ∧
    (exMap.1.keys.length ≤ 2147483647 → exMap.1.size = exMap.1.keys.length) :=
  ⟨rfl, C16_three_way_consistency stdHash Equal Equal_iff exMapOps 0 exMap.1 exMap.2 rfl⟩

/-- C17. Copy and assignment reproduce contents and order: for a map `src`
reached from the empty map by `insert`, `remove` and `clear`, the copy
constructor returns a map whose sequence of entries from `begin()` to `end()` is
that of `src` and on which `at(k)` gives what `src.at(k)` gives, for every key
`k`; so does the assignment `dst = src` to every map `dst` reached in the same
way; and the assignment of `src` to itself leaves it as it is. -/
theorem C17_copy_assign_contents [DecidableEq Key] (hash : Key → Nat) (eq : Key → Key → Bool)
    (heq : ∀ a b, eq a b = true ↔ a = b) (ops : List (Op Key T)) (heap0 : Heap)
    (src : linked_hashmap Key T) (heapS : Heap)
    (hrun : run hash eq ops new heap0 = .ok (src, heapS))
    (ops2 : List (Op Key T)) (heap1 : Heap) (dst : linked_hashmap Key T) (heapD : Heap)
    (hrun2 : run hash eq ops2 new heap1 = .ok (dst, heapD)) (heap : Heap) :
    (∃ m1 h1, copy hash eq src heap = .ok (m1, h1) ∧ m1.entries = src.entries ∧
      ∀ k, at_ hash eq m1 k = at_ hash eq src k) ∧
    (∃ m2 h2, assign_from hash eq dst src false heap = .ok (m2, h2) ∧
      m2.entries = src.entries ∧ ∀ k, at_ hash eq m2 k = at_ hash eq src k) ∧
    assign_from hash eq src src true heap = .ok (src, heap) := by
  have hwf := reach_consistent heq hrun
  have hwf2 := reach_consistent heq hrun2
  refine ⟨?_, ?_, rfl⟩
  · obtain ⟨m1, h1, hr, he, ⟨hp, hwfb⟩, hl⟩ := copy_contents heq hwf heap
    refine ⟨m1, h1, hr, he, ?_⟩
    intro k
    rw [at_eq_lookup heq hwfb, at_eq_lookup heq hwf.base, hl]
  · obtain ⟨m2, h2, hr, he, ⟨hp, hwfb⟩, hl⟩ := assign_contents heq hwf2 hwf heap
    refine ⟨m2, h2, hr, he, ?_⟩
    intro k
    rw [at_eq_lookup heq hwfb, at_eq_lookup heq hwf.base, hl]

theorem C17_copy_assign_contents_witness :
    run stdHash Equal exMapOps new 0 = .ok (exMap.1, exMap.2) ∧
    run stdHash Equal [] new 6 = .ok ((new : linked_hashmap Integer String), 6) ∧
    (∃ m1 h1, copy stdHash Equal exMap.1 6 = .ok (m1, h1) ∧ m1.entries = exMap.1.entries ∧
      ∀ k, at_ stdHash Equal m1 k = at_ stdHash Equal exMap.1 k) ∧
    (∃ m2 h2, assign_from stdHash Equal new exMap.1 false 6 = .ok (m2, h2) ∧
      m2.entries = exMap.1.entries ∧ ∀ k, at_ stdHash Equal m2 k = at_ stdHash Equal exMap.1 k) ∧
    assign_from stdHash Equal exMap.1 exMap.1 true 6 = .ok (exMap.1, 6) :=
  ⟨rfl, rfl,
    C17_copy_assign_contents stdHash Equal Equal_iff exMapOps 0 exMap.1 exMap.2 rfl [] 6 new 6
      rfl 6⟩

/-- C27. The two copies of a value do not diverge: in every map reached from
the empty map by `insert`, `remove(pos)` and `clear`, for every present key `k`
there is one value `v` such that `at(k)` returns `v` (the value in the bucket
of the hash table), `find(k)` returns an iterator to a node of `insert_list`
that holds `(k, v)`, and the iteration from `begin()` to `end()` meets `k` with
the value `v` and with no other value. -/
theorem C27_values_do_not_diverge [DecidableEq Key] (hash : Key → Nat) (eq : Key → Key → Bool)
    (heq : ∀ a b, eq a b = true ↔ a = b) (ops : List (Op Key T)) (heap0 : Heap)
    (m : linked_hashmap Key T) (heap : Heap)
    (hrun : run hash eq ops new heap0 = .ok (m, heap)) (k : Key) (hk : k ∈ m.keys) :
    ∃ v a, at_ hash eq m k = .ok v ∧ (k, v) ∈ m.base.entries ∧
      find hash eq m k = .ok ⟨some a⟩ ∧ m.deref ⟨some a⟩ = .ok (k, v) ∧
      (k, v) ∈ m.entries ∧ ∀ w, (k, w) ∈ m.entries → w = v := by
  have hwf := reach_consistent heq hrun
  obtain ⟨a, v, hf, hd, hv, -⟩ := find_present heq hwf hk
  refine ⟨v, a, (at_spec heq hwf k).2 v hv, ?_, hf, hd, hv, ?_⟩
  · rw [hashmap.mem_entries_lookup heq hwf.base]
    exact (lookup_base_iff hwf k v).2 hv
  · intro w hw
    exact entry_value_unique hwf hw hv

theorem C27_values_do_not_diverge_witness :
    run stdHash Equal exMapOps new 0 = .ok (exMap.1, exMap.2) ∧
    (⟨2⟩ : Integer) ∈ exMap.1.keys ∧
    ∃ v a, at_ stdHash Equal exMap.1 ⟨2⟩ = .ok v ∧ ((⟨2⟩ : Integer), v) ∈ exMap.1.base.entries ∧
      find stdHash Equal exMap.1 ⟨2⟩ = .ok ⟨some a⟩ ∧ exMap.1.deref ⟨some a⟩ = .ok (⟨2⟩, v) ∧
      ((⟨2⟩ : Integer), v) ∈ exMap.1.entries ∧
      ∀ w, ((⟨2⟩ : Integer), w) ∈ exMap.1.entries → w = v :=
  ⟨rfl, by decide,
    C27_values_do_not_diverge stdHash Equal Equal_iff exMapOps 0 exMap.1 exMap.2 rfl ⟨2⟩
      (by decide)⟩

end linked_hashmap

/-! ## Lemmas on the resizing of a `hashmap` -/

namespace hashmap

variable {Key T : Type}

theorem scan_of_lookup_none {hash : Key → Nat} {eq : Key → Key → Bool} {h : hashmap Key T}
    {k : Key} (hl : lookup hash eq h k = none) :
    scan eq (h.bucket (hash k % h.buckets.length)).nodes k = none := by
  unfold lookup at hl
  exact Option.map_eq_none'.1 hl

/-- Method `insert` of a new key below the load threshold: `expand()` is not
called, whatever the fuel. -/
theorem insertAux_no_expand {hash : Key → Nat} {eq : Key → Key → Bool} (fuel : Nat)
    {h : hashmap Key T} (kv : Key × T) (heap : Heap)
    (hl : lookup hash eq h kv.1 = none) (hsmall : 2 * h.size_ < h.buckets.length) :
    insertAux hash eq (fuel + 1) h kv heap
      = .ok ({ buckets := h.buckets.set (hash kv.1 % h.buckets.length)
                 ((h.bucket (hash kv.1 % h.buckets.length)).insert_head kv heap).1,
               size_ := (h.size_ + 1) % 18446744073709551616 },
             ⟨((h.bucket (hash kv.1 % h.buckets.length)).insert_head kv heap).1.head,
              hash kv.1 % h.buckets.length⟩, true, heap + 1) := by
  have hs := scan_of_lookup_none hl
  have hc : ¬ (2 * h.size_ ≥ h.buckets.length) := by omega
  simp only [insertAux, hs, hc, if_false]
  rw [double_list.insert_head_eq]

/-- The loop of `expand()` when no insertion reaches the load threshold: every
entry is placed without a further call of `expand()`, so the number of buckets
stays, and the loop does what it does with `insert` of fuel one. -/
theorem reinsert_no_expand [DecidableEq Key] {hash : Key → Nat} {eq : Key → Key → Bool}
    (heq : ∀ a b, eq a b = true ↔ a = b)
    {ins : hashmap Key T → Key × T → Heap → Except Err (hashmap Key T × iterator × Bool × Heap)}
    (g : Key → Option T) (E : List (Key × T)) :
    ∀ (h : hashmap Key T) (heap : Heap),
      (∀ h kv heap, kv ∈ E → lookup hash eq h kv.1 = none → 2 * h.size_ < h.buckets.length →
        ins h kv heap = insertAux hash eq 1 h kv heap) →
      WF hash h heap → (E.map Prod.fst).Nodup → (∀ e ∈ E, lookup hash eq h e.1 = none) →
      (∀ e ∈ E, g e.1 = some e.2) →
      h.size_ = count h → 2 * (count h + E.length) ≤ h.buckets.length + 1 →
      count h + E.length < 18446744073709551616 →
      reinsert ins E h heap = reinsert (insertAux hash eq 1) E h heap ∧
      ∃ h1 heap1, reinsert ins E h heap = .ok (h1, heap1) ∧ WF hash h1 heap1 ∧ heap ≤ heap1 ∧
        h1.buckets.length = h.buckets.length ∧ h1.size_ = count h1 ∧
        count h1 = count h + E.length ∧
        ∀ k, lookup hash eq h1 k = if k ∈ E.map Prod.fst then g k else lookup hash eq h k := by
  induction E with
  | nil =>
    intro h heap _ hwf _ _ _ hsz _ _
    exact ⟨rfl, h, heap, rfl, hwf, le_refl _, rfl, hsz, rfl, by simp⟩
  | cons e rest ih =>
    intro h heap hins hwf hnd hnew hg hsz hload hbound
    simp only [List.map_cons, List.nodup_cons] at hnd
    simp only [List.length_cons] at hload hbound
    have hnone : lookup hash eq h e.1 = none := hnew e (List.mem_cons_self _ _)
    have hsmall : 2 * h.size_ < h.buckets.length := by omega
    have hstep := hins h e heap (List.mem_cons_self _ _) hnone hsmall
    have hexp := insertAux_no_expand 0 e heap hnone hsmall
    obtain ⟨p1, p2, p3, -, p5⟩ :=
      place_spec heq hwf hnone e.2 ((h.size_ + 1) % 18446744073709551616)
    simp only at p1 p2 p3 p5
    have hsz1 : (h.size_ + 1) % 18446744073709551616 = count h + 1 := by
      rw [hsz]
      exact Nat.mod_eq_of_lt (by omega)
    have hnew1 : ∀ x ∈ rest, lookup hash eq
        ({ buckets := h.buckets.set (hash e.1 % h.buckets.length)
             ((h.bucket (hash e.1 % h.buckets.length)).insert_head (e.1, e.2) heap).1,
           size_ := (h.size_ + 1) % 18446744073709551616 } : hashmap Key T) x.1 = none := by
      intro x hx
      rw [p5]
      have hne : x.1 ≠ e.1 := by
        intro heq1
        exact hnd.1 (heq1 ▸ List.mem_map_of_mem Prod.fst hx)
      simp only [hne, if_false]
      exact hnew x (List.mem_cons_of_mem _ hx)
    obtain ⟨hcongr, h2, heap2, hr2, hwf2, hle2, hlen2, hs2, hc2, hl2⟩ :=
      ih _ (heap + 1)
        (fun h kv heap hkv => hins h kv heap (List.mem_cons_of_mem _ hkv))
        p1 hnd.2 hnew1 (fun x hx => hg x (List.mem_cons_of_mem _ hx))
        (by rw [p3]; exact hsz1) (by rw [p2, p3]; omega) (by rw [p3]; omega)
    refine ⟨?_, h2, heap2, ?_, hwf2, Nat.le_of_succ_le hle2, ?_, hs2, ?_, ?_⟩
    · simp only [reinsert, hstep, hexp]
      exact hcongr
    · simp only [reinsert, hstep, hexp]
      exact hr2
    · rw [hlen2, p2]
    · rw [hc2, p3]
      simp only [List.length_cons]
      omega
    · intro k
      rw [hl2, p5]
      by_cases hk : k ∈ rest.map Prod.fst
      · simp [hk]
      · by_cases hke : k = e.1
        · subst hke
          simp [hg e (List.mem_cons_self _ _)]
        · have : k ∉ (e :: rest).map Prod.fst := by
            simp only [List.map_cons, List.mem_cons, not_or]
            exact ⟨hke, hk⟩
          simp [hk, hke, this]

end hashmap

namespace hashmap

variable {Key T : Type}

theorem lookup_ite_entries [DecidableEq Key] {hash : Key → Nat} {eq : Key → Key → Bool}
    (heq : ∀ a b, eq a b = true ↔ a = b) {h : hashmap Key T} {heap : Heap} (hwf : WF hash h heap)
    (k : Key) :
    (if k ∈ h.entries.map Prod.fst then lookup hash eq h k else none) = lookup hash eq h k := by
  split
  · rfl
  · rename_i hk
    cases hlk : lookup hash eq h k with
    | none => rfl
    | some v =>
      exfalso
      apply hk
      exact List.mem_map.2 ⟨(k, v), (mem_entries_lookup heq hwf k v).2 hlk, rfl⟩

/-- Method `expand()` on a well-formed table with at most as many entries as
buckets: it returns a well-formed table with twice as many buckets and the same
associations, whose field `size_` is its number of entries; no insertion of the
loop calls `expand()` again, so the loop does what it does with `insert` of
fuel one. -/
theorem expandWith_once [DecidableEq Key] {hash : Key → Nat} {eq : Key → Key → Bool}
    (heq : ∀ a b, eq a b = true ↔ a = b)
    {ins : hashmap Key T → Key × T → Heap → Except Err (hashmap Key T × iterator × Bool × Heap)}
    {h : hashmap Key T} {heap : Heap} (hwf : WF hash h heap)
    (hins : ∀ h1 kv heap1, kv ∈ h.entries → lookup hash eq h1 kv.1 = none →
      2 * h1.size_ < h1.buckets.length → ins h1 kv heap1 = insertAux hash eq 1 h1 kv heap1)
    (hn : count h ≤ h.buckets.length) (hbound : count h < 18446744073709551616) :
    expandWith ins h heap = expandWith (insertAux hash eq 1) h heap ∧
    ∃ h1 heap1, expandWith ins h heap = .ok (h1, heap1) ∧ WF hash h1 heap1 ∧ heap ≤ heap1 ∧
      h1.buckets.length = 2 * h.buckets.length ∧ h1.size_ = count h1 ∧ count h1 = count h ∧
      ∀ k, lookup hash eq h1 k = lookup hash eq h k := by
  obtain ⟨c1, c2, c3⟩ := copyBuckets_spec h.buckets heap
  have hE : ((copyBuckets h.buckets heap).1.map (fun b => b.nodes.map Node.data)).flatten
      = h.entries := by
    rw [c1]; rfl
  have hlenE : h.entries.length = count h := length_entries h
  have hpos : 0 < (copyBuckets h.buckets heap).1.length * 2 := by
    rw [c2]; have := hwf.1; omega
  obtain ⟨hcongr, h1, heap1, hr, hwf1, hle1, hlen1, hs1, hc1, hl1⟩ :=
    reinsert_no_expand heq (lookup hash eq h) h.entries
      ({ buckets := List.replicate ((copyBuckets h.buckets heap).1.length * 2)
           double_list.empty_list, size_ := 0 } : hashmap Key T)
      (copyBuckets h.buckets heap).2 hins
      (WF_replicate hash _ 0 hpos _) (nodup_flat_keys hwf)
      (fun e _ => lookup_replicate hash eq _ 0 e.1)
      (fun e he => (mem_entries_lookup heq hwf e.1 e.2).1 he)
      (by rw [count_replicate]) (by
        rw [count_replicate, hlenE]
        simp only [List.length_replicate]
        rw [c2]; omega)
      (by rw [count_replicate, hlenE]; omega)
  refine ⟨?_, h1, heap1, ?_, hwf1, le_trans c3 hle1, ?_, hs1, ?_, ?_⟩
  · simp only [expandWith]
    rw [hE]
    exact hcongr
  · simp only [expandWith]
    rw [hE]
    exact hr
  · rw [hlen1]
    simp only [List.length_replicate]
    rw [c2]; omega
  · rw [hc1, count_replicate, hlenE]; omega
  · intro k
    rw [hl1, lookup_replicate]
    exact lookup_ite_entries heq hwf k

/-- The last step of `insert` of a new key: once the load check has given the
table `h1`, the pair is placed at the head of its bucket in `h1`. -/
theorem insertAux_place {hash : Key → Nat} {eq : Key → Key → Bool} (fuel : Nat)
    {h h1 : hashmap Key T} (kv : Key × T) {heap heap1 : Heap}
    (hl : lookup hash eq h kv.1 = none)
    (hr : (if 2 * h.size_ ≥ h.buckets.length
            then expandWith (insertAux hash eq fuel) h heap else .ok (h, heap))
          = .ok (h1, heap1)) :
    insertAux hash eq (fuel + 1) h kv heap
      = .ok ({ buckets := h1.buckets.set (hash kv.1 % h1.buckets.length)
                 ((h1.bucket (hash kv.1 % h1.buckets.length)).insert_head kv heap1).1,
               size_ := (h1.size_ + 1) % 18446744073709551616 },
             ⟨some heap1, hash kv.1 % h1.buckets.length⟩, true, heap1 + 1) := by
  have hs := scan_of_lookup_none hl
  simp only [insertAux, hs, hr]
  rw [double_list.insert_head_eq]
  rfl

/-- The table after the placing of a new pair at the head of its bucket. -/
theorem placed_facts [DecidableEq Key] {hash : Key → Nat} {eq : Key → Key → Bool}
    (heq : ∀ a b, eq a b = true ↔ a = b) {h : hashmap Key T} {heap : Heap} (hwf : WF hash h heap)
    (kv : Key × T) (hl : lookup hash eq h kv.1 = none) (s : Nat) (h1 : hashmap Key T)
    (hh1 : h1 = { buckets := h.buckets.set (hash kv.1 % h.buckets.length)
                    ((h.bucket (hash kv.1 % h.buckets.length)).insert_head kv heap).1,
                  size_ := s }) :
    WF hash h1 (heap + 1) ∧ h1.buckets.length = h.buckets.length ∧ count h1 = count h + 1 ∧
    (h1.bucket (hash kv.1 % h1.buckets.length)).nodes = ⟨heap, kv⟩ ::
      (h.bucket (hash kv.1 % h.buckets.length)).nodes ∧
    ∀ k, lookup hash eq h1 k = if k = kv.1 then some kv.2 else lookup hash eq h k := by
  obtain ⟨p1, p2, p3, -, p5⟩ := place_spec heq hwf hl kv.2 s
  simp only at p1 p2 p3 p5
  subst hh1
  refine ⟨p1, p2, p3, ?_, p5⟩
  have hlt : hash kv.1 % h.buckets.length < h.buckets.length := Nat.mod_lt _ hwf.1
  simp only [List.length_set]
  rw [bucket_set _ _ _ _ _ hlt, if_pos rfl, double_list.insert_head_eq]

end hashmap

namespace hashmap

variable {Key T : Type}

/-- Method `insert` of a new key into a well-formed table with at most as many
entries as buckets: the call returns; the number of buckets is doubled when
`2 * size_ >= buckets.size()` and stays otherwise; the pair is the first one of
its bucket; and fuel two is enough, that is, the insertions made by `expand()`
do not call `expand()` again. -/
theorem insert_new_key [DecidableEq Key] {hash : Key → Nat} {eq : Key → Key → Bool}
    (heq : ∀ a b, eq a b = true ↔ a = b) {h : hashmap Key T} {heap : Heap} (hwf : WF hash h heap)
    (kv : Key × T) (hl : lookup hash eq h kv.1 = none) (hn : count h ≤ h.buckets.length)
    (hbound : count h < 18446744073709551616) :
    ∃ h1 a heap1,
      insert hash eq h kv heap
        = .ok (h1, ⟨some a, hash kv.1 % h1.buckets.length⟩, true, heap1) ∧
      insertAux hash eq 2 h kv heap = insert hash eq h kv heap ∧
      WF hash h1 heap1 ∧ heap ≤ heap1 ∧
      h1.buckets.length
        = (if 2 * h.size_ ≥ h.buckets.length then 2 * h.buckets.length else h.buckets.length) ∧
      count h1 = count h + 1 ∧
      h1.size_ = ((if 2 * h.size_ ≥ h.buckets.length then count h else h.size_) + 1)
        % 18446744073709551616 ∧
      (h1.bucket (hash kv.1 % h1.buckets.length)).nodes.head? = some ⟨a, kv⟩ ∧
      ∀ k, lookup hash eq h1 k = if k = kv.1 then some kv.2 else lookup hash eq h k := by
  by_cases hc : 2 * h.size_ ≥ h.buckets.length
  · have hins : ∀ fuel, ∀ (h1 : hashmap Key T) (e : Key × T) (heap1 : Heap), e ∈ h.entries →
        lookup hash eq h1 e.1 = none → 2 * h1.size_ < h1.buckets.length →
        fuel = count h ∨ fuel = 1 →
        insertAux hash eq fuel h1 e heap1 = insertAux hash eq 1 h1 e heap1 := by
      intro fuel h1 e heap1 he hl1 hs1 hf
      rcases hf with hf | hf
      · have hpos : 0 < count h := by
          rw [← length_entries]
          exact List.length_pos_of_mem he
        obtain ⟨f, hf1⟩ : ∃ f, count h = f + 1 := ⟨count h - 1, by omega⟩
        rw [hf, hf1, insertAux_no_expand f e heap1 hl1 hs1, insertAux_no_expand 0 e heap1 hl1 hs1]
      · rw [hf]
    obtain ⟨e1, h1, heap1, hr, hwf1, hle1, hlen1, hs1, hc1, hl1⟩ :=
      expandWith_once heq hwf
        (fun h1 e heap1 he a b => hins (count h) h1 e heap1 he a b (Or.inl rfl)) hn hbound
    obtain ⟨e2, -⟩ :=
      expandWith_once heq hwf
        (fun h1 e heap1 he a b => hins 1 h1 e heap1 he a b (Or.inr rfl)) hn hbound
    have hl1k : lookup hash eq h1 kv.1 = none := by rw [hl1, hl]
    have hscr : ∀ fuel, fuel = count h ∨ fuel = 1 →
        (if 2 * h.size_ ≥ h.buckets.length
          then expandWith (insertAux hash eq fuel) h heap else .ok (h, heap))
        = .ok (h1, heap1) := by
      intro fuel hf
      rw [if_pos hc]
      rcases hf with hf | hf
      · rw [hf]; exact hr
      · rw [hf, ← e1]; exact hr
    have hA := insertAux_place (count h) kv hl (hscr _ (Or.inl rfl))
    have hB := insertAux_place 1 kv hl (hscr _ (Or.inr rfl))
    obtain ⟨q1, q2, q3, q4, q5⟩ :=
      placed_facts heq hwf1 kv hl1k ((h1.size_ + 1) % 18446744073709551616) _ rfl
    refine ⟨_, heap1, heap1 + 1, ?_, ?_, q1, Nat.le_succ_of_le hle1, ?_, ?_, ?_, ?_, ?_⟩
    · unfold insert
      rw [hA]
      simp only [List.length_set]
    · unfold insert
      rw [hA, hB]
    · rw [q2, hlen1, if_pos hc]
    · rw [q3, hc1]
    · simp only [if_pos hc]
      rw [hs1, hc1]
    · rw [q4]; rfl
    · intro k
      rw [q5, hl1]
  · have hsmall : 2 * h.size_ < h.buckets.length := by omega
    have hscr : ∀ fuel,
        (if 2 * h.size_ ≥ h.buckets.length
          then expandWith (insertAux hash eq fuel) h heap else .ok (h, heap))
        = .ok (h, heap) := by
      intro fuel
      rw [if_neg hc]
    have hA := insertAux_place (count h) kv hl (hscr _)
    have hB := insertAux_place 1 kv hl (hscr _)
    obtain ⟨q1, q2, q3, q4, q5⟩ :=
      placed_facts heq hwf kv hl ((h.size_ + 1) % 18446744073709551616) _ rfl
    refine ⟨_, heap, heap + 1, ?_, ?_, q1, Nat.le_succ _, ?_, q3, ?_, ?_, q5⟩
    · unfold insert
      rw [hA]
      simp only [List.length_set]
    · unfold insert
      rw [hA, hB]
    · rw [q2, if_neg hc]
    · simp only [if_neg hc]
    · rw [q4]; rfl

/-- Method `insert` of a key of the table: the value is assigned through the
iterator `find` gives; nothing is allocated and no bucket changes its length. -/
theorem insert_present [DecidableEq Key] {hash : Key → Nat} {eq : Key → Key → Bool}
    (heq : ∀ a b, eq a b = true ↔ a = b) {h : hashmap Key T} {heap : Heap} (hwf : WF hash h heap)
    (kv : Key × T) {v0 : T} (hl : lookup hash eq h kv.1 = some v0) :
    insert hash eq h kv heap
      = .ok (h.assign (find hash eq h kv.1) kv.2, find hash eq h kv.1, false, heap) ∧
    WF hash (h.assign (find hash eq h kv.1) kv.2) heap ∧
    (h.assign (find hash eq h kv.1) kv.2).buckets.length = h.buckets.length ∧
    count (h.assign (find hash eq h kv.1) kv.2) = count h ∧
    (h.assign (find hash eq h kv.1) kv.2).size_ = h.size_ ∧
    find hash eq (h.assign (find hash eq h kv.1) kv.2) kv.1 = find hash eq h kv.1 ∧
    ∀ k, lookup hash eq (h.assign (find hash eq h kv.1) kv.2) k
      = if k = kv.1 then some kv.2 else lookup hash eq h k := by
  obtain ⟨a1, a2, a3, a4, a5⟩ := assign_spec heq hwf hl kv.2
  obtain ⟨n, -, -, hf, -⟩ := find_some heq hwf hl
  refine ⟨?_, a1, a2, a3, ?_, a4, a5⟩
  · cases hs : scan eq (h.bucket (hash kv.1 % h.buckets.length)).nodes kv.1 with
    | none =>
      unfold lookup at hl
      rw [hs] at hl
      cases hl
    | some m =>
      have hf1 : find hash eq h kv.1 = ⟨some m.addr, hash kv.1 % h.buckets.length⟩ := by
        simp [find, hs]
      rw [hf1]
      simp [insert, insertAux, hs]
  · rw [hf]
    rfl

end hashmap

namespace hashmap

variable {Key T : Type}

theorem find_set_other {hash : Key → Nat} {eq : Key → Key → Bool} {h : hashmap Key T}
    {i : Nat} (hi : i < h.buckets.length) (b : double_list (Key × T)) (s : Nat) (k : Key)
    (hk : hash k % h.buckets.length ≠ i) :
    find hash eq { buckets := h.buckets.set i b, size_ := s } k = find hash eq h k := by
  unfold find
  simp only [List.length_set]
  rw [bucket_set _ _ _ _ _ hi, if_neg hk]
  simp only [end_, List.length_set]
  rfl

/-- Method `remove(key)` on a well-formed table, in full: the flag tells whether
the key was in the table; afterwards `find` gives `end()` for the key and what
it gave before for every other key; one entry has gone exactly when the flag is
`true`, and then `size_` has been decremented; the number of buckets stays. -/
theorem remove_exact [DecidableEq Key] {hash : Key → Nat} {eq : Key → Key → Bool}
    (heq : ∀ a b, eq a b = true ↔ a = b) {h : hashmap Key T} {heap : Heap} (hwf : WF hash h heap)
    (k : Key) :
    ∃ h1, remove hash eq h k = .ok (h1, (lookup hash eq h k).isSome) ∧
      WF hash h1 heap ∧ h1.buckets.length = h.buckets.length ∧
      count h1 + (if (lookup hash eq h k).isSome then 1 else 0) = count h ∧
      h1.size_ = (if (lookup hash eq h k).isSome
        then (h.size_ + 18446744073709551615) % 18446744073709551616 else h.size_) ∧
      find hash eq h1 k = h1.end_ ∧
      (∀ k1, k1 ≠ k → find hash eq h1 k1 = find hash eq h k1) ∧
      ∀ k1, lookup hash eq h1 k1 = if k1 = k then none else lookup hash eq h k1 := by
  obtain ⟨h1, hr, hwf1, hlen1, -, hl1⟩ := remove_ok heq hwf k
  have hfk : find hash eq h1 k = h1.end_ := find_end (by rw [hl1]; simp)
  have hlt : hash k % h.buckets.length < h.buckets.length := Nat.mod_lt _ hwf.1
  obtain ⟨hhome, hkeys, haddrs, hfresh, hsize⟩ := hwf.2 _ hlt
  cases hs : scan eq (h.bucket (hash k % h.buckets.length)).nodes k with
  | none =>
    have hl : lookup hash eq h k = none := by unfold lookup; rw [hs]; rfl
    have hr2 : remove hash eq h k = .ok (h, false) := by simp [remove, hs]
    rw [hr2, hl] at hr
    simp only [Option.isSome_none, Except.ok.injEq, Prod.mk.injEq, and_true] at hr
    subst hr
    refine ⟨h, ?_, hwf, rfl, ?_, ?_, hfk, fun _ _ => rfl, hl1⟩
    · rw [hr2, hl]; rfl
    · rw [hl]; rfl
    · rw [hl]; rfl
  | some n =>
    obtain ⟨hmem, hnk⟩ := scan_some heq hs
    have hl : lookup hash eq h k = some n.data.2 := by unfold lookup; rw [hs]; rfl
    obtain ⟨nx, hnx⟩ := double_list.unlink_of_mem haddrs (List.mem_map_of_mem Node.addr hmem)
    have hr2 : remove hash eq h k
        = .ok ({ buckets := h.buckets.set (hash k % h.buckets.length)
                   { nodes := (h.bucket (hash k % h.buckets.length)).nodes.filter
                       (fun m => decide (m.addr ≠ n.addr)),
                     size := (h.bucket (hash k % h.buckets.length)).size - 1 },
                 size_ := (h.size_ + 18446744073709551615) % 18446744073709551616 }, true) := by
      simp [remove, hs, double_list.erase, hnx]
    have hr3 := hr
    rw [hr2, hl] at hr3
    simp only [Option.isSome_some, Except.ok.injEq, Prod.mk.injEq, and_true] at hr3
    have haddr_key : ∀ m ∈ (h.bucket (hash k % h.buckets.length)).nodes,
        m.addr = n.addr → m.data.1 = k := by
      intro m hm e
      have h1 := double_list.nodeAt_of_mem haddrs hm
      have h2 := double_list.nodeAt_of_mem haddrs hmem
      rw [e, h2] at h1
      have : n = m := by simpa using h1
      rw [← this, hnk]
    refine ⟨h1, hr, hwf1, hlen1, ?_, ?_, hfk, ?_, hl1⟩
    · rw [hl, ← hr3]
      simp only [Option.isSome_some, if_true]
      have hcs := count_set hlt
        ({ nodes := (h.bucket (hash k % h.buckets.length)).nodes.filter
             (fun m => decide (m.addr ≠ n.addr)),
           size := (h.bucket (hash k % h.buckets.length)).size - 1 } : double_list (Key × T))
        ((h.size_ + 18446744073709551615) % 18446744073709551616)
      have hlen := double_list.unlink_length hnx
      simp only at hcs
      omega
    · rw [hl, ← hr3]
      simp only [Option.isSome_some, if_true]
    · intro k1 hk1
      rw [← hr3]
      by_cases hki : hash k1 % h.buckets.length = hash k % h.buckets.length
      · rw [find_set hlt _ _ _ hki]
        have hscan : scan eq ((h.bucket (hash k % h.buckets.length)).nodes.filter
            (fun m => decide (m.addr ≠ n.addr))) k1
            = scan eq (h.bucket (hash k % h.buckets.length)).nodes k1 := by
          unfold scan
          apply find?_filter_of_imp
          intro m hm hp
          have hmk : m.data.1 = k1 := (heq _ _).1 hp
          have : m.addr ≠ n.addr := by
            intro e
            apply hk1
            rw [← hmk, haddr_key m hm e]
          simpa using this
        simp only [hscan]
        unfold find
        rw [hki]
        rfl
      · exact find_set_other hlt _ _ _ hki

end hashmap

/-! ## Call sequences on a `hashmap`: refinement and invariant -/

namespace hashmap

variable {Key T : Type}

/-- Every call on a well-formed table returns a well-formed table, whose
associations are those of the abstract map after the same call. -/
theorem step_refines [DecidableEq Key] {hash : Key → Nat} {eq : Key → Key → Bool}
    (heq : ∀ a b, eq a b = true ↔ a = b) {h : hashmap Key T} {heap : Heap} (hwf : WF hash h heap)
    (op : Op Key T) :
    ∃ h1 heap1, step hash eq h heap op = .ok (h1, heap1) ∧ WF hash h1 heap1 ∧
      ∀ k, lookup hash eq h1 k = replay [op] (lookup hash eq h) k := by
  cases op with
  | insert kv =>
    obtain ⟨h1, heap1, hr, hwf1, -, -, hl1, -⟩ := insert_ok heq hwf kv
    exact ⟨h1, heap1, by simp only [step, hr], hwf1, hl1⟩
  | remove key =>
    obtain ⟨h1, hr, hwf1, -, -, hl1⟩ := remove_ok heq hwf key
    exact ⟨h1, heap, by simp only [step, hr], hwf1, hl1⟩
  | clear =>
    refine ⟨_, heap, by simp only [step, clear_ok hwf], WF_replicate hash _ 0 hwf.1 heap, ?_⟩
    intro k
    rw [lookup_replicate]
    rfl

theorem replay_congr [DecidableEq Key] (ops : List (Op Key T)) :
    ∀ (f g : Key → Option T), (∀ k, f k = g k) → ∀ k, replay ops f k = replay ops g k := by
  intro f g hfg
  have : f = g := funext hfg
  rw [this]
  intro k
  rfl

/-- Every sequence of calls on a well-formed table returns, and the
associations of the table it gives are those of the abstract map after the same
calls. -/
theorem run_refines [DecidableEq Key] {hash : Key → Nat} {eq : Key → Key → Bool}
    (heq : ∀ a b, eq a b = true ↔ a = b) (ops : List (Op Key T)) :
    ∀ {h : hashmap Key T} {heap : Heap}, WF hash h heap →
      ∃ h1 heap1, run hash eq ops h heap = .ok (h1, heap1) ∧ WF hash h1 heap1 ∧
        ∀ k, lookup hash eq h1 k = replay ops (lookup hash eq h) k := by
  induction ops with
  | nil =>
    intro h heap hwf
    exact ⟨h, heap, rfl, hwf, fun _ => rfl⟩
  | cons op rest ih =>
    intro h heap hwf
    obtain ⟨h1, heap1, hs, hwf1, hl1⟩ := step_refines heq hwf op
    obtain ⟨h2, heap2, hr, hwf2, hl2⟩ := ih hwf1
    refine ⟨h2, heap2, by simp only [run, hs]; exact hr, hwf2, ?_⟩
    intro k
    rw [hl2, replay_congr rest _ _ hl1]
    cases op <;> rfl

theorem run_concat {hash : Key → Nat} {eq : Key → Key → Bool} (pre post : List (Op Key T)) :
    ∀ (h : hashmap Key T) (heap : Heap),
      run hash eq (pre ++ post) h heap
        = match run hash eq pre h heap with
          | .ok (h1, heap1) => run hash eq post h1 heap1
          | .error err => .error err := by
  induction pre with
  | nil => intro h heap; rfl
  | cons op rest ih =>
    intro h heap
    simp only [List.cons_append, run]
    cases step hash eq h heap op with
    | error err => rfl
    | ok r =>
      obtain ⟨h1, heap1⟩ := r
      exact ih h1 heap1

theorem Inv_empty [DecidableEq Key] (hash : Key → Nat) (heap : Heap) :
    Inv hash (new : hashmap Key T) heap :=
  ⟨WF_replicate hash 16 0 (by decide) heap, (count_replicate 16 0).symm, by simp [new],
    by simp [new]⟩

/-- Every call keeps the invariant of the reachable tables, and adds at most
one entry. -/
theorem step_keeps_inv [DecidableEq Key] {hash : Key → Nat} {eq : Key → Key → Bool}
    (heq : ∀ a b, eq a b = true ↔ a = b) {h : hashmap Key T} {heap : Heap}
    (hinv : Inv hash h heap) (hbound : count h + 1 < 18446744073709551616) (op : Op Key T) :
    ∃ h1 heap1, step hash eq h heap op = .ok (h1, heap1) ∧ Inv hash h1 heap1 ∧
      count h1 ≤ count h + 1 := by
  obtain ⟨hwf, hsz, hload, heven⟩ := hinv
  cases op with
  | insert kv =>
    cases hl : lookup hash eq h kv.1 with
    | some v0 =>
      obtain ⟨hr, a1, a2, a3, a4, -, -⟩ := insert_present heq hwf kv hl
      refine ⟨_, heap, by simp only [step, hr], ⟨a1, ?_, ?_, ?_⟩, by omega⟩
      · rw [a4, a3]; exact hsz
      · rw [a4, a2]; exact hload
      · rw [a2]; exact heven
    | none =>
      obtain ⟨h1, a, heap1, hr, -, hwf1, -, hlen1, hc1, hs1, -, -⟩ :=
        insert_new_key heq hwf kv hl (by omega) (by omega)
      have hs2 : h1.size_ = count h + 1 := by
        rw [hs1]
        by_cases hc : 2 * h.size_ ≥ h.buckets.length
        · rw [if_pos hc]; exact Nat.mod_eq_of_lt hbound
        · rw [if_neg hc, hsz]; exact Nat.mod_eq_of_lt hbound
      refine ⟨h1, heap1, by simp only [step, hr], ⟨hwf1, ?_, ?_, ?_⟩, by omega⟩
      · rw [hs2, hc1]
      · rw [hs2, hlen1]
        have hpos := hwf.1
        by_cases hc : 2 * h.size_ ≥ h.buckets.length
        · rw [if_pos hc]; omega
        · rw [if_neg hc]; omega
      · rw [hlen1]
        by_cases hc : 2 * h.size_ ≥ h.buckets.length
        · rw [if_pos hc]; omega
        · rw [if_neg hc]; omega
  | remove key =>
    obtain ⟨h1, hr, hwf1, hlen1, hc1, hs1, -, -, -⟩ := remove_exact heq hwf key
    refine ⟨h1, heap, by simp only [step, hr], ⟨hwf1, ?_, ?_, ?_⟩, ?_⟩
    · rw [hs1]
      by_cases hp : (lookup hash eq h key).isSome = true
      · rw [if_pos hp] at hc1 ⊢; omega
      · rw [if_neg hp] at hc1 ⊢; omega
    · rw [hs1, hlen1]
      by_cases hp : (lookup hash eq h key).isSome = true
      · rw [if_pos hp] at hc1 ⊢; omega
      · rw [if_neg hp]; omega
    · rw [hlen1]; exact heven
    · by_cases hp : (lookup hash eq h key).isSome = true
      · rw [if_pos hp] at hc1; omega
      · rw [if_neg hp] at hc1; omega
  | clear =>
    refine ⟨_, heap, by simp only [step, clear_ok hwf],
      ⟨WF_replicate hash _ 0 hwf.1 heap, ?_, ?_, ?_⟩, ?_⟩
    · rw [count_replicate]
    · simp
    · simpa using heven
    · rw [count_replicate]; omega

/-- Every sequence of calls keeps the invariant of the reachable tables. -/
theorem run_keeps_inv [DecidableEq Key] {hash : Key → Nat} {eq : Key → Key → Bool}
    (heq : ∀ a b, eq a b = true ↔ a = b) (ops : List (Op Key T)) :
    ∀ {h : hashmap Key T} {heap : Heap}, Inv hash h heap →
      count h + ops.length < 18446744073709551616 →
      ∃ h1 heap1, run hash eq ops h heap = .ok (h1, heap1) ∧ Inv hash h1 heap1 ∧
        count h1 ≤ count h + ops.length := by
  induction ops with
  | nil =>
    intro h heap hinv _
    exact ⟨h, heap, rfl, hinv, le_refl _⟩
  | cons op rest ih =>
    intro h heap hinv hbound
    simp only [List.length_cons] at hbound
    obtain ⟨h1, heap1, hs, hinv1, hc1⟩ := step_keeps_inv heq hinv (by omega) op
    obtain ⟨h2, heap2, hr, hinv2, hc2⟩ := ih hinv1 (by omega)
    refine ⟨h2, heap2, by simp only [run, hs]; exact hr, hinv2, ?_⟩
    simp only [List.length_cons]
    omega

/-- Every table reached from `hashmap()` by fewer than `2^64` calls satisfies
the invariant. -/
theorem reach_table_inv [DecidableEq Key] {hash : Key → Nat} {eq : Key → Key → Bool}
    (heq : ∀ a b, eq a b = true ↔ a = b) {ops : List (Op Key T)} {h : hashmap Key T}
    {heap0 heap : Heap} (hrun : run hash eq ops new heap0 = .ok (h, heap))
    (hlen : ops.length < 18446744073709551616) :
    Inv hash h heap ∧ count h ≤ ops.length := by
  have h0 : count (new : hashmap Key T) = 0 := count_replicate 16 0
  obtain ⟨h1, heap1, hr, hinv, hc⟩ :=
    run_keeps_inv heq ops (Inv_empty hash heap0) (by rw [h0]; omega)
  rw [hr] at hrun
  cases hrun
  exact ⟨hinv, by rw [h0] at hc; omega⟩

end hashmap

/-! ## The claims on `hashmap` -/

namespace hashmap

variable {Key T : Type}

theorem lookup_none_iff_not_mem [DecidableEq Key] {hash : Key → Nat} {eq : Key → Key → Bool}
    (heq : ∀ a b, eq a b = true ↔ a = b) {h : hashmap Key T} {heap : Heap} (hwf : WF hash h heap)
    (k : Key) : lookup hash eq h k = none ↔ k ∉ h.entries.map Prod.fst := by
  constructor
  · intro hl hk
    obtain ⟨⟨k1, v⟩, hkv, rfl⟩ := List.mem_map.1 hk
    rw [mem_entries_lookup heq hwf] at hkv
    rw [hl] at hkv
    cases hkv
  · intro hk
    rw [← lookup_ite_entries heq hwf k, if_neg hk]

theorem entries_length (h : hashmap Key T) : h.entries.length = count h :=
  length_entries h

theorem insertAux_fuel_irrelevant {hash : Key → Nat} {eq : Key → Key → Bool}
    {h h1 : hashmap Key T} {e : Key × T} (heap1 : Heap) (he : e ∈ h.entries)
    (hl1 : lookup hash eq h1 e.1 = none) (hs1 : 2 * h1.size_ < h1.buckets.length) :
    insertAux hash eq (count h) h1 e heap1 = insertAux hash eq 1 h1 e heap1 := by
  have hpos : 0 < count h := by
    rw [← length_entries]
    exact List.length_pos_of_mem he
  obtain ⟨f, hf1⟩ : ∃ f, count h = f + 1 := ⟨count h - 1, by omega⟩
  rw [hf1, insertAux_no_expand f e heap1 hl1 hs1, insertAux_no_expand 0 e heap1 hl1 hs1]

/-- C19. Result of `hashmap::insert` on a well-formed table (distinct keys, each
in its home bucket, `size_` the number of entries, below `2^64`), `Equal` being
the equality of keys: the call returns, and the iterator returned dereferences
to `(k, v)`.  If `k` is in the table, the flag is `false`, `size_` and the number
of entries are unchanged, nothing is allocated, and the iterator is the one
`find(k)` gave before the call: the value is overwritten in the node that held
the key.  Otherwise the flag is `true`, `size_` has grown by one and `(k, v)` is
the first entry of the bucket `hash(k) mod bucket_count`.  The other keys keep
their values. -/
theorem C19_insert_result [DecidableEq Key] (hash : Key → Nat) (eq : Key → Key → Bool)
    (heq : ∀ a b, eq a b = true ↔ a = b) (h : hashmap Key T) (heap : Heap)
    (hwf : WF hash h heap) (hsz : h.size_ = h.entries.length)
    (hbound : h.size_ + 1 < 18446744073709551616) (kv : Key × T) :
    ∃ h1 it flag heap1, insert hash eq h kv heap = .ok (h1, it, flag, heap1) ∧
      h1.deref it = .ok kv ∧
      (kv.1 ∈ h.entries.map Prod.fst →
        flag = false ∧ h1.size_ = h.size_ ∧ h1.entries.length = h.entries.length ∧
        heap1 = heap ∧ it = find hash eq h kv.1) ∧
      (kv.1 ∉ h.entries.map Prod.fst →
        flag = true ∧ h1.size_ = h.size_ + 1 ∧
        (h1.bucket (hash kv.1 % h1.buckets.length)).nodes.head?.map Node.data = some kv) ∧
      ∀ k, lookup hash eq h1 k = if k = kv.1 then some kv.2 else lookup hash eq h k := by
  have hcount : h.entries.length = count h := length_entries h
  obtain ⟨h1, heap1, hr, hwf1, hle1, -, hl1, hs1⟩ := insert_ok heq hwf kv
  have hlk : lookup hash eq h1 kv.1 = some kv.2 := by rw [hl1]; simp
  obtain ⟨n, -, -, -, hd⟩ := find_some heq hwf1 hlk
  refine ⟨h1, _, _, heap1, hr, hd, ?_, ?_, hl1⟩
  · intro hk
    have hne : lookup hash eq h kv.1 ≠ none := fun e =>
      (lookup_none_iff_not_mem heq hwf kv.1).1 e hk
    obtain ⟨v0, hv0⟩ := Option.ne_none_iff_exists'.1 hne
    obtain ⟨hr2, -, -, a3, a4, -, -⟩ := insert_present heq hwf kv hv0
    rw [hr2] at hr
    simp only [Except.ok.injEq, Prod.mk.injEq] at hr
    obtain ⟨e1, e2, e3, e4⟩ := hr
    refine ⟨by rw [hv0]; rfl, ?_, ?_, e4.symm, ?_⟩
    · rw [← e1]; exact a4
    · rw [← e1, entries_length, entries_length]; exact a3
    · exact e2.symm
  · intro hk
    have hl := (lookup_none_iff_not_mem heq hwf kv.1).2 hk
    obtain ⟨s1, c1⟩ := hs1 (by rw [hsz, hcount]) (by rw [← hcount, ← hsz]; exact hbound)
    rw [hl] at c1
    simp only [Option.isNone_none, if_true] at c1
    refine ⟨by rw [hl]; rfl, by rw [s1, c1, hsz, hcount], ?_⟩
    cases hscr : (if 2 * h.size_ ≥ h.buckets.length
        then expandWith (insertAux hash eq (count h)) h heap else .ok (h, heap)) with
    | error err =>
      have hs := scan_of_lookup_none hl
      simp [insert, insertAux, hs, hscr] at hr
    | ok r =>
      obtain ⟨h2, heap2⟩ := r
      have hA := insertAux_place (count h) kv hl hscr
      unfold insert at hr
      rw [hA] at hr
      simp only [Except.ok.injEq, Prod.mk.injEq] at hr
      obtain ⟨e1, -⟩ := hr
      have hpos : 0 < h2.buckets.length := by
        have := hwf1.1
        rw [← e1] at this
        simpa using this
      rw [← e1]
      simp only [List.length_set]
      rw [bucket_set _ _ _ _ _ (Nat.mod_lt _ hpos), if_pos rfl, double_list.insert_head_eq]
      rfl

theorem exSeven_wf : WF stdHash exSeven.1 exSeven.2 :=
  (reach_table_inv Equal_iff
    (rfl : run stdHash Equal exSevenOps new 0 = .ok (exSeven.1, exSeven.2)) (by decide)).1.1

theorem exEighth_wf : WF stdHash exEighth.1 exEighth.2.2.2 :=
  (reach_table_inv Equal_iff
    (rfl : run stdHash Equal (exSevenOps ++ [.insert (⟨8⟩, "h")]) new 0
      = .ok (exEighth.1, exEighth.2.2.2)) (by decide)).1.1

theorem C19_insert_result_witness :
    WF stdHash exSeven.1 exSeven.2 ∧ exSeven.1.size_ = exSeven.1.entries.length ∧
    exSeven.1.size_ + 1 < 18446744073709551616 ∧
    ∃ h1 it flag heap1,
      insert stdHash Equal exSeven.1 ((⟨3⟩ : Integer), "z") exSeven.2
        = .ok (h1, it, flag, heap1) ∧
      h1.deref it = .ok (⟨3⟩, "z") ∧
      (((⟨3⟩ : Integer), "z").1 ∈ exSeven.1.entries.map Prod.fst →
        flag = false ∧ h1.size_ = exSeven.1.size_ ∧
        h1.entries.length = exSeven.1.entries.length ∧
        heap1 = exSeven.2 ∧ it = find stdHash Equal exSeven.1 ((⟨3⟩ : Integer), "z").1) ∧
      (((⟨3⟩ : Integer), "z").1 ∉ exSeven.1.entries.map Prod.fst →
        flag = true ∧ h1.size_ = exSeven.1.size_ + 1 ∧
        (h1.bucket (stdHash ((⟨3⟩ : Integer), "z").1 % h1.buckets.length)).nodes.head?.map
          Node.data = some (⟨3⟩, "z")) ∧
      ∀ k, lookup stdHash Equal h1 k
        = if k = ((⟨3⟩ : Integer), "z").1 then some ((⟨3⟩ : Integer), "z").2
          else lookup stdHash Equal exSeven.1 k :=
  ⟨exSeven_wf, rfl, by decide,
    C19_insert_result stdHash Equal Equal_iff exSeven.1 exSeven.2 exSeven_wf rfl (by decide)
      (⟨3⟩, "z")⟩

/-- C20. The hash table refines a finite map, across resizes: for every
sequence of `insert`, `remove(key)` and `clear` calls on an empty table (`Equal`
being the equality of keys) and after every initial part `pre` of it (`post`
being the calls that follow), the calls made so far have returned, and
`find(k)` is `end()` exactly when the replay of `pre` on the abstract map leaves
`k` absent; when the replay leaves `k` with the value `v`, `find(k)`
dereferences to `(k, v)`. -/
theorem C20_refines_finite_map [DecidableEq Key] (hash : Key → Nat) (eq : Key → Key → Bool)
    (heq : ∀ a b, eq a b = true ↔ a = b) (pre post : List (Op Key T)) (heap0 : Heap) :
    ∃ h heap, run hash eq pre new heap0 = .ok (h, heap) ∧
      run hash eq (pre ++ post) new heap0 = run hash eq post h heap ∧
      ∀ k, ((find hash eq h k).same h.end_ = true ↔ replay pre (fun _ => none) k = none) ∧
        ∀ v, replay pre (fun _ => none) k = some v → h.deref (find hash eq h k) = .ok (k, v) := by
  have hwf0 : WF hash (new : hashmap Key T) heap0 := WF_replicate hash 16 0 (by decide) heap0
  obtain ⟨h, heap, hr, hwf, hl⟩ := run_refines heq pre hwf0
  have hl0 : ∀ k, lookup hash eq (new : hashmap Key T) k = none :=
    fun k => lookup_replicate hash eq 16 0 k
  have hl1 : ∀ k, lookup hash eq h k = replay pre (fun _ => none) k := by
    intro k
    rw [hl]
    exact replay_congr pre _ _ hl0 k
  refine ⟨h, heap, hr, by rw [run_concat, hr], ?_⟩
  intro k
  constructor
  · rw [← hl1]
    constructor
    · intro hsame
      cases hlk : lookup hash eq h k with
      | none => rfl
      | some v =>
        obtain ⟨n, -, -, hf, -⟩ := find_some heq hwf hlk
        rw [hf] at hsame
        simp [iterator.same, end_] at hsame
    · intro hnone
      rw [find_end hnone]
      simp [iterator.same]
  · intro v hv
    rw [← hl1] at hv
    exact (find_some heq hwf hv).choose_spec.2.2.2

/-- C21. Method `hashmap::remove(key)` on a well-formed table (distinct keys,
each in its home bucket, `size_` the number of entries, a `size_t`): the call
returns, and it returns `true` if and only if the key was in the table;
afterwards `find(k)` is `end()`, `find` gives for every other key the iterator it
gave before, `size_` is one less exactly when `true` is returned, and the
number of buckets is unchanged. -/
theorem C21_remove_result [DecidableEq Key] (hash : Key → Nat) (eq : Key → Key → Bool)
    (heq : ∀ a b, eq a b = true ↔ a = b) (h : hashmap Key T) (heap : Heap)
    (hwf : WF hash h heap) (hsz : h.size_ = h.entries.length)
    (hbound : h.size_ < 18446744073709551616) (k : Key) :
    ∃ h1 flag, remove hash eq h k = .ok (h1, flag) ∧
      (flag = true ↔ k ∈ h.entries.map Prod.fst) ∧
      find hash eq h1 k = h1.end_ ∧
      (∀ k1, k1 ≠ k → find hash eq h1 k1 = find hash eq h k1) ∧
      (flag = true → h1.size_ + 1 = h.size_) ∧ (flag = false → h1.size_ = h.size_) ∧
      h1.buckets.length = h.buckets.length := by
  obtain ⟨h1, hr, -, hlen1, hc1, hs1, hfk, hfo, -⟩ := remove_exact heq hwf k
  have hmem := lookup_none_iff_not_mem heq hwf k
  rw [entries_length] at hsz
  refine ⟨h1, _, hr, ?_, hfk, hfo, ?_, ?_, hlen1⟩
  · cases hl : lookup hash eq h k with
    | none => simpa using hmem.1 hl
    | some v =>
      simp only [Option.isSome_some, true_iff]
      by_contra hk
      rw [hmem.2 hk] at hl
      cases hl
  · intro hflag
    rw [if_pos hflag] at hc1 hs1
    rw [hs1]
    omega
  · intro hflag
    have : ¬ (lookup hash eq h k).isSome = true := by simp [hflag]
    rw [if_neg this] at hs1
    exact hs1

theorem C21_remove_result_witness :
    WF stdHash exSeven.1 exSeven.2 ∧ exSeven.1.size_ = exSeven.1.entries.length ∧
    exSeven.1.size_ < 18446744073709551616 ∧
    ∃ h1 flag, remove stdHash Equal exSeven.1 ⟨3⟩ = .ok (h1, flag) ∧
      (flag = true ↔ (⟨3⟩ : Integer) ∈ exSeven.1.entries.map Prod.fst) ∧
      find stdHash Equal h1 ⟨3⟩ = h1.end_ ∧
      (∀ k1, k1 ≠ (⟨3⟩ : Integer) → find stdHash Equal h1 k1 = find stdHash Equal exSeven.1 k1) ∧
      (flag = true → h1.size_ + 1 = exSeven.1.size_) ∧
      (flag = false → h1.size_ = exSeven.1.size_) ∧
      h1.buckets.length = exSeven.1.buckets.length :=
  ⟨exSeven_wf, rfl, by decide,
    C21_remove_result stdHash Equal Equal_iff exSeven.1 exSeven.2 exSeven_wf rfl (by decide) ⟨3⟩⟩

end hashmap

namespace hashmap

variable {Key T : Type}

/-- C22 (the claim as stated fails). The table `exSeven`, reached from the empty
table by seven calls of `insert` with different keys, has `size_ = 7` and 16
buckets, and the key 8 is not in it; `2 * (7 + 1) >= 16` holds, but the
`insert` of the key 8 leaves the table with 16 buckets. -/
theorem C22_counterexample :
    run stdHash Equal exSevenOps new 0 = .ok (exSeven.1, exSeven.2) ∧
    exSeven.1.size_ = 7 ∧ exSeven.1.buckets.length = 16 ∧
    (⟨8⟩ : Integer) ∉ exSeven.1.entries.map Prod.fst ∧
    insert stdHash Equal exSeven.1 (⟨8⟩, "h") exSeven.2 = .ok exEighth ∧
    ¬ (exEighth.1.buckets.length = 2 * exSeven.1.buckets.length ↔
        2 * (exSeven.1.size_ + 1) ≥ exSeven.1.buckets.length) :=
  ⟨rfl, rfl, rfl, by decide, rfl, by decide⟩

/-- C22 (amended). Resize trigger: for every well-formed table (distinct keys,
each in its home bucket, `size_ = s` the number of entries, a `size_t`, and at
most half the number `b` of buckets, which is the load-factor invariant) and
every key `k` that is not in the table, `insert` of `k` returns, and it doubles
the number of buckets (to `2 * b`) if and only if `2 * s >= b` held before the
call, that is `s / b >= 0.5`; otherwise the number of buckets stays `b`. -/
theorem C22_resize_trigger [DecidableEq Key] (hash : Key → Nat) (eq : Key → Key → Bool)
    (heq : ∀ a b, eq a b = true ↔ a = b) (h : hashmap Key T) (heap : Heap)
    (hwf : WF hash h heap) (hsz : h.size_ = h.entries.length)
    (hload : 2 * h.size_ ≤ h.buckets.length) (hbound : h.size_ < 18446744073709551616)
    (kv : Key × T) (hk : kv.1 ∉ h.entries.map Prod.fst) :
    ∃ h1 it heap1, insert hash eq h kv heap = .ok (h1, it, true, heap1) ∧
      (h1.buckets.length = 2 * h.buckets.length ↔ 2 * h.size_ ≥ h.buckets.length) ∧
      (¬ 2 * h.size_ ≥ h.buckets.length → h1.buckets.length = h.buckets.length) := by
  rw [entries_length] at hsz
  have hl := (lookup_none_iff_not_mem heq hwf kv.1).2 hk
  obtain ⟨h1, a, heap1, hr, -, -, -, hlen1, -⟩ :=
    insert_new_key heq hwf kv hl (by omega) (by omega)
  have hpos := hwf.1
  refine ⟨h1, _, heap1, hr, ?_, ?_⟩
  · by_cases hc : 2 * h.size_ ≥ h.buckets.length
    · rw [if_pos hc] at hlen1
      exact ⟨fun _ => hc, fun _ => hlen1⟩
    · rw [if_neg hc] at hlen1
      constructor
      · intro e
        omega
      · intro e
        exact absurd e hc
  · intro hc
    rw [if_neg hc] at hlen1
    exact hlen1

theorem C22_resize_trigger_witness :
    WF stdHash exEighth.1 exEighth.2.2.2 ∧
    exEighth.1.size_ = exEighth.1.entries.length ∧
    2 * exEighth.1.size_ ≤ exEighth.1.buckets.length ∧
    exEighth.1.size_ < 18446744073709551616 ∧
    ((⟨9⟩ : Integer), "i").1 ∉ exEighth.1.entries.map Prod.fst ∧
    ∃ h1 it heap1,
      insert stdHash Equal exEighth.1 ((⟨9⟩ : Integer), "i") exEighth.2.2.2
        = .ok (h1, it, true, heap1) ∧
      (h1.buckets.length = 2 * exEighth.1.buckets.length ↔
        2 * exEighth.1.size_ ≥ exEighth.1.buckets.length) ∧
      (¬ 2 * exEighth.1.size_ ≥ exEighth.1.buckets.length →
        h1.buckets.length = exEighth.1.buckets.length) :=
  ⟨exEighth_wf, by decide, by decide, by decide, by decide,
    C22_resize_trigger stdHash Equal Equal_iff exEighth.1 exEighth.2.2.2 exEighth_wf
      (by decide) (by decide) (by decide) (⟨9⟩, "i") (by decide)⟩

/-- C23. Load-factor invariant: for every sequence of fewer than `2^64` calls
of `insert`, `remove` and `clear` on the empty table of 16 buckets, after every
call (after every initial part `pre` of the sequence, so in particular
immediately after each `insert` returns) the calls made so far have returned
and `2 * size_ <= bucket_count`, that is `size_ / bucket_count <= 0.5`, where
`size_` is the number of entries of the table. -/
theorem C23_load_factor_invariant [DecidableEq Key] (hash : Key → Nat) (eq : Key → Key → Bool)
    (heq : ∀ a b, eq a b = true ↔ a = b) (pre post : List (Op Key T)) (heap0 : Heap)
    (hlen : pre.length < 18446744073709551616) :
    ∃ h heap, run hash eq pre new heap0 = .ok (h, heap) ∧
      run hash eq (pre ++ post) new heap0 = run hash eq post h heap ∧
      2 * h.size_ ≤ h.buckets.length ∧ h.size_ = h.entries.length := by
  have h0 : count (new : hashmap Key T) = 0 := count_replicate 16 0
  obtain ⟨h, heap, hr, ⟨-, hsz, hload, -⟩, -⟩ :=
    run_keeps_inv heq pre (Inv_empty hash heap0) (by rw [h0]; omega)
  exact ⟨h, heap, hr, by rw [run_concat, hr], hload, by rw [entries_length]; exact hsz⟩

theorem C23_load_factor_invariant_witness :
    exSevenOps.length < 18446744073709551616 ∧
    ∃ h heap, run stdHash Equal exSevenOps new 0 = .ok (h, heap) ∧
      run stdHash Equal (exSevenOps ++ [.insert (⟨8⟩, "h")]) new 0
        = run stdHash Equal [.insert (⟨8⟩, "h")] h heap ∧
      2 * h.size_ ≤ h.buckets.length ∧ h.size_ = h.entries.length :=
  ⟨by decide,
    C23_load_factor_invariant stdHash Equal Equal_iff exSevenOps [.insert (⟨8⟩, "h")] 0
      (by decide)⟩

/-- C24. Well-formedness invariant of `hashmap`: for every sequence of `insert`,
`remove` and `clear` calls on the empty table and after every initial part `pre`
of it (resizes included), the calls made so far have returned, no two entries
of the bucket array have equal keys, every entry with the key `k` lies in the
bucket number `hash(k) mod bucket_count`, and (the calls being fewer than
`2^64`) the field `size_` is the total number of entries over all buckets. -/
theorem C24_hashmap_well_formed [DecidableEq Key] (hash : Key → Nat) (eq : Key → Key → Bool)
    (heq : ∀ a b, eq a b = true ↔ a = b) (pre post : List (Op Key T)) (heap0 : Heap) :
    ∃ h heap, run hash eq pre new heap0 = .ok (h, heap) ∧
      run hash eq (pre ++ post) new heap0 = run hash eq post h heap ∧
      (h.entries.map Prod.fst).Nodup ∧
      (∀ i, i < h.buckets.length → ∀ n ∈ (h.bucket i).nodes,
        hash n.data.1 % h.buckets.length = i) ∧
      (pre.length < 18446744073709551616 →
        h.size_ = ((h.buckets.map (fun b => b.nodes.length)).sum)) := by
  have hwf0 : WF hash (new : hashmap Key T) heap0 := WF_replicate hash 16 0 (by decide) heap0
  obtain ⟨h, heap, hr, hwf, -⟩ := run_refines heq pre hwf0
  refine ⟨h, heap, hr, by rw [run_concat, hr], nodup_flat_keys hwf,
    fun i hi => (hwf.2 i hi).1, ?_⟩
  intro hlen
  exact (reach_table_inv heq hr hlen).1.2.1

/-- C25 (evaluation of the code where the claim fails). The table `exOne`,
reached from the empty table by `insert((1, "A"))`, has `size_ = 1` and one
entry.  Its copy made by the copy constructor, and a new table after the
assignment `operator=` from it, hold one entry and have `size_ = 2`. -/
theorem C25_copy_counts_twice :
    run stdHash Equal [.insert (⟨1⟩, "A")] new 0 = .ok (exOne.1, exOne.2) ∧
    exOne.1.size_ = 1 ∧ exOne.1.entries.length = 1 ∧
    exCopySizes = .ok (2, 1) ∧ exAssignSizes = .ok (2, 1) :=
  ⟨rfl, rfl, rfl, rfl, rfl⟩

/-- C29. Methods `insert` and `expand`, which call each other, terminate, and a
resize is a single doubling: on a well-formed table whose field `size_ = s` (a
`size_t`) and number of entries `n` satisfy `n <= s` and `2 * n <= bucket_count`,
`expand()` returns a table with twice as many buckets, the same `n` entries (no
insertion of its loop meets a key twice) and the same associations; an `insert`
of a new key that calls `expand()` (`2 * s >= bucket_count`) returns a table
with exactly twice as many buckets and `n + 1` entries, and it does so with
fuel two already: no insertion made by `expand()` calls `expand()` again. -/
theorem C29_single_doubling [DecidableEq Key] (hash : Key → Nat) (eq : Key → Key → Bool)
    (heq : ∀ a b, eq a b = true ↔ a = b) (h : hashmap Key T) (heap : Heap)
    (hwf : WF hash h heap) (hns : h.entries.length ≤ h.size_)
    (hnb : 2 * h.entries.length ≤ h.buckets.length) (hsz : h.size_ < 18446744073709551616)
    (hcall : 2 * h.size_ ≥ h.buckets.length) (kv : Key × T)
    (hk : kv.1 ∉ h.entries.map Prod.fst) :
    (∃ h2 heap2, expand hash eq h heap = .ok (h2, heap2) ∧
      h2.buckets.length = 2 * h.buckets.length ∧ h2.entries.length = h.entries.length ∧
      h2.size_ = h.entries.length ∧ ∀ k, lookup hash eq h2 k = lookup hash eq h k) ∧
    ∃ h1 it heap1, insert hash eq h kv heap = .ok (h1, it, true, heap1) ∧
      insertAux hash eq 2 h kv heap = insert hash eq h kv heap ∧
      h1.buckets.length = 2 * h.buckets.length ∧
      h1.entries.length = h.entries.length + 1 := by
  rw [entries_length] at hns hnb
  have hl := (lookup_none_iff_not_mem heq hwf kv.1).2 hk
  constructor
  · obtain ⟨-, h2, heap2, hr, -, -, hlen2, hs2, hc2, hl2⟩ :=
      expandWith_once heq hwf
        (fun h1 e heap1 he a b => insertAux_fuel_irrelevant heap1 he a b)
        (by omega) (by omega)
    refine ⟨h2, heap2, hr, hlen2, ?_, ?_, hl2⟩
    · rw [entries_length, entries_length, hc2]
    · rw [entries_length, hs2, hc2]
  · obtain ⟨h1, a, heap1, hr, hfuel, -, -, hlen1, hc1, -⟩ :=
      insert_new_key heq hwf kv hl (by omega) (by omega)
    refine ⟨h1, _, heap1, hr, hfuel, ?_, ?_⟩
    · rw [hlen1, if_pos hcall]
    · rw [entries_length, entries_length, hc1]

theorem C29_single_doubling_witness :
    WF stdHash exEighth.1 exEighth.2.2.2 ∧
    exEighth.1.entries.length ≤ exEighth.1.size_ ∧
    2 * exEighth.1.entries.length ≤ exEighth.1.buckets.length ∧
    exEighth.1.size_ < 18446744073709551616 ∧
    2 * exEighth.1.size_ ≥ exEighth.1.buckets.length ∧
    ((⟨9⟩ : Integer), "i").1 ∉ exEighth.1.entries.map Prod.fst ∧
    (∃ h2 heap2, expand stdHash Equal exEighth.1 exEighth.2.2.2 = .ok (h2, heap2) ∧
      h2.buckets.length = 2 * exEighth.1.buckets.length ∧
      h2.entries.length = exEighth.1.entries.length ∧
      h2.size_ = exEighth.1.entries.length ∧
      ∀ k, lookup stdHash Equal h2 k = lookup stdHash Equal exEighth.1 k) ∧
    ∃ h1 it heap1,
      insert stdHash Equal exEighth.1 ((⟨9⟩ : Integer), "i") exEighth.2.2.2
        = .ok (h1, it, true, heap1) ∧
      insertAux stdHash Equal 2 exEighth.1 ((⟨9⟩ : Integer), "i") exEighth.2.2.2
        = insert stdHash Equal exEighth.1 ((⟨9⟩ : Integer), "i") exEighth.2.2.2 ∧
      h1.buckets.length = 2 * exEighth.1.buckets.length ∧
      h1.entries.length = exEighth.1.entries.length + 1 :=
  ⟨exEighth_wf, by decide, by decide, by decide, by decide, by decide,
    C29_single_doubling stdHash Equal Equal_iff exEighth.1 exEighth.2.2.2 exEighth_wf
      (by decide) (by decide) (by decide) (by decide) (⟨9⟩, "i") (by decide)⟩

end hashmap

namespace hashmap

theorem C20_refines_finite_map_witness :
    (∀ a b, Equal a b = true ↔ a = b) ∧
    ∃ h heap, run stdHash Equal exSevenOps new 0 = .ok (h, heap) ∧
      run stdHash Equal (exSevenOps ++ [.remove ⟨3⟩]) new 0
        = run stdHash Equal [.remove ⟨3⟩] h heap ∧
      ∀ k, ((find stdHash Equal h k).same h.end_ = true ↔
          replay exSevenOps (fun _ => none) k = none) ∧
        ∀ v, replay exSevenOps (fun _ => none) k = some v →
          h.deref (find stdHash Equal h k) = .ok (k, v) :=
  ⟨Equal_iff, C20_refines_finite_map stdHash Equal Equal_iff exSevenOps [.remove ⟨3⟩] 0⟩

theorem C24_hashmap_well_formed_witness :
    (∀ a b, Equal a b = true ↔ a = b) ∧
    ∃ h heap, run stdHash Equal exSevenOps new 0 = .ok (h, heap) ∧
      run stdHash Equal (exSevenOps ++ [.remove ⟨3⟩]) new 0
        = run stdHash Equal [.remove ⟨3⟩] h heap ∧
      (h.entries.map Prod.fst).Nodup ∧
      (∀ i, i < h.buckets.length → ∀ n ∈ (h.bucket i).nodes,
        stdHash n.data.1 % h.buckets.length = i) ∧
      (exSevenOps.length < 18446744073709551616 →
        h.size_ = ((h.buckets.map (fun b => b.nodes.length)).sum)) :=
  ⟨Equal_iff, C24_hashmap_well_formed stdHash Equal Equal_iff exSevenOps [.remove ⟨3⟩] 0⟩

end hashmap

/-! ## Negative capacities, and independence of the hash function -/

namespace lru

variable {T : Type}

theorem to_size_t_negative {N : Int} (hneg : N < 0) (hmin : -2147483648 ≤ N) :
    to_size_t N = (N + 18446744073709551616).toNat := by
  unfold to_size_t
  congr 1
  omega

theorem to_size_t_small (n : Nat) (hn : n < 18446744073709551616) : to_size_t (n : Int) = n := by
  unfold to_size_t
  rw [Int.emod_eq_of_lt (by omega) (by omega)]
  simp

/-- A `save` of a new key in a cache of negative capacity that holds fewer than
`2^31` pairs appends the pair and removes nothing. -/
theorem save_negative {hash : Integer → Nat} {c : lru T} {heap : Heap}
    (hwf : linked_hashmap.WF hash Equal c.memory heap) (hneg : c.capacity < 0)
    (hmin : -2147483648 ≤ c.capacity) (kv : Integer × T) (hk : kv.1 ∉ c.memory.keys)
    (hlen : c.memory.entries.length + 1 ≤ 2147483648) :
    ∃ c1 heap1, save hash c kv heap = .ok (c1, heap1) ∧
      linked_hashmap.WF hash Equal c1.memory heap1 ∧ c1.capacity = c.capacity ∧
      c1.memory.entries = c.memory.entries ++ [kv] := by
  obtain ⟨c1, heap1, a, hr, hwf1, hcap, -, hnodes⟩ := save_wf hwf kv
  refine ⟨c1, heap1, hr, hwf1, hcap, ?_⟩
  have hl : c.memory.insert_list.nodes.length = c.memory.entries.length := by
    simp [linked_hashmap.entries]
  have hnot : ¬ (to_size_t (to_int ((c.memory.insert_list.nodes.length : Int) + 1))
      > to_size_t c.capacity) := by
    rw [to_size_t_negative hneg hmin]
    by_cases hmax : (c.memory.insert_list.nodes.length : Int) + 1 ≤ 2147483647
    · have h1 := to_size_t_small (c.memory.insert_list.nodes.length + 1) (by omega)
      push_cast at h1
      rw [to_int_of_range (by omega) hmax, h1]
      omega
    · have h2 : (c.memory.insert_list.nodes.length : Int) + 1 = 2147483647 + 1 := by omega
      rw [h2, to_int_succ_max, to_size_t_negative (by omega) (by omega)]
      omega
  rw [if_neg hk, if_neg hnot] at hnodes
  simp [linked_hashmap.entries, hnodes]

/-- A sequence of `save` calls with different new keys on a cache of negative
capacity, up to `2^31` pairs in all: every pair is appended and nothing is
removed. -/
theorem run_saves_negative {hash : Integer → Nat} (kvs : List (Integer × T)) :
    ∀ {c : lru T} {heap : Heap}, linked_hashmap.WF hash Equal c.memory heap →
      c.capacity < 0 → -2147483648 ≤ c.capacity →
      ((c.memory.entries ++ kvs).map Prod.fst).Nodup →
      c.memory.entries.length + kvs.length ≤ 2147483648 →
      ∃ c1 heap1, run hash (kvs.map Op.save) c heap = .ok (c1, heap1) ∧
        linked_hashmap.WF hash Equal c1.memory heap1 ∧ c1.capacity = c.capacity ∧
        c1.memory.entries = c.memory.entries ++ kvs := by
  induction kvs with
  | nil =>
    intro c heap hwf _ _ _ _
    exact ⟨c, heap, rfl, hwf, rfl, by simp⟩
  | cons kv rest ih =>
    intro c heap hwf hneg hmin hnd hlen
    simp only [List.length_cons] at hlen
    have hk : kv.1 ∉ c.memory.keys := by
      rw [linked_hashmap.keys_eq_map_entries]
      intro hmem
      rw [List.map_append, List.nodup_append] at hnd
      exact hnd.2.2 hmem (by simp)
    obtain ⟨c1, heap1, hr, hwf1, hcap1, he1⟩ := save_negative hwf hneg hmin kv hk (by omega)
    obtain ⟨c2, heap2, hr2, hwf2, hcap2, he2⟩ :=
      ih hwf1 (by rw [hcap1]; exact hneg) (by rw [hcap1]; exact hmin)
        (by rw [he1, List.append_assoc]; exact hnd)
        (by rw [he1, List.length_append, List.length_singleton]; omega)
    refine ⟨c2, heap2, ?_, hwf2, by rw [hcap2, hcap1], ?_⟩
    · simp only [List.map_cons, run, step, hr]
      exact hr2
    · rw [he2, he1, List.append_assoc]
      rfl

/-- The calls `save` of up to `2^31` pairs with different keys on a new cache of
negative capacity: the cache holds the pairs. -/
theorem run_saves_new {hash : Integer → Nat} (N : Int) (hneg : N < 0)
    (hmin : -2147483648 ≤ N) (kvs : List (Integer × T)) (hnd : (kvs.map Prod.fst).Nodup)
    (hlen : kvs.length ≤ 2147483648) (heap0 : Heap) :
    ∃ c heap, run hash (kvs.map Op.save) (new N) heap0 = .ok (c, heap) ∧
      linked_hashmap.WF hash Equal c.memory heap ∧ c.capacity = N ∧
      c.memory.entries = kvs := by
  have hwf0 := linked_hashmap.WF_new (T := T) hash Equal heap0
  have he0 : (new N : lru T).memory.entries = [] := rfl
  obtain ⟨c, heap, hr, hwf, hcap, he⟩ :=
    @run_saves_negative T hash kvs (new N) heap0 hwf0 hneg hmin
      (by rw [he0]; exact hnd) (by rw [he0]; simp; omega)
  rw [he0, List.nil_append] at he
  exact ⟨c, heap, hr, hwf, hcap, he⟩

/-- The value `size()` returns for `2^31 + 1` nodes is above the value the
capacity `INT_MIN` is converted to. -/
theorem size_wrapped_above :
    to_size_t (to_int (((2147483648 : Nat) : Int) + 1)) > to_size_t (-2147483648) := by
  have h1 : to_int (((2147483648 : Nat) : Int) + 1) = -2147483647 := by
    unfold to_int
    omega
  rw [h1, to_size_t_negative (by omega) (by omega), to_size_t_negative (by omega) (by omega)]
  omega

/-- A `save` of a new key in a cache of capacity `INT_MIN` that holds `2^31`
pairs removes the oldest pair. -/
theorem save_wrapped {hash : Integer → Nat} {c : lru T} {heap : Heap}
    (hwf : linked_hashmap.WF hash Equal c.memory heap) (hcap : c.capacity = -2147483648)
    (kv : Integer × T) (hk : kv.1 ∉ c.memory.keys)
    (hlen : c.memory.entries.length = 2147483648) :
    ∃ c1 heap1, save hash c kv heap = .ok (c1, heap1) ∧
      linked_hashmap.WF hash Equal c1.memory heap1 ∧
      c1.memory.entries = (c.memory.entries ++ [kv]).tail := by
  obtain ⟨c1, heap1, a, hr, hwf1, -, -, hnodes⟩ := save_wf hwf kv
  refine ⟨c1, heap1, hr, hwf1, ?_⟩
  have hl : c.memory.insert_list.nodes.length = 2147483648 := by
    rw [← hlen]
    simp [linked_hashmap.entries]
  have hbig : to_size_t (to_int ((c.memory.insert_list.nodes.length : Int) + 1))
      > to_size_t c.capacity := by
    rw [hl, hcap]
    exact size_wrapped_above
  rw [if_neg hk, if_pos hbig] at hnodes
  simp only [linked_hashmap.entries, hnodes, List.map_tail, List.map_append, List.map_cons,
    List.map_nil]

/-- The calls `save` of `2^31 + 1` pairs with different keys on a new cache of
capacity `INT_MIN`: the last call removes the first pair. -/
theorem run_saves_wrapped {hash : Integer → Nat} (front : List (Integer × T))
    (last : Integer × T) (hnd : ((front ++ [last]).map Prod.fst).Nodup)
    (hlen : front.length = 2147483648) (heap0 : Heap) :
    ∃ c heap,
      run hash ((front ++ [last]).map Op.save) (new (-2147483648)) heap0 = .ok (c, heap) ∧
      linked_hashmap.WF hash Equal c.memory heap ∧
      c.memory.entries = (front ++ [last]).tail := by
  have hndf : (front.map Prod.fst).Nodup := by
    rw [List.map_append, List.nodup_append] at hnd
    exact hnd.1
  obtain ⟨c1, heap1, hr1, hwf1, hcap1, he1⟩ :=
    @run_saves_new T hash (-2147483648) (by decide) (by decide) front hndf
      (Nat.le_of_eq hlen) heap0
  have hk : last.1 ∉ c1.memory.keys := by
    rw [linked_hashmap.keys_eq_map_entries, he1]
    intro hmem
    rw [List.map_append, List.nodup_append] at hnd
    exact hnd.2.2 hmem (by simp)
  obtain ⟨c2, heap2, hr2, hwf2, he2⟩ :=
    save_wrapped hwf1 hcap1 last hk (by rw [he1]; exact hlen)
  refine ⟨c2, heap2, ?_, hwf2, by rw [he2, he1]⟩
  rw [List.map_append, run_append, hr1]
  simp only [List.map_cons, List.map_nil, run, step, hr2]

/-- The keys of `exManyPairs` are different, and there are `2^31 + 1` of them. -/
theorem exManyPairs_keys :
    (exManyPairs.map Prod.fst).Nodup ∧ exManyPairs.length = 2147483649 := by
  constructor
  · unfold exManyPairs
    rw [List.map_map]
    refine List.Nodup.map ?_ (List.nodup_range _)
    intro i j hij
    simp only [Function.comp_apply, exPair, Integer.mk.injEq] at hij
    omega
  · unfold exManyPairs
    rw [List.length_map, List.length_range]

theorem map_range_succ_head {α : Type} (f : Nat → α) (n : Nat) :
    (List.range (n + 1)).map f = f 0 :: ((List.range (n + 1)).map f).tail := by
  rw [List.range_succ_eq_map]
  rfl

/-- The first pair of `exManyPairs` has the key `-1`. -/
theorem exManyPairs_head : exManyPairs = ((⟨-1⟩ : Integer), "") :: exManyPairs.tail := by
  have h := map_range_succ_head exPair 2147483648
  rw [show exPair 0 = ((⟨-1⟩ : Integer), "") from rfl] at h
  exact h

/-- With `2^31` nodes, `size()` returns `2^64 - 2^31`. -/
theorem size_wrapped_at {hash : Integer → Nat} {c : lru T} {heap : Heap}
    (hwf : linked_hashmap.WF hash Equal c.memory heap)
    (hlen : c.memory.entries.length = 2147483648) :
    c.memory.size = 18446744071562067968 := by
  have hl : c.memory.insert_list.nodes.length = 2147483648 := by
    rw [← hlen]
    simp [linked_hashmap.entries]
  unfold linked_hashmap.size
  rw [hwf.size_eq, hl]
  have h1 : to_int ((2147483648 : Nat) : Int) = -2147483648 := by
    unfold to_int
    omega
  rw [h1, to_size_t_negative (by omega) (by omega)]
  rfl

/-- C28 (the claim as stated fails beyond the range of the `int` field `size`).
On a new cache of capacity `INT_MIN = -2^31`, the calls `save` of the `2^31 + 1`
pairs of `exManyPairs`, whose keys `-1, 0, …, 2^31 - 1` are different (`2^31 + 1 < 2^63`),
return; the last call finds `size()`, the conversion of the field, above the
converted capacity and removes the first pair: the cache holds `2^31` pairs, and
`get` does not find the key `-1`, it returns a null pointer.  After the first
`2^31` of these calls the cache holds the `2^31` pairs saved, and `size()`
returns `2^64 - 2^31`. -/
theorem C28_counterexample :
    (-2147483648 : Int) < 0 ∧ (exManyPairs.map Prod.fst).Nodup ∧
    exManyPairs.length = 2147483649 ∧ exManyPairs.length < 9223372036854775808 ∧
    ((⟨-1⟩ : Integer), "") ∈ exManyPairs ∧
    (∃ c heap, run stdHash (exManyPairs.map Op.save) (new (-2147483648)) 0 = .ok (c, heap) ∧
      c.memory.entries = exManyPairs.tail ∧ c.memory.entries.length = 2147483648 ∧
      get stdHash c ⟨-1⟩ heap = .ok (c, none, heap)) ∧
    ∃ c heap,
      run stdHash ((exManyPairs.take 2147483648).map Op.save) (new (-2147483648)) 0
        = .ok (c, heap) ∧
      c.memory.entries = exManyPairs.take 2147483648 ∧
      c.memory.size = 18446744071562067968 := by
  have hsplit : exManyPairs
      = (List.range 2147483648).map exPair ++ [((⟨2147483647⟩ : Integer), "")] := by
    unfold exManyPairs
    rw [List.range_succ, List.map_append]
    rfl
  have hfront : ((List.range 2147483648).map exPair).length = 2147483648 := by
    rw [List.length_map, List.length_range]
  have htake : exManyPairs.take 2147483648 = (List.range 2147483648).map exPair := by
    rw [hsplit]
    exact List.take_left' hfront
  obtain ⟨hnd, hlen⟩ := exManyPairs_keys
  have hnd1 : (((List.range 2147483648).map exPair ++ [((⟨2147483647⟩ : Integer), "")]).map
      Prod.fst).Nodup := by
    rw [← hsplit]
    exact hnd
  refine ⟨by decide, hnd, hlen, by rw [hlen]; decide, ?_, ?_, ?_⟩
  · rw [exManyPairs_head]
    exact List.mem_cons_self _ _
  · obtain ⟨c, heap, hr, hwf, he⟩ :=
      @run_saves_wrapped String stdHash ((List.range 2147483648).map exPair)
        ((⟨2147483647⟩ : Integer), "") hnd1 hfront 0
    rw [← hsplit] at hr he
    refine ⟨c, heap, hr, he, ?_, ?_⟩
    · rw [he, List.length_tail, hlen]
    · apply get_miss hwf
      rw [linked_hashmap.keys_eq_map_entries, he]
      have hnd2 := hnd
      rw [exManyPairs_head, List.map_cons, List.nodup_cons] at hnd2
      exact hnd2.1
  · have hndf : (((List.range 2147483648).map exPair).map Prod.fst).Nodup := by
      rw [List.map_append, List.nodup_append] at hnd1
      exact hnd1.1
    obtain ⟨c, heap, hr, hwf, -, he⟩ :=
      @run_saves_new String stdHash (-2147483648) (by decide) (by decide)
        ((List.range 2147483648).map exPair) hndf (Nat.le_of_eq hfront) 0
    rw [htake]
    exact ⟨c, heap, hr, he, size_wrapped_at hwf (by rw [he]; exact hfront)⟩

/-- C28 (amended). A negative capacity disables eviction as long as the number
of nodes is a value of the `int` field `size`: in `memory->size() > capacity`
the `int` is converted to `size_t`, and for a negative `capacity` (an `int`) the
value `capacity mod 2^64` is above `2^63`; after `n` calls of `save` with `n`
different keys, `n ≤ INT_MAX = 2^31 - 1`, on a cache constructed with a negative
capacity, the calls have returned, the cache holds the `n` pairs in the order of
the calls, `size()` is `n`, and `get` finds every one of them: it returns a
pointer that is not null, to a node that holds the pair. -/
theorem C28_negative_capacity (hash : Integer → Nat) (N : Int) (hneg : N < 0)
    (hmin : -2147483648 ≤ N) (kvs : List (Integer × T)) (hnd : (kvs.map Prod.fst).Nodup)
    (hlen : kvs.length ≤ 2147483647) (heap0 : Heap) :
    to_size_t N > 9223372036854775808 ∧
    ∃ c heap, run hash (kvs.map Op.save) (new N) heap0 = .ok (c, heap) ∧
      c.memory.entries = kvs ∧ c.memory.size = kvs.length ∧
      ∀ kv ∈ kvs, ∃ c1 a heap1, get hash c kv.1 heap = .ok (c1, some a, heap1) ∧
        c1.memory.insert_list.deref (some a) = .ok kv := by
  constructor
  · rw [to_size_t_negative hneg hmin]
    omega
  · obtain ⟨c, heap, hr, hwf, -, he⟩ :=
      @run_saves_new T hash N hneg hmin kvs hnd (by omega) heap0
    refine ⟨c, heap, hr, he, ?_, ?_⟩
    · have hl : c.memory.insert_list.nodes.length = kvs.length := by
        rw [← he]; simp [linked_hashmap.entries]
      rw [linked_hashmap.size_eq_length hwf (by rw [hl]; omega), hl]
    · intro kv hkv
      rw [← he] at hkv
      obtain ⟨c1, heap1, a, hg, -, -, hd, -, -⟩ := get_hit (k := kv.1) (v := kv.2) hwf hkv
      exact ⟨c1, a, heap1, hg, hd⟩

theorem C28_negative_capacity_witness :
    (-1 : Int) < 0 ∧ (-2147483648 : Int) ≤ -1 ∧
    (([((⟨1⟩ : Integer), "A"), (⟨2⟩, "B")] : List (Integer × String)).map Prod.fst).Nodup ∧
    ([((⟨1⟩ : Integer), "A"), (⟨2⟩, "B")] : List (Integer × String)).length ≤ 2147483647 ∧
    to_size_t (-1) > 9223372036854775808 ∧
    ∃ c heap,
      run stdHash ([((⟨1⟩ : Integer), "A"), (⟨2⟩, "B")].map Op.save) (new (-1)) 0
        = .ok (c, heap) ∧
      c.memory.entries = [((⟨1⟩ : Integer), "A"), (⟨2⟩, "B")] ∧
      c.memory.size = ([((⟨1⟩ : Integer), "A"), (⟨2⟩, "B")] : List (Integer × String)).length ∧
      ∀ kv ∈ ([((⟨1⟩ : Integer), "A"), (⟨2⟩, "B")] : List (Integer × String)),
        ∃ c1 a heap1, get stdHash c kv.1 heap = .ok (c1, some a, heap1) ∧
          c1.memory.insert_list.deref (some a) = .ok kv :=
  ⟨by decide, by decide, by decide, by decide,
    C28_negative_capacity stdHash (-1) (by decide) (by decide)
      [((⟨1⟩ : Integer), "A"), (⟨2⟩, "B")] (by decide) (by decide) 0⟩

end lru

namespace lru

variable {T : Type}

/-- The entries after a `save`, whatever the capacity, in terms of the entries
before it: the hash function does not occur. -/
theorem save_entries_any {hash : Integer → Nat} {c : lru T} {heap : Heap}
    (hwf : linked_hashmap.WF hash Equal c.memory heap) (kv : Integer × T) :
    ∃ c1 heap1, save hash c kv heap = .ok (c1, heap1) ∧
      linked_hashmap.WF hash Equal c1.memory heap1 ∧ c1.capacity = c.capacity ∧
      c1.memory.entries
        = (if kv.1 ∈ c.memory.entries.map Prod.fst then
            c.memory.entries.filter (fun e => decide (e.1 ≠ kv.1)) ++ [kv]
          else if to_size_t (to_int ((c.memory.entries.length : Int) + 1)) > to_size_t c.capacity
            then (c.memory.entries ++ [kv]).tail
          else c.memory.entries ++ [kv]) := by
  obtain ⟨c1, heap1, a, hr, hwf1, hcap, -, hnodes⟩ := save_wf hwf kv
  refine ⟨c1, heap1, hr, hwf1, hcap, ?_⟩
  have hl : c.memory.insert_list.nodes.length = c.memory.entries.length := by
    simp [linked_hashmap.entries]
  rw [← linked_hashmap.keys_eq_map_entries, ← hl]
  by_cases hk : kv.1 ∈ c.memory.keys
  · rw [if_pos hk] at hnodes ⊢
    simp only [linked_hashmap.entries, hnodes, List.map_append, List.map_cons, List.map_nil]
    rw [linked_hashmap.map_data_filter]
  · rw [if_neg hk] at hnodes ⊢
    by_cases hbig : to_size_t (to_int ((c.memory.insert_list.nodes.length : Int) + 1))
        > to_size_t c.capacity
    · rw [if_pos hbig] at hnodes ⊢
      simp only [linked_hashmap.entries, hnodes, List.map_tail, List.map_append, List.map_cons,
        List.map_nil]
    · rw [if_neg hbig] at hnodes ⊢
      simp only [linked_hashmap.entries, hnodes, List.map_append, List.map_cons, List.map_nil]

/-- One call on two caches with the same entries and the same capacity, built
with two hash functions: the calls return, the caller observes the same, and
the two caches have the same entries afterwards. -/
theorem observe_sim {hash1 hash2 : Integer → Nat} {c1 c2 : lru T} {heap1 heap2 : Heap}
    (hwf1 : linked_hashmap.WF hash1 Equal c1.memory heap1)
    (hwf2 : linked_hashmap.WF hash2 Equal c2.memory heap2)
    (he : c1.memory.entries = c2.memory.entries) (hcap : c1.capacity = c2.capacity)
    (op : Op T) :
    ∃ d1 g1 d2 g2 r, observe hash1 c1 heap1 op = .ok (d1, g1, r) ∧
      observe hash2 c2 heap2 op = .ok (d2, g2, r) ∧
      linked_hashmap.WF hash1 Equal d1.memory g1 ∧ linked_hashmap.WF hash2 Equal d2.memory g2 ∧
      d1.memory.entries = d2.memory.entries ∧ d1.capacity = d2.capacity := by
  cases op with
  | save kv =>
    obtain ⟨d1, g1, hr1, hw1, hc1, he1⟩ := save_entries_any hwf1 kv
    obtain ⟨d2, g2, hr2, hw2, hc2, he2⟩ := save_entries_any hwf2 kv
    refine ⟨d1, g1, d2, g2, none, ?_, ?_, hw1, hw2, ?_, by rw [hc1, hc2, hcap]⟩
    · simp only [observe, step, hr1]
    · simp only [observe, step, hr2]
    · rw [he1, he2, he, hcap]
  | get k =>
    by_cases hk : k ∈ c1.memory.keys
    · obtain ⟨v, hv⟩ := entry_of_mem_keys hk
      have hv2 : (k, v) ∈ c2.memory.entries := by rw [← he]; exact hv
      obtain ⟨d1, g1, a1, hr1, hw1, hc1, hd1, he1, -⟩ := get_hit hwf1 hv
      obtain ⟨d2, g2, a2, hr2, hw2, hc2, hd2, he2, -⟩ := get_hit hwf2 hv2
      refine ⟨d1, g1, d2, g2, some v, ?_, ?_, hw1, hw2, ?_, by rw [hc1, hc2, hcap]⟩
      · simp only [observe, step, hr1, hd1]
      · simp only [observe, step, hr2, hd2]
      · rw [he1, he2, he]
    · have hk2 : k ∉ c2.memory.keys := by
        rw [linked_hashmap.keys_eq_map_entries, ← he, ← linked_hashmap.keys_eq_map_entries]
        exact hk
      refine ⟨c1, heap1, c2, heap2, none, ?_, ?_, hwf1, hwf2, he, hcap⟩
      · simp only [observe, step, get_miss hwf1 hk]
      · simp only [observe, step, get_miss hwf2 hk2]

theorem trace_sim {hash1 hash2 : Integer → Nat} (ops : List (Op T)) :
    ∀ {c1 c2 : lru T} {heap1 heap2 : Heap},
      linked_hashmap.WF hash1 Equal c1.memory heap1 →
      linked_hashmap.WF hash2 Equal c2.memory heap2 →
      c1.memory.entries = c2.memory.entries → c1.capacity = c2.capacity →
      ∃ t, trace hash1 ops c1 heap1 = .ok t ∧ trace hash2 ops c2 heap2 = .ok t ∧
        t.length = ops.length := by
  induction ops with
  | nil =>
    intro c1 c2 heap1 heap2 _ _ _ _
    exact ⟨[], rfl, rfl, rfl⟩
  | cons op rest ih =>
    intro c1 c2 heap1 heap2 hwf1 hwf2 he hcap
    obtain ⟨d1, g1, d2, g2, r, ho1, ho2, hw1, hw2, he1, hc1⟩ := observe_sim hwf1 hwf2 he hcap op
    obtain ⟨t, ht1, ht2, hlen⟩ := ih hw1 hw2 he1 hc1
    refine ⟨(r, d1.memory.entries) :: t, ?_, ?_, by simp [hlen]⟩
    · simp only [trace, ho1, ht1]
    · simp only [trace, ho2, ht2, he1]

/-- C30. The observable behaviour of the cache does not depend on the hash
function: for any two hash functions (every function is consistent with
`Equal`, which is the equality of keys), any capacity, any sequence of `save`
and `get` calls and any two allocator states, the calls return on both caches,
every `get` gives the same result on both (a null pointer, or a pointer to the
same value), and after every call the two caches have the same sequence of
entries in iteration order: the two traces are the same. -/
theorem C30_hash_independence (hash1 hash2 : Integer → Nat) (N : Int) (ops : List (Op T))
    (heap1 heap2 : Heap) :
    ∃ t, trace hash1 ops (new N) heap1 = .ok t ∧ trace hash2 ops (new N) heap2 = .ok t ∧
      t.length = ops.length :=
  @trace_sim T hash1 hash2 ops (new N) (new N) heap1 heap2
    (linked_hashmap.WF_new hash1 Equal heap1) (linked_hashmap.WF_new hash2 Equal heap2) rfl rfl

end lru

/-! ## Lemmas on `double_list` with its pointers -/

namespace pointer

namespace double_list

variable {T : Type}

theorem write_same (mem : Memory T) (a : Nat) (c : Node T) : write mem a c a = some c := by
  simp [write]

theorem write_other (mem : Memory T) (a : Nat) (c : Node T) {b : Nat} (h : b ≠ a) :
    write mem a c b = mem b := by
  simp [write, h]

theorem free_other (mem : Memory T) (a : Nat) {b : Nat} (h : b ≠ a) : free mem a b = mem b := by
  simp [free, h]

theorem lt_of_get {ns : List (sjtu.Node T)} {i : Nat} {n : sjtu.Node T} (h : ns[i]? = some n) :
    i < ns.length := by
  by_contra hc
  rw [List.getElem?_eq_none (by omega)] at h
  cases h

theorem addr_inj {ns : List (sjtu.Node T)} (hnd : (ns.map sjtu.Node.addr).Nodup) {i j : Nat}
    {n m : sjtu.Node T} (hi : ns[i]? = some n) (hj : ns[j]? = some m) (e : n.addr = m.addr) :
    i = j := by
  have hil := lt_of_get hi
  have hjl := lt_of_get hj
  have h1 : (ns.map sjtu.Node.addr)[i]? = some n.addr := by simp [hi]
  have h2 : (ns.map sjtu.Node.addr)[j]? = some n.addr := by simp [hj, e]
  have hlen : (ns.map sjtu.Node.addr).length = ns.length := by simp
  rw [List.getElem?_eq_getElem (by omega)] at h1 h2
  have h3 : (ns.map sjtu.Node.addr)[i] = (ns.map sjtu.Node.addr)[j] := by
    rw [Option.some.inj h1, Option.some.inj h2]
  exact (List.Nodup.getElem_inj_iff hnd).1 h3

theorem prevAt_cons (x : sjtu.Node T) (ns : List (sjtu.Node T)) (i : Nat) :
    prevAt (x :: ns) (i + 1) = if i = 0 then some x.addr else prevAt ns i := by
  unfold prevAt
  cases i with
  | zero => simp
  | succ k => simp

theorem nextAt_cons (x : sjtu.Node T) (ns : List (sjtu.Node T)) (i : Nat) :
    nextAt (x :: ns) (i + 1) = nextAt ns i := by
  unfold nextAt
  simp

theorem prevAt_zero (ns : List (sjtu.Node T)) : prevAt ns 0 = none := by
  simp [prevAt]

theorem mem_of_get {ns : List (sjtu.Node T)} {i : Nat} {n : sjtu.Node T} (h : ns[i]? = some n) :
    n ∈ ns := List.getElem?_mem h

/-- The empty memory and the list `double_list()` represent the empty sequence. -/
theorem Repr_empty_list (mem : Memory T) : Repr mem empty_list [] := by
  refine ⟨?_, by simp, rfl, rfl, rfl⟩
  intro i n h
  simp at h

/-- Method `insert_head(val)` on a list that represents `ns`: the new node, at
the address the allocator gives, comes first. -/
theorem insert_head_repr {mem : Memory T} {l : double_list T} {ns : List (sjtu.Node T)}
    (hrep : Repr mem l ns) {heap : Heap} (hfresh : ∀ n ∈ ns, n.addr < heap) (val : T) :
    ∃ mem1 l1, insert_head mem l val heap = .ok (mem1, l1, heap + 1) ∧
      Repr mem1 l1 (⟨heap, val⟩ :: ns) := by
  obtain ⟨hcell, hnd, hhead, htail, hsize⟩ := hrep
  have hnd1 : ((⟨heap, val⟩ :: ns : List (sjtu.Node T)).map sjtu.Node.addr).Nodup := by
    simp only [List.map_cons, List.nodup_cons]
    refine ⟨?_, hnd⟩
    intro hmem
    obtain ⟨m, hm, hma⟩ := List.mem_map.1 hmem
    have := hfresh m hm
    omega
  cases ns with
  | nil =>
    simp only [List.head?_nil, Option.map_none'] at hhead
    have hres : insert_head mem l val heap
        = .ok (write mem heap { data := val, prev := none, next := none },
            { head := some heap, tail := some heap, size := l.size + 1 }, heap + 1) := by
      simp only [insert_head, hhead]
    refine ⟨_, _, hres, ?_, hnd1, rfl, rfl, ?_⟩
    · intro i n h
      cases i with
      | zero =>
        simp only [List.getElem?_cons_zero, Option.some.injEq] at h
        subst h
        simp [write_same, prevAt, nextAt]
      | succ k => simp at h
    · simp only [List.length_nil, Nat.cast_zero] at hsize
      simp [hsize]
  | cons n0 rest =>
    simp only [List.head?_cons, Option.map_some'] at hhead
    have hne : n0.addr ≠ heap := by
      have := hfresh n0 (List.mem_cons_self _ _)
      omega
    have hc0 := hcell 0 n0 (by simp)
    rw [prevAt_zero] at hc0
    have hres : insert_head mem l val heap
        = .ok (write (write (write mem heap { data := val, prev := none, next := none }) heap
                 { data := val, prev := none, next := some n0.addr }) n0.addr
                 { data := n0.data, prev := some heap, next := nextAt (n0 :: rest) 0 },
            { head := some heap, tail := l.tail, size := l.size + 1 }, heap + 1) := by
      simp only [insert_head, hhead, set_next, write_same, set_prev, write_other _ _ _ hne, hc0]
    refine ⟨_, _, hres, ?_, hnd1, rfl, ?_, ?_⟩
    · intro i n h
      cases i with
      | zero =>
        simp only [List.getElem?_cons_zero, Option.some.injEq] at h
        subst h
        rw [write_other _ _ _ hne.symm, write_same]
        simp [prevAt, nextAt]
      | succ k =>
        simp only [List.getElem?_cons_succ] at h
        rw [prevAt_cons, nextAt_cons]
        cases k with
        | zero =>
          simp only [List.getElem?_cons_zero, Option.some.injEq] at h
          subst h
          rw [write_same]
          simp
        | succ k1 =>
          have hne0 : n.addr ≠ n0.addr := by
            intro e
            have := addr_inj hnd h (by simp : (n0 :: rest)[0]? = some n0) e
            omega
          have hneh : n.addr ≠ heap := by
            have := hfresh n (mem_of_get h)
            omega
          rw [write_other _ _ _ hne0, write_other _ _ _ hneh, write_other _ _ _ hneh,
            hcell _ n h]
          simp
    · show l.tail = _
      rw [htail]
      simp [List.getLast?_cons_cons]
    · show l.size + 1 = _
      rw [hsize]
      simp

theorem prevAt_append_left (ns ms : List (sjtu.Node T)) {i : Nat} (hi : i ≤ ns.length) :
    prevAt (ns ++ ms) i = prevAt ns i := by
  unfold prevAt
  by_cases h0 : i = 0
  · simp [h0]
  · simp only [h0, if_false]
    rw [List.getElem?_append_left (by omega)]

theorem nextAt_append_left (ns ms : List (sjtu.Node T)) {i : Nat} (hi : i + 1 < ns.length) :
    nextAt (ns ++ ms) i = nextAt ns i := by
  unfold nextAt
  rw [List.getElem?_append_left hi]

/-- Method `insert_tail(val)` on a list that represents `ns`: the new node, at
the address the allocator gives, comes last. -/
theorem insert_tail_repr {mem : Memory T} {l : double_list T} {ns : List (sjtu.Node T)}
    (hrep : Repr mem l ns) {heap : Heap} (hfresh : ∀ n ∈ ns, n.addr < heap) (val : T) :
    ∃ mem1 l1, insert_tail mem l val heap = .ok (mem1, l1, heap + 1) ∧
      Repr mem1 l1 (ns ++ [⟨heap, val⟩]) := by
  obtain ⟨hcell, hnd, hhead, htail, hsize⟩ := hrep
  have hnd1 : ((ns ++ [⟨heap, val⟩] : List (sjtu.Node T)).map sjtu.Node.addr).Nodup := by
    rw [List.map_append, List.nodup_append]
    refine ⟨hnd, by simp, ?_⟩
    intro a ha hb
    simp only [List.map_cons, List.map_nil, List.mem_singleton] at hb
    obtain ⟨m, hm, hma⟩ := List.mem_map.1 ha
    have := hfresh m hm
    omega
  cases hl : ns.getLast? with
  | none =>
    have hnil : ns = [] := List.getLast?_eq_none_iff.1 hl
    subst hnil
    simp only [List.getLast?_nil, Option.map_none'] at htail
    have hres : insert_tail mem l val heap
        = .ok (write mem heap { data := val, prev := none, next := none },
            { head := some heap, tail := some heap, size := l.size + 1 }, heap + 1) := by
      simp only [insert_tail, htail]
    refine ⟨_, _, hres, ?_, hnd1, rfl, rfl, ?_⟩
    · intro i n h
      cases i with
      | zero =>
        simp only [List.nil_append, List.getElem?_cons_zero, Option.some.injEq] at h
        subst h
        simp [write_same, prevAt, nextAt]
      | succ k => simp at h
    · simp only [List.length_nil, Nat.cast_zero] at hsize
      simp [hsize]
  | some last =>
    have hlast : ns[ns.length - 1]? = some last := by
      rw [← List.getLast?_eq_getElem?]; exact hl
    have hpos : 0 < ns.length := by
      have := lt_of_get hlast
      omega
    rw [hl] at htail
    simp only [Option.map_some'] at htail
    have hne : last.addr ≠ heap := by
      have := hfresh last (mem_of_get hlast)
      omega
    have hcl := hcell _ last hlast
    have hres : insert_tail mem l val heap
        = .ok (write (write (write mem heap { data := val, prev := none, next := none }) heap
                 { data := val, prev := some last.addr, next := none }) last.addr
                 { data := last.data, prev := prevAt ns (ns.length - 1), next := some heap },
            { head := l.head, tail := some heap, size := l.size + 1 }, heap + 1) := by
      simp only [insert_tail, htail, set_next, write_same, set_prev, write_other _ _ _ hne, hcl]
    refine ⟨_, _, hres, ?_, hnd1, ?_, ?_, ?_⟩
    · intro i n h
      by_cases hi : i < ns.length
      · rw [List.getElem?_append_left hi] at h
        have hneh : n.addr ≠ heap := by
          have := hfresh n (mem_of_get h)
          omega
        rw [prevAt_append_left ns _ (by omega)]
        by_cases hil : i = ns.length - 1
        · subst hil
          rw [hlast] at h
          cases h
          rw [write_same]
          have : nextAt (ns ++ [(⟨heap, val⟩ : sjtu.Node T)]) (ns.length - 1) = some heap := by
            unfold nextAt
            rw [List.getElem?_append_right (by omega)]
            have : ns.length - 1 + 1 - ns.length = 0 := by omega
            rw [this]
            rfl
          rw [this]
        · have hnel : n.addr ≠ last.addr := by
            intro e
            exact hil (addr_inj hnd h hlast e)
          rw [write_other _ _ _ hnel, write_other _ _ _ hneh, write_other _ _ _ hneh,
            hcell _ n h, nextAt_append_left ns _ (by omega)]
      · have hge : ns.length ≤ i := by omega
        rw [List.getElem?_append_right hge] at h
        have hi0 : i - ns.length = 0 := by
          by_contra hc
          obtain ⟨k, hk⟩ : ∃ k, i - ns.length = k + 1 := ⟨i - ns.length - 1, by omega⟩
          rw [hk] at h
          simp at h
        rw [hi0] at h
        simp only [List.getElem?_cons_zero, Option.some.injEq] at h
        subst h
        have hie : i = ns.length := by omega
        subst hie
        rw [write_other _ _ _ hne.symm, write_same]
        have h1 : prevAt (ns ++ [(⟨heap, val⟩ : sjtu.Node T)]) ns.length = some last.addr := by
          unfold prevAt
          rw [if_neg (by omega), List.getElem?_append_left (by omega), hlast]
          rfl
        have h2 : nextAt (ns ++ [(⟨heap, val⟩ : sjtu.Node T)]) ns.length = none := by
          unfold nextAt
          rw [List.getElem?_eq_none (by simp)]
          rfl
        rw [h1, h2]
    · show l.head = _
      rw [hhead]
      cases ns with
      | nil => simp at hpos
      | cons x rest => rfl
    · show some heap = _
      simp
    · show l.size + 1 = _
      rw [hsize]
      simp

theorem prevAt_eraseIdx (ns : List (sjtu.Node T)) (j i : Nat) :
    prevAt (ns.eraseIdx j) i
      = if i = j then prevAt ns j else if i < j then prevAt ns i else prevAt ns (i + 1) := by
  unfold prevAt
  by_cases h0 : i = 0
  · subst h0
    by_cases hj : 0 = j
    · simp [hj]
    · have : 0 < j := by omega
      simp [hj, this]
  · rw [if_neg h0, List.getElem?_eraseIdx]
    by_cases hij : i = j
    · subst hij
      rw [if_pos rfl, if_neg h0, if_pos (by omega)]
    · rw [if_neg hij]
      by_cases hlt : i < j
      · rw [if_pos (by omega), if_pos hlt, if_neg h0]
      · rw [if_neg (by omega), if_neg hlt, if_neg (by omega)]
        have : i - 1 + 1 = i + 1 - 1 := by omega
        rw [this]

theorem nextAt_eraseIdx (ns : List (sjtu.Node T)) (j i : Nat) :
    nextAt (ns.eraseIdx j) i
      = if i + 1 = j then nextAt ns j else if i < j then nextAt ns i else nextAt ns (i + 1) := by
  unfold nextAt
  rw [List.getElem?_eraseIdx]
  by_cases hij : i + 1 = j
  · subst hij
    simp
  · simp only [hij, if_false]
    by_cases hlt : i < j
    · rw [if_pos (by omega), if_pos hlt]
    · rw [if_neg (by omega), if_neg hlt]

/-- The representation of the sequence without its node number `j`, from what
the memory holds for the other nodes: the node before has the `next` of node
`j`, the node after has the `prev` of node `j`, and the others are as before. -/
theorem repr_eraseIdx {mem : Memory T} {l : double_list T} {ns : List (sjtu.Node T)} {j : Nat}
    (hj : j < ns.length) (hnd : (ns.map sjtu.Node.addr).Nodup)
    (hcell : ∀ i m, ns[i]? = some m → i ≠ j →
      mem m.addr = some { data := m.data,
                          prev := if i = j + 1 then prevAt ns j else prevAt ns i,
                          next := if i + 1 = j then nextAt ns j else nextAt ns i })
    (hhead : l.head = if j = 0 then nextAt ns 0 else ns.head?.map sjtu.Node.addr)
    (htail : l.tail = if j + 1 < ns.length then ns.getLast?.map sjtu.Node.addr
      else prevAt ns j)
    (hsize : l.size = (ns.length : Int) - 1) :
    Repr mem l (ns.eraseIdx j) := by
  refine ⟨?_, ?_, ?_, ?_, ?_⟩
  · intro i m h
    rw [List.getElem?_eraseIdx] at h
    by_cases hlt : i < j
    · rw [if_pos hlt] at h
      have hP : prevAt (ns.eraseIdx j) i = prevAt ns i := by
        rw [prevAt_eraseIdx, if_neg (Nat.ne_of_lt hlt), if_pos hlt]
      have hN : nextAt (ns.eraseIdx j) i = if i + 1 = j then nextAt ns j else nextAt ns i := by
        rw [nextAt_eraseIdx, if_pos hlt]
      have hne : ¬ i = j + 1 := by omega
      rw [hP, hN, hcell i m h (Nat.ne_of_lt hlt), if_neg hne]
    · rw [if_neg hlt] at h
      have hP : prevAt (ns.eraseIdx j) i = if i = j then prevAt ns j else prevAt ns (i + 1) := by
        rw [prevAt_eraseIdx, if_neg hlt]
      have hN : nextAt (ns.eraseIdx j) i = nextAt ns (i + 1) := by
        rw [nextAt_eraseIdx, if_neg (by omega), if_neg hlt]
      have hne : ¬ i + 1 + 1 = j := by omega
      have hne2 : i + 1 ≠ j := by omega
      rw [hP, hN, hcell (i + 1) m h hne2, if_neg hne]
      by_cases hij : i = j
      · rw [if_pos hij, if_pos (by omega)]
      · rw [if_neg hij, if_neg (by omega)]
  · exact ((List.eraseIdx_sublist ns j).map _).nodup hnd
  · rw [hhead, List.head?_eq_getElem?, List.head?_eq_getElem?, List.getElem?_eraseIdx]
    by_cases h0 : j = 0
    · simp [h0, nextAt]
    · have : 0 < j := by omega
      simp [h0, this]
  · rw [htail, List.getLast?_eq_getElem?, List.getLast?_eq_getElem?, List.getElem?_eraseIdx,
      List.length_eraseIdx, if_pos hj]
    by_cases h1 : j + 1 < ns.length
    · rw [if_pos h1, if_neg (by omega)]
      have : ns.length - 1 - 1 + 1 = ns.length - 1 := by omega
      rw [this]
    · rw [if_neg h1]
      unfold prevAt
      by_cases h0 : j = 0
      · have hlen : ns.length = 1 := by omega
        have hnone : ns[1]? = none := List.getElem?_eq_none (by omega)
        simp [h0, hlen, hnone]
      · rw [if_neg h0, if_pos (by omega)]
        have : ns.length - 1 - 1 = j - 1 := by omega
        rw [this]
  · rw [hsize, List.length_eraseIdx, if_pos hj]
    omega

theorem get_of_lt (ns : List (sjtu.Node T)) {i : Nat} (h : i < ns.length) :
    ∃ n, ns[i]? = some n :=
  ⟨ns[i], List.getElem?_eq_getElem h⟩

theorem erase_prev_spec {mem : Memory T} (l : double_list T) {ns : List (sjtu.Node T)} {j : Nat}
    {n : sjtu.Node T}
    (hcell : ∀ i m, ns[i]? = some m →
      mem m.addr = some { data := m.data, prev := prevAt ns i, next := nextAt ns i })
    (hnd : (ns.map sjtu.Node.addr).Nodup) (hj : ns[j]? = some n)
    (hhead : l.head = ns.head?.map sjtu.Node.addr) :
    ∃ mem1, erase_prev mem l { data := n.data, prev := prevAt ns j, next := nextAt ns j }
        = .ok (mem1, if j = 0 then nextAt ns 0 else ns.head?.map sjtu.Node.addr) ∧
      ∀ i m, ns[i]? = some m →
        mem1 m.addr = some { data := m.data, prev := prevAt ns i,
                             next := if i + 1 = j then nextAt ns j else nextAt ns i } := by
  have hjl := lt_of_get hj
  by_cases h0 : j = 0
  · subst h0
    refine ⟨mem, ?_, ?_⟩
    · simp [erase_prev, prevAt_zero]
    · intro i m h
      rw [if_neg (by omega)]
      exact hcell i m h
  · obtain ⟨np, hnp⟩ := get_of_lt ns (show j - 1 < ns.length by omega)
    have hprev : prevAt ns j = some np.addr := by
      unfold prevAt
      rw [if_neg h0, hnp]
      rfl
    refine ⟨write mem np.addr
      { data := np.data, prev := prevAt ns (j - 1), next := nextAt ns j }, ?_, ?_⟩
    · simp only [erase_prev, hprev, set_next, hcell _ np hnp, if_neg h0, hhead]
    · intro i m h
      by_cases hij : i + 1 = j
      · have hi : i = j - 1 := by omega
        subst hi
        rw [hnp] at h
        cases h
        rw [write_same, if_pos hij]
      · have hne : m.addr ≠ np.addr := by
          intro e
          have := addr_inj hnd h hnp e
          omega
        rw [write_other _ _ _ hne, if_neg hij]
        exact hcell i m h

theorem erase_next_spec {mem : Memory T} (l : double_list T) {ns : List (sjtu.Node T)} {j : Nat}
    {n : sjtu.Node T} (N : Nat → Ptr)
    (hcell : ∀ i m, ns[i]? = some m →
      mem m.addr = some { data := m.data, prev := prevAt ns i, next := N i })
    (hnd : (ns.map sjtu.Node.addr).Nodup) (hj : ns[j]? = some n)
    (htail : l.tail = ns.getLast?.map sjtu.Node.addr) :
    ∃ mem1, erase_next mem l { data := n.data, prev := prevAt ns j, next := nextAt ns j }
        = .ok (mem1, if j + 1 < ns.length then ns.getLast?.map sjtu.Node.addr
            else prevAt ns j) ∧
      ∀ i m, ns[i]? = some m →
        mem1 m.addr = some { data := m.data,
                             prev := if i = j + 1 then prevAt ns j else prevAt ns i,
                             next := N i } := by
  by_cases h1 : j + 1 < ns.length
  · obtain ⟨nq, hnq⟩ := get_of_lt ns h1
    have hnext : nextAt ns j = some nq.addr := by
      unfold nextAt
      rw [hnq]
      rfl
    refine ⟨write mem nq.addr { data := nq.data, prev := prevAt ns j, next := N (j + 1) }, ?_, ?_⟩
    · simp only [erase_next, hnext, set_prev, hcell _ nq hnq, if_pos h1, htail]
    · intro i m h
      by_cases hij : i = j + 1
      · subst hij
        rw [hnq] at h
        cases h
        rw [write_same, if_pos rfl]
      · have hne : m.addr ≠ nq.addr := by
          intro e
          exact hij (addr_inj hnd h hnq e)
        rw [write_other _ _ _ hne, if_neg hij]
        exact hcell i m h
  · have hnext : nextAt ns j = none := by
      unfold nextAt
      rw [List.getElem?_eq_none (by omega)]
      rfl
    refine ⟨mem, ?_, ?_⟩
    · simp only [erase_next, hnext, if_neg h1]
    · intro i m h
      have := lt_of_get h
      rw [if_neg (by omega)]
      exact hcell i m h

/-- Method `erase(pos)` for an iterator to the node number `j` of a list that
represents `ns`: the list represents `ns` without that node afterwards, and the
iterator returned points to the node that followed it, or is null. -/
theorem erase_repr {mem : Memory T} {l : double_list T} {ns : List (sjtu.Node T)}
    (hrep : Repr mem l ns) {j : Nat} {n : sjtu.Node T} (hj : ns[j]? = some n) :
    ∃ mem1 l1, erase mem l (some n.addr) = .ok (mem1, l1, nextAt ns j) ∧
      Repr mem1 l1 (ns.eraseIdx j) := by
  obtain ⟨hcell, hnd, hhead, htail, hsize⟩ := hrep
  obtain ⟨mem1, hr1, hc1⟩ := erase_prev_spec l hcell hnd hj hhead
  obtain ⟨mem2, hr2, hc2⟩ :=
    erase_next_spec l (fun i => if i + 1 = j then nextAt ns j else nextAt ns i) hc1 hnd hj htail
  have hread : mem1 n.addr
      = some { data := n.data, prev := prevAt ns j, next := nextAt ns j } := by
    rw [hc1 j n hj, if_neg (by omega)]
  refine ⟨free mem2 n.addr,
    { head := if j = 0 then nextAt ns 0 else ns.head?.map sjtu.Node.addr,
      tail := if j + 1 < ns.length then ns.getLast?.map sjtu.Node.addr else prevAt ns j,
      size := l.size - 1 }, ?_, ?_⟩
  · simp only [erase, hcell j n hj, hr1, hread, hr2]
  · apply repr_eraseIdx (lt_of_get hj) hnd
    · intro i m h hij
      have hne : m.addr ≠ n.addr := by
        intro e
        exact hij (addr_inj hnd h hj e)
      rw [free_other _ _ hne]
      exact hc2 i m h
    · rfl
    · rfl
    · show l.size - 1 = _
      rw [hsize]

/-- Method `delete_head()` on a list that represents `ns`: the first node goes,
and nothing happens on a list without nodes. -/
theorem delete_head_repr {mem : Memory T} {l : double_list T} {ns : List (sjtu.Node T)}
    (hrep : Repr mem l ns) :
    ∃ mem1 l1, delete_head mem l = .ok (mem1, l1) ∧ Repr mem1 l1 ns.tail ∧
      (ns = [] → mem1 = mem ∧ l1 = l) := by
  obtain ⟨hcell, hnd, hhead, htail, hsize⟩ := hrep
  cases ns with
  | nil =>
    simp only [List.head?_nil, Option.map_none'] at hhead
    exact ⟨mem, l, by simp only [delete_head, hhead],
      ⟨hcell, hnd, by rw [hhead]; rfl, htail, hsize⟩, fun _ => ⟨rfl, rfl⟩⟩
  | cons n0 rest =>
    simp only [List.head?_cons, Option.map_some'] at hhead
    have h0 : (n0 :: rest)[0]? = some n0 := by simp
    cases rest with
    | nil =>
      have htl : l.tail = some n0.addr := by rw [htail]; rfl
      refine ⟨free mem n0.addr, { head := none, tail := none, size := l.size - 1 }, ?_, ?_, ?_⟩
      · simp only [delete_head, hhead, htl, if_true]
      · refine ⟨?_, by simp, rfl, rfl, ?_⟩
        · intro i m h
          simp at h
        · show l.size - 1 = _
          rw [hsize]
          simp
      · intro h
        cases h
    | cons n1 rest1 =>
      have h1 : (n0 :: n1 :: rest1)[1]? = some n1 := by simp
      obtain ⟨last, hlast⟩ := get_of_lt (n0 :: n1 :: rest1)
        (show (n0 :: n1 :: rest1).length - 1 < (n0 :: n1 :: rest1).length by simp)
      have htl : l.tail = some last.addr := by
        rw [htail, List.getLast?_eq_getElem?, hlast]
        rfl
      have hne : ¬ l.head = l.tail := by
        rw [hhead, htl]
        intro e
        have := addr_inj hnd h0 hlast (Option.some.inj e)
        simp at this
      have hnext0 : nextAt (n0 :: n1 :: rest1) 0 = some n1.addr := by
        simp [nextAt]
      have hc0 := hcell 0 n0 h0
      rw [hnext0] at hc0
      refine ⟨free (write mem n1.addr
          { data := n1.data, prev := none, next := nextAt (n0 :: n1 :: rest1) 1 }) n0.addr,
        { head := some n1.addr, tail := l.tail, size := l.size - 1 }, ?_, ?_, ?_⟩
      · simp only [delete_head, hhead, hc0, set_prev, hcell 1 n1 h1]
        rw [if_neg (by rw [← hhead]; exact hne)]
      · have hrep1 : Repr (free (write mem n1.addr
            { data := n1.data, prev := none, next := nextAt (n0 :: n1 :: rest1) 1 }) n0.addr)
            { head := some n1.addr, tail := l.tail, size := l.size - 1 }
            ((n0 :: n1 :: rest1).eraseIdx 0) := by
          apply repr_eraseIdx (by simp) hnd
          · intro i m h hi0
            have hne0 : m.addr ≠ n0.addr := by
              intro e
              exact hi0 (addr_inj hnd h h0 e)
            rw [free_other _ _ hne0]
            by_cases hi1 : i = 1
            · subst hi1
              rw [h1] at h
              cases h
              rw [write_same, if_pos rfl, if_neg (by omega), prevAt_zero]
            · have hne1 : m.addr ≠ n1.addr := by
                intro e
                exact hi1 (addr_inj hnd h h1 e)
              rw [write_other _ _ _ hne1, hcell i m h, if_neg (by omega), if_neg (by omega)]
          · show some n1.addr = _
            rw [if_pos rfl, hnext0]
          · show l.tail = _
            rw [if_pos (by simp), htail]
          · show l.size - 1 = _
            rw [hsize]
        simpa using hrep1
      · intro h
        cases h

/-- Method `delete_tail()` on a list that represents `ns`: the last node goes,
and nothing happens on a list without nodes. -/
theorem delete_tail_repr {mem : Memory T} {l : double_list T} {ns : List (sjtu.Node T)}
    (hrep : Repr mem l ns) :
    ∃ mem1 l1, delete_tail mem l = .ok (mem1, l1) ∧ Repr mem1 l1 ns.dropLast ∧
      (ns = [] → mem1 = mem ∧ l1 = l) := by
  obtain ⟨hcell, hnd, hhead, htail, hsize⟩ := hrep
  cases hl : ns.getLast? with
  | none =>
    have hnil : ns = [] := List.getLast?_eq_none_iff.1 hl
    subst hnil
    simp only [List.getLast?_nil, Option.map_none'] at htail
    exact ⟨mem, l, by simp only [delete_tail, htail],
      ⟨hcell, hnd, hhead, by rw [htail]; rfl, hsize⟩, fun _ => ⟨rfl, rfl⟩⟩
  | some last =>
    have hlast : ns[ns.length - 1]? = some last := by
      rw [← List.getLast?_eq_getElem?]; exact hl
    have hpos : 0 < ns.length := by
      have := lt_of_get hlast
      omega
    have htl : l.tail = some last.addr := by rw [htail, hl]; rfl
    obtain ⟨n0, h0⟩ := get_of_lt ns hpos
    have hhd : l.head = some n0.addr := by
      rw [hhead, List.head?_eq_getElem?, h0]
      rfl
    have hdrop : ns.dropLast = ns.eraseIdx (ns.length - 1) :=
      List.dropLast_eq_eraseIdx (by omega)
    rw [hdrop]
    by_cases hlen : ns.length = 1
    · have hn0 : n0 = last := by
        rw [hlen] at hlast
        simp only [Nat.sub_self] at hlast
        rw [h0] at hlast
        exact Option.some.inj hlast
      refine ⟨free mem last.addr, { head := none, tail := none, size := l.size - 1 },
        ?_, ?_, ?_⟩
      · simp only [delete_tail, htl, hhd, hn0, if_true]
      · apply repr_eraseIdx (by omega) hnd
        · intro i m h hi
          have := lt_of_get h
          omega
        · show none = _
          rw [if_pos (by omega)]
          unfold nextAt
          rw [List.getElem?_eq_none (by omega)]
          rfl
        · show none = _
          rw [if_neg (by omega)]
          unfold prevAt
          rw [if_pos (by omega)]
        · show l.size - 1 = _
          rw [hsize]
      · intro h
        rw [h] at hpos
        simp at hpos
    · obtain ⟨np, hnp⟩ := get_of_lt ns (show ns.length - 2 < ns.length by omega)
      have hne : ¬ l.head = l.tail := by
        rw [hhd, htl]
        intro e
        have := addr_inj hnd h0 hlast (Option.some.inj e)
        omega
      have hprev : prevAt ns (ns.length - 1) = some np.addr := by
        unfold prevAt
        rw [if_neg (by omega)]
        have : ns.length - 1 - 1 = ns.length - 2 := by omega
        rw [this, hnp]
        rfl
      have hnextl : nextAt ns (ns.length - 1) = none := by
        unfold nextAt
        rw [List.getElem?_eq_none (by omega)]
        rfl
      have hcl := hcell _ last hlast
      rw [hprev] at hcl
      refine ⟨free (write mem np.addr
          { data := np.data, prev := prevAt ns (ns.length - 2), next := none }) last.addr,
        { head := l.head, tail := some np.addr, size := l.size - 1 }, ?_, ?_, ?_⟩
      · simp only [delete_tail, htl, hcl, set_next, hcell _ np hnp]
        rw [if_neg (by rw [← htl]; exact hne)]
      · apply repr_eraseIdx (by omega) hnd
        · intro i m h hi
          have hnel : m.addr ≠ last.addr := by
            intro e
            exact hi (addr_inj hnd h hlast e)
          rw [free_other _ _ hnel]
          by_cases hip : i = ns.length - 2
          · subst hip
            rw [hnp] at h
            cases h
            rw [write_same, if_neg (by omega), if_pos (by omega), hnextl]
          · have hnep : m.addr ≠ np.addr := by
              intro e
              exact hip (addr_inj hnd h hnp e)
            have := lt_of_get h
            rw [write_other _ _ _ hnep, hcell i m h, if_neg (by omega), if_neg (by omega)]
        · show l.head = _
          rw [if_neg (by omega), hhead]
        · show some np.addr = _
          rw [if_neg (by omega), hprev]
        · show l.size - 1 = _
          rw [hsize]
      · intro h
        rw [h] at hpos
        simp at hpos

theorem walk_repr {mem : Memory T} {ns : List (sjtu.Node T)}
    (hcell : ∀ i n, ns[i]? = some n →
      mem n.addr = some { data := n.data, prev := prevAt ns i, next := nextAt ns i })
    (fuel : Nat) :
    ∀ i, ns.length ≤ fuel + i →
      walk mem fuel ((ns[i]?).map sjtu.Node.addr) = (ns.drop i).map sjtu.Node.data := by
  induction fuel with
  | zero =>
    intro i hi
    rw [List.drop_of_length_le (by omega)]
    rfl
  | succ fuel ih =>
    intro i hi
    cases hn : ns[i]? with
    | none =>
      have : ns.length ≤ i := by
        by_contra hc
        rw [List.getElem?_eq_getElem (by omega)] at hn
        cases hn
      rw [List.drop_of_length_le this]
      rfl
    | some n =>
      have hil := lt_of_get hn
      have hd : ns.drop i = n :: ns.drop (i + 1) := by
        rw [List.drop_eq_getElem_cons hil]
        rw [List.getElem?_eq_getElem hil] at hn
        rw [Option.some.inj hn]
      have hstep : walk mem (fuel + 1) (Option.map sjtu.Node.addr (some n))
          = n.data :: walk mem fuel (nextAt ns i) := by
        simp only [Option.map_some', walk, hcell i n hn]
      rw [hstep, hd]
      unfold nextAt
      rw [ih (i + 1) (by omega)]
      rfl

/-- What a list that represents `ns` lets one read: the payloads of `ns` from
`head` along the pointers `next`, `size` as the number of nodes, and `empty()`
exactly when `head` and `tail` are null. -/
theorem repr_reads {mem : Memory T} {l : double_list T} {ns : List (sjtu.Node T)}
    (hrep : Repr mem l ns) :
    toList mem l = ns.map sjtu.Node.data ∧ l.size = ((toList mem l).length : Int) ∧
    (l.empty = true ↔ l.head = none ∧ l.tail = none) := by
  obtain ⟨hcell, hnd, hhead, htail, hsize⟩ := hrep
  have hread : toList mem l = ns.map sjtu.Node.data := by
    unfold toList
    rw [hhead, hsize, List.head?_eq_getElem?]
    have := walk_repr hcell ns.length 0 (by omega)
    simpa using this
  refine ⟨hread, by rw [hread, hsize]; simp, ?_⟩
  unfold empty
  rw [hhead, htail, hsize]
  cases ns with
  | nil => simp
  | cons x rest =>
    simp only [List.length_cons, List.head?_cons, Option.map_some', reduceCtorEq, false_and,
      iff_false, Bool.not_eq_true, beq_eq_false_iff_ne, ne_eq]
    push_cast
    omega

theorem map_eraseIdx_data (ns : List (sjtu.Node T)) (i : Nat) :
    (ns.eraseIdx i).map sjtu.Node.data = (ns.map sjtu.Node.data).eraseIdx i := by
  induction ns generalizing i with
  | nil => rfl
  | cons x rest ih =>
    cases i with
    | zero => rfl
    | succ k => simp [List.eraseIdx, ih]

/-- The operations of the sequence of nodes that the other parts of this
development use for `double_list` give the sequences that the operations on
pointers represent. -/
theorem sequence_model_agrees (ns : List (sjtu.Node T)) (s : Int) (heap : Heap)
    (hnd : (ns.map sjtu.Node.addr).Nodup) :
    (∀ v, (sjtu.double_list.insert_head ⟨ns, s⟩ v heap).1.nodes = ⟨heap, v⟩ :: ns) ∧
    (∀ v, (sjtu.double_list.insert_tail ⟨ns, s⟩ v heap).1.nodes = ns ++ [⟨heap, v⟩]) ∧
    (sjtu.double_list.delete_head ⟨ns, s⟩).nodes = ns.tail ∧
    (∀ i n, ns[i]? = some n →
      sjtu.double_list.erase ⟨ns, s⟩ ⟨some n.addr⟩
        = .ok (⟨ns.eraseIdx i, s - 1⟩, ⟨nextAt ns i⟩)) := by
  refine ⟨fun v => by rw [sjtu.double_list.insert_head_eq],
    fun v => by rw [sjtu.double_list.insert_tail_eq], ?_, ?_⟩
  · cases ns <;> rfl
  · intro i n h
    have key : ∀ (ms : List (sjtu.Node T)) (i : Nat) (n : sjtu.Node T),
        (ms.map sjtu.Node.addr).Nodup → ms[i]? = some n →
        sjtu.double_list.unlink ms n.addr = some (ms.eraseIdx i, nextAt ms i) := by
      intro ms
      induction ms with
      | nil =>
        intro i n _ h
        simp at h
      | cons x rest ih =>
        intro i n hnd h
        cases i with
        | zero =>
          simp only [List.getElem?_cons_zero, Option.some.injEq] at h
          subst h
          simp [sjtu.double_list.unlink, nextAt, List.head?_eq_getElem?]
        | succ k =>
          simp only [List.getElem?_cons_succ] at h
          simp only [List.map_cons, List.nodup_cons] at hnd
          have hne : x.addr ≠ n.addr := by
            intro e
            exact hnd.1 (e ▸ List.mem_map_of_mem _ (mem_of_get h))
          simp only [sjtu.double_list.unlink, hne, if_false, ih k n hnd.2 h, List.eraseIdx,
            nextAt_cons]
    simp only [sjtu.double_list.erase, key ns i n hnd h]

/-- C26. Class `double_list` implements a sequence.  Whenever the memory and the
fields `head`, `tail`, `size` represent a sequence of nodes (the nodes are
linked in both directions in that order), the list read from `head` along the
pointers `next` is the sequence of their payloads, `size` is its length, and
`empty()` holds exactly when `head` and `tail` are both null.  On such a list
(`heap` being the next address the allocator gives), with `s` the sequence
read: `insert_head(v)` gives `v` followed by `s`; `insert_tail(v)` gives `s`
followed by `v`; `delete_head()` and `delete_tail()` drop the first and the
last element, and leave the memory and the fields as they are when `s` is
empty; `erase` of an iterator to the node number `i` gives `s` without its
element number `i` and returns an iterator to the node that followed it (the
null iterator `end()` if none did); `erase` of the null iterator changes
nothing.  After each operation the memory and the fields represent the new
sequence of nodes, so that what is said of `size`, `empty()`, `head` and `tail`
holds again. -/
theorem C26_implements_sequence (mem : Memory T) (l : double_list T) (ns : List (sjtu.Node T))
    (heap : Heap) (hrep : Repr mem l ns) (hfresh : ∀ n ∈ ns, n.addr < heap) :
    (∀ (mem1 : Memory T) (l1 : double_list T) (ns1 : List (sjtu.Node T)), Repr mem1 l1 ns1 →
      toList mem1 l1 = ns1.map sjtu.Node.data ∧ l1.size = ((toList mem1 l1).length : Int) ∧
      (l1.empty = true ↔ l1.head = none ∧ l1.tail = none)) ∧
    (∀ v, ∃ mem1 l1, insert_head mem l v heap = .ok (mem1, l1, heap + 1) ∧
      Repr mem1 l1 (⟨heap, v⟩ :: ns) ∧ toList mem1 l1 = v :: toList mem l) ∧
    (∀ v, ∃ mem1 l1, insert_tail mem l v heap = .ok (mem1, l1, heap + 1) ∧
      Repr mem1 l1 (ns ++ [⟨heap, v⟩]) ∧ toList mem1 l1 = toList mem l ++ [v]) ∧
    (∃ mem1 l1, delete_head mem l = .ok (mem1, l1) ∧ Repr mem1 l1 ns.tail ∧
      toList mem1 l1 = (toList mem l).tail ∧ (toList mem l = [] → mem1 = mem ∧ l1 = l)) ∧
    (∃ mem1 l1, delete_tail mem l = .ok (mem1, l1) ∧ Repr mem1 l1 ns.dropLast ∧
      toList mem1 l1 = (toList mem l).dropLast ∧ (toList mem l = [] → mem1 = mem ∧ l1 = l)) ∧
    (∀ i n, ns[i]? = some n →
      ∃ mem1 l1, erase mem l (some n.addr) = .ok (mem1, l1, (ns[i + 1]?).map sjtu.Node.addr) ∧
        Repr mem1 l1 (ns.eraseIdx i) ∧ toList mem1 l1 = (toList mem l).eraseIdx i) ∧
    erase mem l none = .ok (mem, l, none) := by
  have hs := (repr_reads hrep).1
  have hnil : toList mem l = [] → ns = [] := by
    intro h
    rw [hs] at h
    exact List.map_eq_nil_iff.1 h
  refine ⟨fun mem1 l1 ns1 h => repr_reads h, ?_, ?_, ?_, ?_, ?_, rfl⟩
  · intro v
    obtain ⟨mem1, l1, hr, hrep1⟩ := insert_head_repr hrep hfresh v
    exact ⟨mem1, l1, hr, hrep1, by rw [(repr_reads hrep1).1, hs]; rfl⟩
  · intro v
    obtain ⟨mem1, l1, hr, hrep1⟩ := insert_tail_repr hrep hfresh v
    exact ⟨mem1, l1, hr, hrep1, by rw [(repr_reads hrep1).1, hs]; simp⟩
  · obtain ⟨mem1, l1, hr, hrep1, hemp⟩ := delete_head_repr hrep
    exact ⟨mem1, l1, hr, hrep1, by rw [(repr_reads hrep1).1, hs, List.map_tail],
      fun h => hemp (hnil h)⟩
  · obtain ⟨mem1, l1, hr, hrep1, hemp⟩ := delete_tail_repr hrep
    exact ⟨mem1, l1, hr, hrep1, by rw [(repr_reads hrep1).1, hs, List.map_dropLast],
      fun h => hemp (hnil h)⟩
  · intro i n h
    obtain ⟨mem1, l1, hr, hrep1⟩ := erase_repr hrep h
    exact ⟨mem1, l1, hr, hrep1, by rw [(repr_reads hrep1).1, hs, map_eraseIdx_data]⟩

theorem exList_repr : Repr exList.1 exList.2.1 exNodes := by
  obtain ⟨m1, l1, e1, r1⟩ :=
    @insert_tail_repr String _ _ _ (Repr_empty_list (fun _ => (none : Option (Node String))))
      0 (by simp) "a"
  obtain ⟨m2, l2, e2, r2⟩ := @insert_tail_repr String _ _ _ r1 1 (by simp) "b"
  have : exList = (m2, l2, 2) := by
    unfold exList
    simp only [e1, e2]
  rw [this]
  exact r2

theorem C26_implements_sequence_witness :
    Repr exList.1 exList.2.1 exNodes ∧ (∀ n ∈ exNodes, n.addr < exList.2.2) ∧
    (∀ (mem1 : Memory String) (l1 : double_list String) (ns1 : List (sjtu.Node String)),
      Repr mem1 l1 ns1 →
      toList mem1 l1 = ns1.map sjtu.Node.data ∧ l1.size = ((toList mem1 l1).length : Int) ∧
      (l1.empty = true ↔ l1.head = none ∧ l1.tail = none)) ∧
    (∀ v, ∃ mem1 l1, insert_head exList.1 exList.2.1 v exList.2.2
        = .ok (mem1, l1, exList.2.2 + 1) ∧
      Repr mem1 l1 (⟨exList.2.2, v⟩ :: exNodes) ∧
      toList mem1 l1 = v :: toList exList.1 exList.2.1) ∧
    (∀ v, ∃ mem1 l1, insert_tail exList.1 exList.2.1 v exList.2.2
        = .ok (mem1, l1, exList.2.2 + 1) ∧
      Repr mem1 l1 (exNodes ++ [⟨exList.2.2, v⟩]) ∧
      toList mem1 l1 = toList exList.1 exList.2.1 ++ [v]) ∧
    (∃ mem1 l1, delete_head exList.1 exList.2.1 = .ok (mem1, l1) ∧ Repr mem1 l1 exNodes.tail ∧
      toList mem1 l1 = (toList exList.1 exList.2.1).tail ∧
      (toList exList.1 exList.2.1 = [] → mem1 = exList.1 ∧ l1 = exList.2.1)) ∧
    (∃ mem1 l1, delete_tail exList.1 exList.2.1 = .ok (mem1, l1) ∧
      Repr mem1 l1 exNodes.dropLast ∧
      toList mem1 l1 = (toList exList.1 exList.2.1).dropLast ∧
      (toList exList.1 exList.2.1 = [] → mem1 = exList.1 ∧ l1 = exList.2.1)) ∧
    (∀ i n, exNodes[i]? = some n →
      ∃ mem1 l1, erase exList.1 exList.2.1 (some n.addr)
          = .ok (mem1, l1, (exNodes[i + 1]?).map sjtu.Node.addr) ∧
        Repr mem1 l1 (exNodes.eraseIdx i) ∧
        toList mem1 l1 = (toList exList.1 exList.2.1).eraseIdx i) ∧
    erase exList.1 exList.2.1 none = .ok (exList.1, exList.2.1, none) :=
  ⟨exList_repr, by decide,
    C26_implements_sequence exList.1 exList.2.1 exNodes exList.2.2 exList_repr (by decide)⟩

end double_list

end pointer

end sjtu
